import Mathlib

/-!
# IPASIRBones: backbone extraction over an incremental SAT oracle

Shallow embedding of `src/app/IPASIRBones/IPASIRBones.cpp`.

* The solver behind `ipasir.h` is external: it is a parameter, `Ipasir σ`, the
  five entry points the program calls over a solver state `σ`.
* Every stateful C++ function is a function on `Env σ`: the solver state, a
  chronological log of the calls issued on the solver and of the stores into
  the `backbone` / `candidates` arrays (ghost state, it never influences
  control flow), and what was printed.
* `int` values are `Int`; `vector<int>` and `int*` arrays are `List Int`
  (a store outside the list is dropped, a load outside it reads 0).
  Variable counts are `Nat`: `main` only reaches the algorithms with
  `0 ≤ maxVar ≤ 2147483646`, since it aborts when `maxVar + 1` does not fit `int`.
* `for (int i = a; i <= b; i++)` loops whose body never breaks are folds over
  `List.range' a (b + 1 - a)`.
-/

namespace IPASIRBones

/-! ## Constants of the source -/

/-- `#define SAT 10`. -/
def SAT : Int := 10

/-- `#define UNSAT 20`. -/
def UNSAT : Int := 20

/-! ## The external solver and the instrumented environment -/

/-- The IPASIR entry points used by the program, over a solver state `σ`. -/
structure Ipasir (σ : Type) where
  /-- `ipasir_signature()`. -/
  signature : List Char
  /-- `ipasir_init()`. -/
  init : σ
  /-- `ipasir_add(solver, lit)`. -/
  add : σ → Int → σ
  /-- `ipasir_assume(solver, lit)`. -/
  assume : σ → Int → σ
  /-- `ipasir_solve(solver)`: the answer and the next state. -/
  solve : σ → Int × σ
  /-- `ipasir_val(solver, lit)`. -/
  val : σ → Int → Int

/-- One observable step of a run, in program order. -/
inductive Event where
  /-- `ipasir_init()` was called. -/
  | init
  /-- `ipasir_add(solver, lit)` was called. -/
  | add (lit : Int)
  /-- `ipasir_assume(solver, lit)` was called. -/
  | assume (lit : Int)
  /-- `ipasir_solve(solver)` was called and returned `res`. -/
  | solve (res : Int)
  /-- `ipasir_val(solver, lit)` was called and returned `res`. -/
  | val (lit : Int) (res : Int)
  /-- `backbone[idx] = v` was executed. -/
  | store (idx : Nat) (v : Int)
  /-- `candidates[idx] = 0` was executed in the filtering loop while the entry held `old`. -/
  | filter (idx : Nat) (old : Int)
  deriving DecidableEq, Repr

/-- What the program prints, one item per `printf` (the texts are abstracted). -/
inductive Out where
  /-- The start-up banner, lines 195-205. -/
  | banner
  /-- `c Using incremental SAT solver: ...`. -/
  | solverLine
  /-- The usage text, in its MiniSat or CaDiCaL variant. -/
  | usage (minisat : Bool)
  /-- `Cannot choose -s and -t at same time, exiting...`. -/
  | cannotChoose
  /-- `Option -i is only available for MiniSat, exiting...`. -/
  | onlyMinisat
  /-- `The input formula ... could not be loaded.`. -/
  | notLoaded
  /-- `Formula unsatisfiable. Program ended.`. -/
  | unsatisfiable
  /-- `c Algorithm 1: Naive Iterative (FlamaPy)` with or without the injection suffix. -/
  | algo1 (inject : Bool)
  /-- `c Algorithm 2/3: Advanced Iterative ...` with or without the injection suffix. -/
  | algo23 (inject : Bool)
  /-- The leading `v` of the backbone line. -/
  | v
  /-- One printed backbone entry, ` %d`. -/
  | lit (x : Int)
  /-- The newline ending the backbone line. -/
  | nl
  /-- `c Backbone count: %d`. -/
  | count (n : Int)
  deriving DecidableEq, Repr

/-- The mutable world a function of the program runs in. -/
structure Env (σ : Type) where
  /-- State of the solver behind the `void* solver` handle. -/
  solver : σ
  /-- Calls and stores so far, oldest first. -/
  log : List Event
  /-- Standard output so far, oldest first. -/
  out : List Out

/-- `printf(...)`. -/
def printf {σ : Type} (e : Env σ) (o : Out) : Env σ :=
  { e with out := e.out ++ [o] }

/-- Ghost: record an event. -/
def record {σ : Type} (e : Env σ) (ev : Event) : Env σ :=
  { e with log := e.log ++ [ev] }

/-- `ipasir_init()`: from here on the handle `solver` denotes a fresh solver. -/
def ipasir_init {σ : Type} (O : Ipasir σ) (e : Env σ) : Env σ :=
  record { e with solver := O.init } Event.init

/-- `ipasir_add(solver, lit)`. -/
def ipasir_add {σ : Type} (O : Ipasir σ) (e : Env σ) (lit : Int) : Env σ :=
  record { e with solver := O.add e.solver lit } (Event.add lit)

/-- `ipasir_assume(solver, lit)`. -/
def ipasir_assume {σ : Type} (O : Ipasir σ) (e : Env σ) (lit : Int) : Env σ :=
  record { e with solver := O.assume e.solver lit } (Event.assume lit)

/-- `ipasir_solve(solver)`. -/
def ipasir_solve {σ : Type} (O : Ipasir σ) (e : Env σ) : Int × Env σ :=
  ((O.solve e.solver).1,
   record { e with solver := (O.solve e.solver).2 } (Event.solve (O.solve e.solver).1))

/-- `ipasir_val(solver, lit)`. -/
def ipasir_val {σ : Type} (O : Ipasir σ) (e : Env σ) (lit : Int) : Int × Env σ :=
  (O.val e.solver lit, record e (Event.val lit (O.val e.solver lit)))

/-- `backbone[idx] = v` on a `vector<int>`. -/
def storeBackbone {σ : Type} (e : Env σ) (backbone : List Int) (idx : Nat) (v : Int) :
    Env σ × List Int :=
  (record e (Event.store idx v), backbone.set idx v)

/-! ## `solve_naive` (lines 111-146) -/

/-- Body of the first loop of `solve_naive` (lines 114-125) for one `i`. -/
def naive_pass1_body {σ : Type} (O : Ipasir σ) (inject : Int)
    (st : Env σ × List Int) (i : Nat) : Env σ × List Int :=
  let candidate : Int := -(i : Int)
  let e1 := ipasir_assume O st.1 candidate
  let r := ipasir_solve O e1
  if r.1 = UNSAT then
    let w := storeBackbone r.2 st.2 candidate.natAbs (-candidate)
    if inject ≠ 0 then
      (ipasir_add O (ipasir_add O w.1 (-candidate)) 0, w.2)
    else w
  else (r.2, st.2)

/-- Body of the second loop of `solve_naive` (lines 129-144) for one `i`. -/
def naive_pass2_body {σ : Type} (O : Ipasir σ) (inject : Int)
    (st : Env σ × List Int) (i : Nat) : Env σ × List Int :=
  if st.2.getD i 0 ≠ 0 then st
  else
    let candidate : Int := (i : Int)
    let e1 := ipasir_assume O st.1 candidate
    let r := ipasir_solve O e1
    if r.1 = UNSAT then
      let w := storeBackbone r.2 st.2 candidate.natAbs (-candidate)
      if inject ≠ 0 then
        (ipasir_add O (ipasir_add O w.1 (-candidate)) 0, w.2)
      else w
    else (r.2, st.2)

/-- `solve_naive(solver, backbone, maxVar, inject)`. -/
def solve_naive {σ : Type} (O : Ipasir σ) (e : Env σ) (backbone : List Int)
    (maxVar : Nat) (inject : Int) : Env σ × List Int :=
  let e0 := printf e (Out.algo1 (decide (inject ≠ 0)))
  let p1 := (List.range' 1 maxVar).foldl (naive_pass1_body O inject) (e0, backbone)
  (List.range' 1 maxVar).foldl (naive_pass2_body O inject) p1

/-! ## `solve_advanced` (lines 148-177) -/

/-- State of the loops of `solve_advanced`. -/
structure AdvState (σ : Type) where
  /-- The environment. -/
  env : Env σ
  /-- The caller's `backbone` vector. -/
  backbone : List Int
  /-- The local `candidates` array. -/
  candidates : List Int

/-- Body of the initialisation loop (line 152) for one `lit`. -/
def advanced_init_body {σ : Type} (O : Ipasir σ) (st : Env σ × List Int) (lit : Nat) :
    Env σ × List Int :=
  let r := ipasir_val O st.1 (lit : Int)
  (r.2, st.2.set lit r.1)

/-- Body of the filtering loop (lines 171-173) for one `lit`. -/
def advanced_filter_body {σ : Type} (O : Ipasir σ) (st : Env σ × List Int) (lit : Nat) :
    Env σ × List Int :=
  let r := ipasir_val O st.1 (lit : Int)
  if st.2.getD lit 0 ≠ r.1 then
    (record r.2 (Event.filter lit (st.2.getD lit 0)), st.2.set lit 0)
  else (r.2, st.2)

/-- Body of the main loop of `solve_advanced` (lines 156-175) for one `l`. -/
def advanced_body {σ : Type} (O : Ipasir σ) (maxVar : Nat) (inject : Int)
    (st : AdvState σ) (l : Nat) : AdvState σ :=
  let candidate := st.candidates.getD l 0
  if candidate = 0 then st
  else
    let e1 := ipasir_assume O st.env (-candidate)
    let r := ipasir_solve O e1
    if r.1 = UNSAT then
      let w := storeBackbone r.2 st.backbone candidate.natAbs candidate
      if inject ≠ 0 then
        { st with env := ipasir_add O (ipasir_add O w.1 candidate) 0, backbone := w.2 }
      else { st with env := w.1, backbone := w.2 }
    else
      let f := (List.range' (l + 1) (maxVar - l)).foldl (advanced_filter_body O)
        (r.2, st.candidates)
      { st with env := f.1, candidates := f.2 }

/-- `solve_advanced(solver, backbone, maxVar, inject)`; `candidates` is returned too
(the source leaks it). The fresh array is modelled as zero-filled; entry 0 is never read. -/
def solve_advanced {σ : Type} (O : Ipasir σ) (e : Env σ) (backbone : List Int)
    (maxVar : Nat) (inject : Int) : AdvState σ :=
  let e0 := printf e (Out.algo23 (decide (inject ≠ 0)))
  let c := (List.range' 1 maxVar).foldl (advanced_init_body O)
    (e0, List.replicate (maxVar + 1) 0)
  (List.range' 1 maxVar).foldl (advanced_body O maxVar inject)
    { env := c.1, backbone := backbone, candidates := c.2 }

/-! ## `loadFormula` (lines 27-77) -/

/-- `EOF` of `<stdio.h>`. -/
def EOF : Int := -1

/-- `fgetc(f)` on the unread part of the stream (one `Char` per byte of the file): the
byte read (or `EOF`) and what is left. -/
def fgetc (f : List Char) : Int × List Char :=
  match f with
  | [] => (EOF, [])
  | ch :: t => ((ch.toNat : Int), t)

/-- `isspace(c)` in the C locale. -/
def isspace (c : Int) : Bool := decide (c = 32 ∨ (9 ≤ c ∧ c ≤ 13))

/-- `isdigit(c)`. -/
def isdigit (c : Int) : Bool := decide (48 ≤ c ∧ c ≤ 57)

/-- Two's complement wrap-around of a 32-bit `int` (signed overflow, undefined in C++,
is modelled as what the usual targets do). -/
def wrap32 (x : Int) : Int := (x + 2147483648) % 4294967296 - 2147483648

/-- `abs(x)` on `int`. -/
def c_abs (x : Int) : Int := wrap32 (x.natAbs : Int)

/-- The loop `while (c != '\n') c = fgetc(f);` of lines 39-41, entered with `c` equal to
`'c'` or `'p'`: the stream after the newline, or `none` when the stream ends first
(`fgetc` then returns `EOF` forever and the loop never exits). -/
def skipLine : List Char → Option (List Char)
  | [] => none
  | ch :: t => if (ch.toNat : Int) = 10 then some t else skipLine t

/-- The loop of lines 58-61 entered with the accumulator `num` and the look-ahead `c`:
the final `num`, the first non-digit read, and the rest of the stream. -/
def readDigits : Int → Int → List Char → Int × Int × List Char
  | num, c, [] =>
    if isdigit c then (wrap32 (num * 10 + (c - 48)), EOF, []) else (num, c, [])
  | num, c, ch :: t =>
    if isdigit c then readDigits (wrap32 (num * 10 + (c - 48))) (ch.toNat : Int) t
    else (num, c, ch :: t)

/-- Local state of `loadFormula`. -/
structure LoadState (σ : Type) where
  /-- The environment. -/
  env : Env σ
  /-- Unread part of the file. -/
  f : List Char
  /-- The variable `c`. -/
  c : Int
  /-- The variable `neg`. -/
  neg : Bool
  /-- The reference parameter `maxVar`. -/
  maxVar : Int
  /-- The reference parameter `numClauses`. -/
  numClauses : Int

/-- One pass through the body of the loop of lines 35-74 (entered with `c != EOF`);
`none` when the comment-skipping loop inside never exits. Character codes: 99 is `'c'`,
112 is `'p'`, 45 is `'-'`, 48 is `'0'`, 10 is the newline. -/
def loadIter {σ : Type} (O : Ipasir σ) (st : LoadState σ) : Option (LoadState σ) :=
  let g := fgetc st.f
  if g.1 = 99 ∨ g.1 = 112 then
    match skipLine g.2 with
    | none => none
    | some f1 => some { st with c := 10, f := f1 }
  else if isspace g.1 then some { st with c := g.1, f := g.2 }
  else if g.1 = 45 then some { st with c := g.1, f := g.2, neg := true }
  else if isdigit g.1 then
    let g1 := fgetc g.2
    let d := readDigits (g.1 - 48) g1.1 g1.2
    let num := if st.neg then wrap32 (d.1 * (-1)) else d.1
    let maxVar := if c_abs num > st.maxVar then c_abs num else st.maxVar
    let env := ipasir_add O st.env num
    let numClauses := if num = 0 then wrap32 (st.numClauses + 1) else st.numClauses
    some { env := env, f := d.2.2, c := d.2.1, neg := false, maxVar := maxVar,
           numClauses := numClauses }
  else some { st with c := g.1, f := g.2 }

/-- The loop `while (c != EOF) { ... }` of lines 35-74; `fuel` bounds the number of
loop-head evaluations, `none` is "not finished within `fuel`" or "never finishes". -/
def loadLoop {σ : Type} (O : Ipasir σ) : Nat → LoadState σ → Option (LoadState σ)
  | 0, _ => none
  | fuel + 1, st =>
    if st.c = EOF then some st
    else
      match loadIter O st with
      | none => none
      | some st1 => loadLoop O fuel st1

/-- What `loadFormula` leaves behind: its return value and the reference parameters. -/
structure LoadResult (σ : Type) where
  /-- The return value. -/
  loaded : Bool
  /-- The environment. -/
  env : Env σ
  /-- `maxVar` on return. -/
  maxVar : Int
  /-- `numClauses` on return. -/
  numClauses : Int

/-- `loadFormula(solver, filename, maxVar, numClauses)`. `file` is what
`fopen(filename, "r")` gives: `none` when the file cannot be opened, else its characters. -/
def loadFormula {σ : Type} (O : Ipasir σ) (e : Env σ) (file : Option (List Char))
    (maxVar numClauses : Int) (fuel : Nat) : Option (LoadResult σ) :=
  match file with
  | none => some { loaded := false, env := e, maxVar := maxVar, numClauses := numClauses }
  | some content =>
    match loadLoop O fuel
      { env := e, f := content, c := 0, neg := false, maxVar := 0,
        numClauses := numClauses } with
    | none => none
    | some st =>
      some { loaded := true, env := st.env, maxVar := st.maxVar, numClauses := st.numClauses }

/-! ## `get_options` (lines 79-109) -/

/-- What `get_options` leaves behind: its return value and the reference parameters. -/
structure OptResult (σ : Type) where
  /-- The environment. -/
  env : Env σ
  /-- The return value. -/
  ok : Bool
  /-- `opt_s` on return. -/
  opt_s : Int
  /-- `opt_t` on return. -/
  opt_t : Int
  /-- `opt_i` on return. -/
  opt_i : Int

/-- `get_options(argc, argv, opt_s, opt_t, opt_i)`. `getopt` is external: `opts` is the
sequence of values the successive `getopt(argc, argv, "sti")` calls return before `-1`
(an option letter of `"sti"`, or `'?'` for anything else). -/
def get_options {σ : Type} (e : Env σ) : List Char → Int → Int → Int → OptResult σ
  | [], opt_s, opt_t, opt_i =>
    if ¬ (opt_s ≠ 0 ∨ opt_t ≠ 0) then
      { env := e, ok := true, opt_s := opt_s, opt_t := 1, opt_i := opt_i }
    else { env := e, ok := true, opt_s := opt_s, opt_t := opt_t, opt_i := opt_i }
  | c :: rest, opt_s, opt_t, opt_i =>
    if c = 's' then
      if (1 : Int) ≠ 0 ∧ opt_t ≠ 0 then
        { env := printf e Out.cannotChoose, ok := false, opt_s := 1, opt_t := opt_t,
          opt_i := opt_i }
      else get_options e rest 1 opt_t opt_i
    else if c = 't' then
      if opt_s ≠ 0 ∧ (1 : Int) ≠ 0 then
        { env := printf e Out.cannotChoose, ok := false, opt_s := opt_s, opt_t := 1,
          opt_i := opt_i }
      else get_options e rest opt_s 1 opt_i
    else if c = 'i' then get_options e rest opt_s opt_t 1
    else { env := e, ok := false, opt_s := opt_s, opt_t := opt_t, opt_i := opt_i }

/-! ## `print_backbone` (lines 179-190) -/

/-- Body of the loop of `print_backbone` for one `i`; the state is the environment and
`bb_count`. -/
def print_backbone_body {σ : Type} (backbone : List Int) (st : Env σ × Int) (i : Nat) :
    Env σ × Int :=
  if backbone.getD i 0 ≠ 0 then (printf st.1 (Out.lit (backbone.getD i 0)), st.2 + 1)
  else st

/-- `print_backbone(backbone)`, for a vector of size at least 1 (as `main` passes). -/
def print_backbone {σ : Type} (e : Env σ) (backbone : List Int) : Env σ :=
  let r := (List.range' 1 (backbone.length - 1)).foldl (print_backbone_body backbone)
    (printf e Out.v, 0)
  printf (printf r.1 Out.nl) (Out.count r.2)

/-! ## `main` (lines 193-262) -/

/-- `strstr(hay, needle) != NULL`. -/
def strstr (hay needle : List Char) : Bool :=
  hay.tails.any (fun t => needle.isPrefixOf t)

/-- What a finished run of `main` leaves behind. -/
structure MainResult (σ : Type) where
  /-- The exit status `main` returns; `none` when the run ends in `abort` (an uncaught
  exception) instead of returning. -/
  status : Option Int
  /-- The environment at exit. -/
  env : Env σ
  /-- The local vector `Backbone` at exit, when the run got as far as declaring it. -/
  backbone : Option (List Int)

/-- `main(argc, argv)`. `opts` is what `getopt` yields on `argv` (see `get_options`),
`file` what `fopen(argv[1], "r")` yields (see `loadFormula`), `fuel` bounds the loop of
`loadFormula`. Before `ipasir_init()` on line 237 there is no solver: until then the field
`solver` of the environment is a placeholder that nothing reads. The size `numVar + 1` of
`Backbone` (line 251) is computed in `int`; when it wraps to a negative number the
constructor of `vector` is asked for more than `max_size()` elements and throws, and the
uncaught exception ends the run in `abort` (memory is assumed to suffice otherwise). -/
def main {σ : Type} (O : Ipasir σ) (argc : Int) (opts : List Char)
    (file : Option (List Char)) (fuel : Nat) : Option (MainResult σ) :=
  let is_minisat := strstr O.signature "minisat".toList
  let e := printf (printf { solver := O.init, log := [], out := [] } Out.banner) Out.solverLine
  if argc < 2 then
    some { status := some 1, env := printf e (Out.usage is_minisat), backbone := none }
  else
    let g := get_options e opts 0 0 0
    if ¬ g.ok then some { status := some 1, env := g.env, backbone := none }
    else if g.opt_i ≠ 0 ∧ ¬ is_minisat then
      some { status := some 1, env := printf g.env Out.onlyMinisat, backbone := none }
    else
      match loadFormula O (ipasir_init O g.env) file 0 0 fuel with
      | none => none
      | some ld =>
        if ¬ ld.loaded then
          some { status := some 2, env := printf ld.env Out.notLoaded, backbone := none }
        else
          let r := ipasir_solve O ld.env
          if r.1 = UNSAT then
            some { status := some UNSAT, env := printf r.2 Out.unsatisfiable,
                   backbone := none }
          else
            let size := wrap32 (ld.maxVar + 1)
            if size < 0 then some { status := none, env := r.2, backbone := none }
            else
              let Backbone : List Int := List.replicate size.toNat 0
              let res : Env σ × List Int :=
                if g.opt_s ≠ 0 then solve_naive O r.2 Backbone ld.maxVar.toNat g.opt_i
                else if g.opt_t ≠ 0 then
                  ((solve_advanced O r.2 Backbone ld.maxVar.toNat g.opt_i).env,
                   (solve_advanced O r.2 Backbone ld.maxVar.toNat g.opt_i).backbone)
                else (r.2, Backbone)
              some { status := some SAT, env := print_backbone res.1 res.2,
                     backbone := some res.2 }

/-! ## Propositional semantics and the oracle contract (spec §4.1) -/

/-- A total truth assignment to the variables `1, 2, ...`. -/
abbrev Assignment := Nat → Bool

/-- Truth of a literal: `v` is the variable `v` true, `-v` the variable `v` false; `0` is
no literal and is never true. -/
def litTrue (m : Assignment) (l : Int) : Bool :=
  if 0 < l then m l.natAbs else if l < 0 then !(m l.natAbs) else false

/-- A clause holds when one of its literals does. -/
def clauseSat (m : Assignment) (c : List Int) : Bool := c.any (litTrue m)

/-- A formula (list of clauses) holds when all its clauses do. -/
def formulaSat (m : Assignment) (F : List (List Int)) : Bool := F.all (clauseSat m)

/-- All the given literals hold. -/
def litsTrue (m : Assignment) (ls : List Int) : Bool := ls.all (litTrue m)

/-- The formula has a model. -/
def Satisfiable (F : List (List Int)) : Prop := ∃ m : Assignment, formulaSat m F = true

/-- Every model of `F` makes the literal `l` true. -/
def Entails (F : List (List Int)) (l : Int) : Prop :=
  ∀ m : Assignment, formulaSat m F = true → litTrue m l = true

/-- Every model of `F` sets the variable `v` true. -/
def AlwaysTrue (F : List (List Int)) (v : Nat) : Prop :=
  ∀ m : Assignment, formulaSat m F = true → m v = true

/-- Every model of `F` sets the variable `v` false. -/
def AlwaysFalse (F : List (List Int)) (v : Nat) : Prop :=
  ∀ m : Assignment, formulaSat m F = true → m v = false

/-- The vector `bb` is the backbone of `F` on the variables `1..maxVar`: entry `i` is `i`
iff every model sets `i` true, `-i` iff every model sets `i` false, and `0` otherwise. -/
def IsBackbone (F : List (List Int)) (maxVar : Nat) (bb : List Int) : Prop :=
  ∀ i : Nat, 1 ≤ i → i ≤ maxVar →
    (bb.getD i 0 = (i : Int) ↔ AlwaysTrue F i) ∧
    (bb.getD i 0 = -(i : Int) ↔ AlwaysFalse F i) ∧
    ((¬ AlwaysTrue F i ∧ ¬ AlwaysFalse F i) → bb.getD i 0 = 0)

/-- The vector of length `len` that holds the backbone literal of `F` at every index
`1..maxVar` inside the vector and `0` everywhere else. -/
def BackboneVec (F : List (List Int)) (maxVar len : Nat) (bb : List Int) : Prop :=
  bb.length = len ∧
  ∀ v : Nat,
    ((1 ≤ v ∧ v ≤ maxVar ∧ v < len) →
      (AlwaysTrue F v → bb.getD v 0 = (v : Int)) ∧
      (AlwaysFalse F v → bb.getD v 0 = -(v : Int)) ∧
      (¬ AlwaysTrue F v → ¬ AlwaysFalse F v → bb.getD v 0 = 0)) ∧
    (¬ (1 ≤ v ∧ v ≤ maxVar ∧ v < len) → bb.getD v 0 = 0)

/-- Abstract content of an oracle session (spec §3): the committed clauses, the clause
being built by `add`, and the assumptions registered since the last `solve`. -/
structure View where
  /-- The permanent clause database. -/
  db : List (List Int)
  /-- Literals added since the last terminating `0`. -/
  cur : List Int
  /-- Assumptions for the next `solve`. -/
  assumps : List Int
  deriving DecidableEq, Repr

/-- The `assume`/`solve` part of the contract of spec §4.1, with respect to the
abstraction `view` of the oracle states. -/
structure SolveCorrect {σ : Type} (O : Ipasir σ) (view : σ → View) : Prop where
  /-- `assume(lit)` registers `lit` for the next solve. -/
  assume_view : ∀ s l, view (O.assume s l) =
    { db := (view s).db, cur := (view s).cur, assumps := l :: (view s).assumps }
  /-- `solve` clears the assumptions and keeps the database. -/
  solve_view : ∀ s, view (O.solve s).2 =
    { db := (view s).db, cur := (view s).cur, assumps := [] }
  /-- `solve` answers SAT when database and assumptions have a common model. -/
  solve_sat : ∀ s, (∃ m : Assignment, formulaSat m (view s).db = true ∧
    litsTrue m (view s).assumps = true) → (O.solve s).1 = SAT
  /-- `solve` answers UNSAT when they have none. -/
  solve_unsat : ∀ s, (¬ ∃ m : Assignment, formulaSat m (view s).db = true ∧
    litsTrue m (view s).assumps = true) → (O.solve s).1 = UNSAT

/-- The `add` part of the contract of spec §4.1. -/
structure AddCorrect {σ : Type} (O : Ipasir σ) (view : σ → View) : Prop where
  /-- `add(0)` commits the clause being built. -/
  add_zero : ∀ s, view (O.add s 0) =
    { db := (view s).db ++ [(view s).cur], cur := [], assumps := (view s).assumps }
  /-- `add(lit)` appends `lit` to the clause being built. -/
  add_lit : ∀ s l, l ≠ 0 → view (O.add s l) =
    { db := (view s).db, cur := (view s).cur ++ [l], assumps := (view s).assumps }

/-- The `value` part of the contract of spec §4.1. -/
structure ValCorrect {σ : Type} (O : Ipasir σ) (view : σ → View) : Prop where
  /-- After SAT, `val` reads a model of database and assumptions: `v` or `-v` as the
  model assigns `v`, or `0` only if flipping `v` in the model keeps the database true. -/
  val_model : ∀ s, (O.solve s).1 = SAT → ∃ m : Assignment,
    formulaSat m (view s).db = true ∧ litsTrue m (view s).assumps = true ∧
    ∀ v : Nat, 1 ≤ v →
      (O.val (O.solve s).2 (v : Int) = (v : Int) ∧ m v = true) ∨
      (O.val (O.solve s).2 (v : Int) = -(v : Int) ∧ m v = false) ∨
      (O.val (O.solve s).2 (v : Int) = 0 ∧
        formulaSat (fun x => if x = v then !(m v) else m x) (view s).db = true)

/-- The oracle `O` honours the whole contract of spec §4.1 with respect to the
abstraction `view` of its states, and starts empty. -/
structure Correct {σ : Type} (O : Ipasir σ) (view : σ → View) extends
    SolveCorrect O view, AddCorrect O view, ValCorrect O view : Prop where
  /-- A fresh solver is empty. -/
  init_view : view O.init = { db := [], cur := [], assumps := [] }

/-- The solver state `s` holds a database equivalent to `F` and no pending assumption. -/
def Holds {σ : Type} (view : σ → View) (F : List (List Int)) (s : σ) : Prop :=
  (∀ m : Assignment, formulaSat m (view s).db = formulaSat m F) ∧ (view s).assumps = []

/-- The candidate value `x` is admissible for the variable `j`: it is `j`, `-j` or `0`,
and it is the backbone literal of `j` whenever `j` has one. -/
def CandOk (F : List (List Int)) (j : Nat) (x : Int) : Prop :=
  (x = (j : Int) ∨ x = -(j : Int) ∨ x = 0) ∧
  (AlwaysTrue F j → x = (j : Int)) ∧ (AlwaysFalse F j → x = -(j : Int))

/-- Two loader states, possibly over different oracles, that agree on everything but the
solver, whose abstract contents agree. -/
def LoadSim {σ1 σ2 : Type} (view1 : σ1 → View) (view2 : σ2 → View)
    (a : LoadState σ1) (b : LoadState σ2) : Prop :=
  a.f = b.f ∧ a.c = b.c ∧ a.neg = b.neg ∧ a.maxVar = b.maxVar ∧
  a.numClauses = b.numClauses ∧ view1 a.env.solver = view2 b.env.solver

/-- Every `'c'` or `'p'` of the text is followed, somewhere later, by a newline. -/
def commentsClosed : List Char → Bool
  | [] => true
  | ch :: t =>
    (if (ch.toNat : Int) = 99 ∨ (ch.toNat : Int) = 112 then
      t.any (fun x => decide ((x.toNat : Int) = 10)) else true) && commentsClosed t

/-! ## A reference oracle: exhaustive search -/

/-- All assignments to the variables `1..n` (every other variable false). -/
def allAssignments : Nat → List Assignment
  | 0 => [fun _ => false]
  | n + 1 => (allAssignments n).flatMap
      (fun m => [m, fun x => if x = n + 1 then true else m x])

/-- Largest variable of a list of literals. -/
def maxVarLits (ls : List Int) : Nat := ls.foldr (fun l acc => max l.natAbs acc) 0

/-- Largest variable of a formula. -/
def maxVarOf (F : List (List Int)) : Nat := F.foldr (fun c acc => max (maxVarLits c) acc) 0

/-- State of the reference oracle: its abstract content and the last model found. -/
structure BruteState where
  /-- Database, clause being built, assumptions. -/
  view : View
  /-- Model found by the last SAT answer. -/
  model : Assignment

/-- The first assignment over the variables of `db` and `assumps` satisfying both. -/
def bruteSearch (db : List (List Int)) (assumps : List Int) : Option Assignment :=
  (allAssignments (max (maxVarOf db) (maxVarLits assumps))).find?
    (fun m => formulaSat m db && litsTrue m assumps)

/-- The reference oracle: `solve` tries every assignment. -/
def bruteOracle (sig : List Char) : Ipasir BruteState where
  signature := sig
  init := { view := { db := [], cur := [], assumps := [] }, model := fun _ => false }
  add := fun s l =>
    if l = 0 then
      { s with view := { db := s.view.db ++ [s.view.cur], cur := [],
                         assumps := s.view.assumps } }
    else { s with view := { s.view with cur := s.view.cur ++ [l] } }
  assume := fun s l => { s with view := { s.view with assumps := l :: s.view.assumps } }
  solve := fun s =>
    match bruteSearch s.view.db s.view.assumps with
    | some m => (SAT, { view := { s.view with assumps := [] }, model := m })
    | none => (UNSAT, { s with view := { s.view with assumps := [] } })
  val := fun s l => if s.model l.natAbs then (l.natAbs : Int) else -(l.natAbs : Int)

/-- A solver state of the reference oracle holding the formula `F`. -/
def bruteWith (F : List (List Int)) : BruteState :=
  { view := { db := F, cur := [], assumps := [] }, model := fun _ => false }

/-- The assumption sets and answers of the `solve` calls of a log, oldest first:
`pending` collects the literals assumed since the previous `solve`. -/
def solveRecords : List Event → List Int → List (List Int × Int)
  | [], _ => []
  | Event.assume l :: rest, pending => solveRecords rest (pending ++ [l])
  | Event.solve r :: rest, pending => (pending, r) :: solveRecords rest []
  | Event.init :: rest, _ => solveRecords rest []
  | _ :: rest, pending => solveRecords rest pending

/-- Number of `solve` calls in a log. -/
def solveCount (log : List Event) : Nat :=
  (log.filter (fun ev => match ev with | Event.solve _ => true | _ => false)).length

/-- The literals assumed and not yet consumed by a `solve` at the end of a log that
started with `pending`. -/
def pendingOf : List Event → List Int → List Int
  | [], pending => pending
  | Event.assume l :: rest, pending => pendingOf rest (pending ++ [l])
  | Event.solve _ :: rest, _ => pendingOf rest []
  | Event.init :: rest, _ => pendingOf rest []
  | _ :: rest, pending => pendingOf rest pending

/-- Every store into `backbone` recorded in the log comes directly after a `solve` that
answered UNSAT, itself directly after the assumption of the negation of the stored value. -/
def StoresConfirmed (log : List Event) : Prop :=
  ∀ (k idx : Nat) (x : Int), log[k]? = some (Event.store idx x) →
    ∃ j, k = j + 2 ∧ log[j]? = some (Event.assume (-x)) ∧
      log[j + 1]? = some (Event.solve UNSAT)

/-- Events that neither assume, solve nor store. -/
def Event.quiet : Event → Bool
  | Event.add _ => true
  | Event.val _ _ => true
  | Event.filter _ _ => true
  | _ => false

/-- Invariant linking a log and a backbone vector: no assumption is pending, every
non-zero entry was stored and confirmed by an UNSAT answer under exactly the negated
assumption, and every store is confirmed. -/
def Confirmed (log : List Event) (bb : List Int) : Prop :=
  pendingOf log [] = [] ∧
  (∀ v : Nat, bb.getD v 0 ≠ 0 →
    Event.store v (bb.getD v 0) ∈ log ∧ ([-(bb.getD v 0)], UNSAT) ∈ solveRecords log []) ∧
  StoresConfirmed log

/-- The unit clauses `(b)`, one for every non-zero entry `b` of a backbone vector. -/
def unitClauses (bb : List Int) : List (List Int) :=
  (bb.filter (fun b => decide (b ≠ 0))).map (fun b => [b])

/-- The vector obtained from `bb` by executing, in order, the stores recorded in a log. -/
def replayStores : List Event → List Int → List Int
  | [], bb => bb
  | Event.store idx x :: rest, bb => replayStores rest (bb.set idx x)
  | _ :: rest, bb => replayStores rest bb

/-- The indices of `backbone` written by a log, in order. -/
def storeIndices : List Event → List Nat
  | [] => []
  | Event.store idx _ :: rest => idx :: storeIndices rest
  | _ :: rest => storeIndices rest

/-- Events other than stores into `backbone`. -/
def Event.noStore : Event → Bool
  | Event.store _ _ => false
  | _ => true

/-- Invariant of the backbone vector of a run over the variables `1..N`, started on the
all-zero vector of size `N + 1`: the vector is what the recorded stores produce, every
store wrote `idx` or `-idx` at an index `idx` in `1..N`, no index was written twice, and
every written entry is non-zero. -/
def VecInv (N : Nat) (log : List Event) (bb : List Int) : Prop :=
  bb = replayStores log (List.replicate (N + 1) 0) ∧ bb.length = N + 1 ∧
  (∀ (idx : Nat) (x : Int), Event.store idx x ∈ log →
    1 ≤ idx ∧ idx ≤ N ∧ (x = (idx : Int) ∨ x = -(idx : Int))) ∧
  (storeIndices log).Nodup ∧
  (∀ i ∈ storeIndices log, bb.getD i 0 ≠ 0)

/-- The oracle only ever reports `v`, `-v` or `0` as the value of the variable `v`. -/
def ValInRange {σ : Type} (O : Ipasir σ) : Prop :=
  ∀ (s : σ) (v : Nat), 1 ≤ v →
    O.val s (v : Int) = (v : Int) ∨ O.val s (v : Int) = -(v : Int) ∨ O.val s (v : Int) = 0

/-- Invariant of the main loop of `solve_advanced` over the variables `1..N` after the
steps `1..k`, for an oracle with values in range: the vector invariant holds, only indices
up to `k` were stored, every candidate `j` is `j`, `-j` or `0`, and every index filtered so
far lies in `1..N`, was never stored, and (if still ahead) has candidate `0`. -/
def AdvInv {σ : Type} (N k : Nat) (st : AdvState σ) : Prop :=
  VecInv N st.env.log st.backbone ∧
  (∀ i ∈ storeIndices st.env.log, i ≤ k) ∧
  st.candidates.length = N + 1 ∧
  (∀ j : Nat, 1 ≤ j → j ≤ N →
    st.candidates.getD j 0 = (j : Int) ∨ st.candidates.getD j 0 = -(j : Int) ∨
    st.candidates.getD j 0 = 0) ∧
  (∀ (idx : Nat) (old : Int), Event.filter idx old ∈ st.env.log →
    1 ≤ idx ∧ idx ≤ N ∧ idx ∉ storeIndices st.env.log ∧
    (k < idx → st.candidates.getD idx 0 = 0))

/-! ## A scripted oracle whose values leave their own variable -/

/-- A stub oracle for three variables; its state counts the `solve` calls made. The first
`solve` answers SAT and the later ones UNSAT; `val` follows a fixed script in which the
value read for variable 2 is the literal 3. -/
def scriptedOracle : Ipasir Nat where
  signature := []
  init := 0
  add := fun s _ => s
  assume := fun s _ => s
  solve := fun s => (if s = 0 then SAT else UNSAT, s + 1)
  val := fun s l => if l = 1 then 1 else if s = 0 then 3 else if l = 2 then 3 else -3

/-! ## Replaying a record of oracle calls on the abstract content -/

/-- Effect of one recorded call on the abstract content of a solver, as the contract of
the oracle prescribes: `init` gives an empty solver, `add(0)` commits the clause being
built, `add(lit)` extends it,
`assume` registers a literal, `solve` clears the assumptions; reads and writes of the
engine's own arrays leave the solver alone. -/
def replayEvent (v : View) : Event → View
  | Event.init => { db := [], cur := [], assumps := [] }
  | Event.add l =>
    if l = 0 then { db := v.db ++ [v.cur], cur := [], assumps := v.assumps }
    else { db := v.db, cur := v.cur ++ [l], assumps := v.assumps }
  | Event.assume l => { db := v.db, cur := v.cur, assumps := l :: v.assumps }
  | Event.solve _ => { db := v.db, cur := v.cur, assumps := [] }
  | _ => v

/-- Abstract content after the calls of `log`, oldest first, starting from `v`. -/
def replayView (log : List Event) (v : View) : View := log.foldl replayEvent v

/-- A stretch of a record that either contains no `add` call, or is exactly the
confirmation of a literal `x` entailed by `F` followed by its injection: `assume(-x)`,
`solve` answering UNSAT, the store of `x` into the backbone, `add(x)`, `add(0)`. -/
def InjectionBlock (F : List (List Int)) (seg : List Event) : Prop :=
  (∀ x : Int, Event.add x ∉ seg) ∨
  ∃ x : Int, x ≠ 0 ∧ Entails F x ∧
    seg = [Event.assume (-x), Event.solve UNSAT, Event.store x.natAbs x,
           Event.add x, Event.add 0]

/-- The record `log` of a run that started on the content `v0` and ended on the content
`final` only injects implied unit clauses: `final` is the replay of `log`; after every
initial part of `log` the database is equivalent to `F` and extends the initial one;
and `log` splits into injection blocks. -/
def InjectionSound (F : List (List Int)) (v0 : View) (log : List Event) (final : View) :
    Prop :=
  final = replayView log v0 ∧
  (∀ pre post : List Event, log = pre ++ post →
    (∀ m : Assignment, formulaSat m (replayView pre v0).db = formulaSat m F) ∧
    ∃ us : List (List Int), (replayView pre v0).db = v0.db ++ us) ∧
  ∃ segs : List (List Event), log = segs.flatten ∧ ∀ seg ∈ segs, InjectionBlock F seg

/-- Invariant of both algorithms: the solver holds `F` and the record so far is sound. -/
def InjInv {σ : Type} (view : σ → View) (F : List (List Int)) (v0 : View) (e : Env σ) :
    Prop :=
  Holds view F e.solver ∧ InjectionSound F v0 e.log (view e.solver)

/-! ## The input format, as the specification words it -/

/-- A piece of an input text: one whitespace character; a skipped line, from its first
character (`c` or `p`) to its newline; or a decimal integer, with or without a leading
`-`, together with the whitespace character that ends it. -/
inductive Item where
  /-- One whitespace character. -/
  | space (ch : Char)
  /-- A line starting with `first`, with `body` before its newline. -/
  | skipped (first : Char) (body : List Char)
  /-- An integer written `-`? `digits`, ended by the whitespace character `sep`. -/
  | number (neg : Bool) (digits : List Char) (sep : Char)

/-- The characters `digits` are a decimal numeral: at least one, all of them digits. -/
def wfNumeral (digits : List Char) : Bool :=
  !digits.isEmpty && digits.all (fun ch => isdigit (ch.toNat : Int))

/-- The piece is well formed: a whitespace character; a first character `c` or `p` and no
newline inside the line; a numeral ended by a whitespace character. -/
def Item.wf : Item → Bool
  | Item.space ch => isspace (ch.toNat : Int)
  | Item.skipped first body =>
    (decide ((first.toNat : Int) = 99) || decide ((first.toNat : Int) = 112)) &&
      body.all (fun ch => decide ((ch.toNat : Int) ≠ 10))
  | Item.number _ digits sep => wfNumeral digits && isspace (sep.toNat : Int)

/-- Value of a decimal numeral, with `acc` the value of the digits before it. -/
def decimalValue (acc : Int) (digits : List Char) : Int :=
  digits.foldl (fun a ch => a * 10 + ((ch.toNat : Int) - 48)) acc

/-- The integer written `-`? `digits`. -/
def numeralValue (neg : Bool) (digits : List Char) : Int :=
  if neg then -(decimalValue 0 digits) else decimalValue 0 digits

/-- The characters of the integer written `-`? `digits`. -/
def renderNumeral (neg : Bool) (digits : List Char) : List Char :=
  (if neg then ['-'] else []) ++ digits

/-- The characters of a piece. -/
def Item.render : Item → List Char
  | Item.space ch => [ch]
  | Item.skipped first body => first :: body ++ ['\n']
  | Item.number neg digits sep => renderNumeral neg digits ++ [sep]

/-- The integer of a piece, if it is one. -/
def Item.value : Item → Option Int
  | Item.number neg digits _ => some (numeralValue neg digits)
  | _ => none

/-- An input text: its pieces in order, then possibly a last integer that the end of the
file ends. -/
def renderText (items : List Item) (last : Option (Bool × List Char)) : List Char :=
  (items.map Item.render).flatten ++
    (match last with
     | none => []
     | some t => renderNumeral t.1 t.2)

/-- The integers of the non-skipped lines of an input text, in file order. -/
def integersOf (items : List Item) (last : Option (Bool × List Char)) : List Int :=
  items.filterMap Item.value ++
    (match last with
     | none => []
     | some t => [numeralValue t.1 t.2])

/-- The largest absolute value among `vals` and `acc`. -/
def maxAbs (acc : Int) (vals : List Int) : Int :=
  vals.foldl (fun a v => max a (v.natAbs : Int)) acc

/-- Number of loop iterations `loadFormula` spends on a piece. -/
def Item.cost : Item → Nat
  | Item.number true _ _ => 2
  | _ => 1

/-! ## Basic facts about the environment -/

@[simp] theorem printf_log {σ : Type} (e : Env σ) (o : Out) : (printf e o).log = e.log := rfl

@[simp] theorem printf_solver {σ : Type} (e : Env σ) (o : Out) :
    (printf e o).solver = e.solver := rfl

@[simp] theorem printf_out {σ : Type} (e : Env σ) (o : Out) :
    (printf e o).out = e.out ++ [o] := rfl

@[simp] theorem record_log {σ : Type} (e : Env σ) (ev : Event) :
    (record e ev).log = e.log ++ [ev] := rfl

@[simp] theorem record_solver {σ : Type} (e : Env σ) (ev : Event) :
    (record e ev).solver = e.solver := rfl

@[simp] theorem record_out {σ : Type} (e : Env σ) (ev : Event) : (record e ev).out = e.out := rfl

@[simp] theorem ipasir_add_log {σ : Type} (O : Ipasir σ) (e : Env σ) (l : Int) :
    (ipasir_add O e l).log = e.log ++ [Event.add l] := rfl

@[simp] theorem ipasir_add_solver {σ : Type} (O : Ipasir σ) (e : Env σ) (l : Int) :
    (ipasir_add O e l).solver = O.add e.solver l := rfl

@[simp] theorem ipasir_add_out {σ : Type} (O : Ipasir σ) (e : Env σ) (l : Int) :
    (ipasir_add O e l).out = e.out := rfl

@[simp] theorem ipasir_assume_log {σ : Type} (O : Ipasir σ) (e : Env σ) (l : Int) :
    (ipasir_assume O e l).log = e.log ++ [Event.assume l] := rfl

@[simp] theorem ipasir_assume_solver {σ : Type} (O : Ipasir σ) (e : Env σ) (l : Int) :
    (ipasir_assume O e l).solver = O.assume e.solver l := rfl

@[simp] theorem ipasir_assume_out {σ : Type} (O : Ipasir σ) (e : Env σ) (l : Int) :
    (ipasir_assume O e l).out = e.out := rfl

@[simp] theorem ipasir_solve_res {σ : Type} (O : Ipasir σ) (e : Env σ) :
    (ipasir_solve O e).1 = (O.solve e.solver).1 := rfl

@[simp] theorem ipasir_solve_log {σ : Type} (O : Ipasir σ) (e : Env σ) :
    (ipasir_solve O e).2.log = e.log ++ [Event.solve (O.solve e.solver).1] := rfl

@[simp] theorem ipasir_solve_solver {σ : Type} (O : Ipasir σ) (e : Env σ) :
    (ipasir_solve O e).2.solver = (O.solve e.solver).2 := rfl

@[simp] theorem ipasir_solve_out {σ : Type} (O : Ipasir σ) (e : Env σ) :
    (ipasir_solve O e).2.out = e.out := rfl

@[simp] theorem ipasir_val_res {σ : Type} (O : Ipasir σ) (e : Env σ) (l : Int) :
    (ipasir_val O e l).1 = O.val e.solver l := rfl

@[simp] theorem ipasir_val_log {σ : Type} (O : Ipasir σ) (e : Env σ) (l : Int) :
    (ipasir_val O e l).2.log = e.log ++ [Event.val l (O.val e.solver l)] := rfl

@[simp] theorem ipasir_val_solver {σ : Type} (O : Ipasir σ) (e : Env σ) (l : Int) :
    (ipasir_val O e l).2.solver = e.solver := rfl

@[simp] theorem ipasir_val_out {σ : Type} (O : Ipasir σ) (e : Env σ) (l : Int) :
    (ipasir_val O e l).2.out = e.out := rfl

@[simp] theorem storeBackbone_log {σ : Type} (e : Env σ) (bb : List Int) (i : Nat) (v : Int) :
    (storeBackbone e bb i v).1.log = e.log ++ [Event.store i v] := rfl

@[simp] theorem storeBackbone_solver {σ : Type} (e : Env σ) (bb : List Int) (i : Nat)
    (v : Int) : (storeBackbone e bb i v).1.solver = e.solver := rfl

@[simp] theorem storeBackbone_out {σ : Type} (e : Env σ) (bb : List Int) (i : Nat) (v : Int) :
    (storeBackbone e bb i v).1.out = e.out := rfl

@[simp] theorem storeBackbone_vec {σ : Type} (e : Env σ) (bb : List Int) (i : Nat) (v : Int) :
    (storeBackbone e bb i v).2 = bb.set i v := rfl

/-- Loop-invariant rule for `for (k = s; k < s + n; k++)` loops. -/
theorem foldl_range_inv {α : Type} (f : α → Nat → α) (Inv : Nat → α → Prop) (s : Nat) :
    ∀ (n : Nat) (a : α), Inv 0 a →
      (∀ k a, k < n → Inv k a → Inv (k + 1) (f a (s + k))) →
      Inv n ((List.range' s n).foldl f a) := by
  intro n
  induction n with
  | zero => intro a h0 _; simpa using h0
  | succ n ih =>
    intro a h0 hstep
    rw [List.range'_concat, List.foldl_append]
    simp only [List.foldl_cons, List.foldl_nil, Nat.one_mul]
    exact hstep n _ (Nat.lt_succ_self n)
      (ih a h0 (fun k a hk hinv => hstep k a (Nat.lt_succ_of_lt hk) hinv))

/-! ## Counting `solve` calls -/

@[simp] theorem solveCount_nil : solveCount [] = 0 := rfl

theorem solveCount_append (l1 l2 : List Event) :
    solveCount (l1 ++ l2) = solveCount l1 + solveCount l2 := by
  simp [solveCount, List.filter_append]

@[simp] theorem solveCount_snoc_solve (l : List Event) (r : Int) :
    solveCount (l ++ [Event.solve r]) = solveCount l + 1 := by
  simp [solveCount, List.filter_append]

@[simp] theorem solveCount_snoc_add (l : List Event) (x : Int) :
    solveCount (l ++ [Event.add x]) = solveCount l := by
  simp [solveCount, List.filter_append]

@[simp] theorem solveCount_snoc_assume (l : List Event) (x : Int) :
    solveCount (l ++ [Event.assume x]) = solveCount l := by
  simp [solveCount, List.filter_append]

@[simp] theorem solveCount_snoc_val (l : List Event) (x r : Int) :
    solveCount (l ++ [Event.val x r]) = solveCount l := by
  simp [solveCount, List.filter_append]

@[simp] theorem solveCount_snoc_store (l : List Event) (i : Nat) (x : Int) :
    solveCount (l ++ [Event.store i x]) = solveCount l := by
  simp [solveCount, List.filter_append]

@[simp] theorem solveCount_snoc_filter (l : List Event) (i : Nat) (x : Int) :
    solveCount (l ++ [Event.filter i x]) = solveCount l := by
  simp [solveCount, List.filter_append]

theorem naive_pass1_body_count {σ : Type} (O : Ipasir σ) (inject : Int)
    (st : Env σ × List Int) (i : Nat) :
    solveCount (naive_pass1_body O inject st i).1.log = solveCount st.1.log + 1 := by
  unfold naive_pass1_body
  simp only []
  split_ifs <;> simp [solveCount_append, solveCount]

theorem naive_pass2_body_count {σ : Type} (O : Ipasir σ) (inject : Int)
    (st : Env σ × List Int) (i : Nat) :
    solveCount (naive_pass2_body O inject st i).1.log ≤ solveCount st.1.log + 1 := by
  unfold naive_pass2_body
  simp only []
  split_ifs <;> simp [solveCount_append, solveCount]

theorem advanced_init_body_count {σ : Type} (O : Ipasir σ) (st : Env σ × List Int) (i : Nat) :
    solveCount (advanced_init_body O st i).1.log = solveCount st.1.log := by
  simp [advanced_init_body, solveCount_append, solveCount]

theorem advanced_filter_body_count {σ : Type} (O : Ipasir σ) (st : Env σ × List Int)
    (i : Nat) : solveCount (advanced_filter_body O st i).1.log = solveCount st.1.log := by
  unfold advanced_filter_body
  simp only []
  split_ifs <;> simp [solveCount_append, solveCount]

theorem advanced_filter_count {σ : Type} (O : Ipasir σ) (s n : Nat) (st : Env σ × List Int) :
    solveCount ((List.range' s n).foldl (advanced_filter_body O) st).1.log
      = solveCount st.1.log :=
  foldl_range_inv (advanced_filter_body O)
    (fun _ a => solveCount a.1.log = solveCount st.1.log) s n st rfl
    (fun k a _ h => by
      show solveCount (advanced_filter_body O a (s + k)).1.log = _
      rw [advanced_filter_body_count]; exact h)

theorem advanced_body_count {σ : Type} (O : Ipasir σ) (maxVar : Nat) (inject : Int)
    (st : AdvState σ) (l : Nat) :
    solveCount (advanced_body O maxVar inject st l).env.log ≤ solveCount st.env.log + 1 := by
  unfold advanced_body
  simp only []
  split_ifs
  · simp
  · simp [solveCount_append, solveCount]
  · simp [solveCount_append, solveCount]
  · rw [advanced_filter_count]; simp [solveCount_append, solveCount]

/-- C5: whatever the oracle answers, `solve_naive` issues at most `2 * N` solve calls and
`solve_advanced` at most `N`, hence at most `N + 1` counting the solve `main` issues
just before it. -/
theorem solve_call_bounds {σ : Type} (O : Ipasir σ) (e : Env σ) (backbone : List Int)
    (N : Nat) (inject : Int) :
    solveCount (solve_naive O e backbone N inject).1.log ≤ solveCount e.log + 2 * N ∧
    solveCount (solve_advanced O e backbone N inject).env.log ≤ solveCount e.log + N ∧
    solveCount (solve_advanced O (ipasir_solve O e).2 backbone N inject).env.log
      ≤ solveCount e.log + (N + 1) := by
  have hadv : ∀ e0 : Env σ,
      solveCount (solve_advanced O e0 backbone N inject).env.log ≤ solveCount e0.log + N := by
    intro e0
    unfold solve_advanced
    simp only []
    have hinit := foldl_range_inv (advanced_init_body O)
      (fun _ a => solveCount a.1.log = solveCount e0.log) 1 N
      (printf e0 (Out.algo23 (decide (inject ≠ 0))), List.replicate (N + 1) 0) rfl
      (fun k a _ h => by
        show solveCount (advanced_init_body O a (1 + k)).1.log = _
        rw [advanced_init_body_count]; exact h)
    refine foldl_range_inv (advanced_body O N inject)
      (fun k a => solveCount a.env.log ≤ solveCount e0.log + k) 1 N _ ?_ ?_
    · exact Nat.le_of_eq hinit
    · intro k a _ h
      have := advanced_body_count O N inject a (1 + k)
      show solveCount (advanced_body O N inject a (1 + k)).env.log ≤ _
      omega
  refine ⟨?_, hadv e, ?_⟩
  · unfold solve_naive
    simp only []
    have h1 := foldl_range_inv (naive_pass1_body O inject)
      (fun k a => solveCount a.1.log ≤ solveCount e.log + k) 1 N
      (printf e (Out.algo1 (decide (inject ≠ 0))), backbone) (Nat.le_refl _)
      (fun k a _ h => by
        show solveCount (naive_pass1_body O inject a (1 + k)).1.log ≤ _
        rw [naive_pass1_body_count]; omega)
    refine foldl_range_inv (naive_pass2_body O inject)
      (fun k a => solveCount a.1.log ≤ solveCount e.log + N + k) 1 N _ ?_ ?_ |>.trans ?_
    · exact h1
    · intro k a _ h
      have := naive_pass2_body_count O inject a (1 + k)
      show solveCount (naive_pass2_body O inject a (1 + k)).1.log ≤ _
      omega
    · omega
  · have := hadv (ipasir_solve O e).2
    simp only [ipasir_solve_log, solveCount_snoc_solve] at this
    omega

/-! ## Confirmation invariant -/

theorem getD_set (bb : List Int) (idx v : Nat) (x : Int) :
    (bb.set idx x).getD v 0 = if v = idx ∧ idx < bb.length then x else bb.getD v 0 := by
  simp only [List.getD_eq_getElem?_getD, List.getElem?_set]
  by_cases h : idx = v
  · subst h
    by_cases hl : idx < bb.length
    · simp [hl]
    · simp [hl, List.getElem?_eq_none (Nat.le_of_not_lt hl)]
  · simp [h, Ne.symm h]

theorem pendingOf_append (l1 l2 : List Event) :
    ∀ p, pendingOf (l1 ++ l2) p = pendingOf l2 (pendingOf l1 p) := by
  induction l1 with
  | nil => intro p; rfl
  | cons ev l1 ih => intro p; cases ev <;> simp [pendingOf, ih]

theorem solveRecords_append (l1 l2 : List Event) :
    ∀ p, solveRecords (l1 ++ l2) p = solveRecords l1 p ++ solveRecords l2 (pendingOf l1 p) := by
  induction l1 with
  | nil => intro p; rfl
  | cons ev l1 ih => intro p; cases ev <;> simp [solveRecords, pendingOf, ih]

theorem pendingOf_quiet (l : List Event) (hq : ∀ ev ∈ l, Event.quiet ev = true) :
    ∀ p, pendingOf l p = p := by
  induction l with
  | nil => intro p; rfl
  | cons ev l ih =>
    intro p
    have h1 := hq ev (List.mem_cons_self _ _)
    have h2 := ih (fun x hx => hq x (List.mem_cons_of_mem _ hx))
    cases ev <;> simp_all [pendingOf, Event.quiet]

theorem solveRecords_quiet (l : List Event) (hq : ∀ ev ∈ l, Event.quiet ev = true) :
    ∀ p, solveRecords l p = [] := by
  induction l with
  | nil => intro p; rfl
  | cons ev l ih =>
    intro p
    have h1 := hq ev (List.mem_cons_self _ _)
    have h2 := ih (fun x hx => hq x (List.mem_cons_of_mem _ hx))
    cases ev <;> simp_all [solveRecords, Event.quiet]

theorem storesConfirmed_append (l1 l2 : List Event) (h1 : StoresConfirmed l1)
    (h2 : StoresConfirmed l2) : StoresConfirmed (l1 ++ l2) := by
  intro k idx x hk
  by_cases hlt : k < l1.length
  · rw [List.getElem?_append_left hlt] at hk
    obtain ⟨j, hj, ha, hs⟩ := h1 k idx x hk
    refine ⟨j, hj, ?_, ?_⟩
    · rw [List.getElem?_append_left (by omega)]; exact ha
    · rw [List.getElem?_append_left (by omega)]; exact hs
  · rw [List.getElem?_append_right (by omega)] at hk
    obtain ⟨j, hj, ha, hs⟩ := h2 _ idx x hk
    refine ⟨l1.length + j, by omega, ?_, ?_⟩
    · rw [List.getElem?_append_right (by omega)]
      simpa using ha
    · rw [List.getElem?_append_right (by omega)]
      have : l1.length + j + 1 - l1.length = j + 1 := by omega
      rw [this]; exact hs

theorem storesConfirmed_quiet (l : List Event) (hq : ∀ ev ∈ l, Event.quiet ev = true) :
    StoresConfirmed l := by
  intro k idx x hk
  have := hq _ (List.getElem?_mem hk)
  simp [Event.quiet] at this

theorem storesConfirmed_query (c r : Int) :
    StoresConfirmed [Event.assume c, Event.solve r] := by
  intro k idx x hk
  match k with
  | 0 => simp at hk
  | 1 => simp at hk
  | k + 2 => simp at hk

theorem storesConfirmed_store (idx : Nat) (x : Int) :
    StoresConfirmed [Event.assume (-x), Event.solve UNSAT, Event.store idx x] := by
  intro k i y hk
  match k with
  | 0 => simp at hk
  | 1 => simp at hk
  | 2 =>
    simp at hk
    exact ⟨0, rfl, by simp [hk.2], by simp⟩
  | k + 3 => simp at hk

theorem confirmed_nil (bb : List Int) (h0 : ∀ v : Nat, bb.getD v 0 = 0) : Confirmed [] bb :=
  ⟨rfl, fun v hv => absurd (h0 v) hv, fun k idx x hk => by simp at hk⟩

theorem confirmed_quiet {log : List Event} {bb : List Int} (h : Confirmed log bb)
    (suf : List Event) (hq : ∀ ev ∈ suf, Event.quiet ev = true) :
    Confirmed (log ++ suf) bb := by
  obtain ⟨hp, hb, hs⟩ := h
  refine ⟨?_, ?_, storesConfirmed_append _ _ hs (storesConfirmed_quiet suf hq)⟩
  · rw [pendingOf_append, hp, pendingOf_quiet suf hq]
  · intro v hv
    obtain ⟨h1, h2⟩ := hb v hv
    refine ⟨List.mem_append_left _ h1, ?_⟩
    rw [solveRecords_append]
    exact List.mem_append_left _ h2

theorem confirmed_query {log : List Event} {bb : List Int} (h : Confirmed log bb)
    (c r : Int) : Confirmed (log ++ [Event.assume c, Event.solve r]) bb := by
  obtain ⟨hp, hb, hs⟩ := h
  refine ⟨?_, ?_, storesConfirmed_append _ _ hs (storesConfirmed_query c r)⟩
  · rw [pendingOf_append, hp]; rfl
  · intro v hv
    obtain ⟨h1, h2⟩ := hb v hv
    refine ⟨List.mem_append_left _ h1, ?_⟩
    rw [solveRecords_append]
    exact List.mem_append_left _ h2

theorem confirmed_store {log : List Event} {bb : List Int} (h : Confirmed log bb)
    (idx : Nat) (x : Int) :
    Confirmed (log ++ [Event.assume (-x), Event.solve UNSAT, Event.store idx x])
      (bb.set idx x) := by
  obtain ⟨hp, hb, hs⟩ := h
  refine ⟨?_, ?_, storesConfirmed_append _ _ hs (storesConfirmed_store idx x)⟩
  · rw [pendingOf_append, hp]; rfl
  · intro v hv
    rw [solveRecords_append, hp]
    rw [getD_set] at hv ⊢
    split_ifs at hv ⊢ with hc
    · obtain ⟨rfl, _⟩ := hc
      exact ⟨by simp, by simp [solveRecords]⟩
    · obtain ⟨h1, h2⟩ := hb v hv
      exact ⟨List.mem_append_left _ h1, List.mem_append_left _ h2⟩

theorem naive_pass1_body_confirmed {σ : Type} (O : Ipasir σ) (inject : Int)
    (st : Env σ × List Int) (i : Nat) (h : Confirmed st.1.log st.2) :
    Confirmed (naive_pass1_body O inject st i).1.log (naive_pass1_body O inject st i).2 := by
  unfold naive_pass1_body
  simp only []
  split_ifs with h1 h2
  · have h' := confirmed_quiet (confirmed_store h (-(i : Int)).natAbs (-(-(i : Int))))
      [Event.add (-(-(i : Int))), Event.add 0] (by simp [Event.quiet])
    simp only [ipasir_solve_res, ipasir_assume_solver] at h1
    simpa [h1] using h'
  · have h' := confirmed_store h (-(i : Int)).natAbs (-(-(i : Int)))
    simp only [ipasir_solve_res, ipasir_assume_solver] at h1
    simpa [h1] using h'
  · have h' := confirmed_query h (-(i : Int)) (O.solve (O.assume st.1.solver (-(i : Int)))).1
    simpa using h'

theorem naive_pass2_body_confirmed {σ : Type} (O : Ipasir σ) (inject : Int)
    (st : Env σ × List Int) (i : Nat) (h : Confirmed st.1.log st.2) :
    Confirmed (naive_pass2_body O inject st i).1.log (naive_pass2_body O inject st i).2 := by
  unfold naive_pass2_body
  simp only []
  split_ifs with h0 h1 h2
  · exact h
  · have h' := confirmed_quiet (confirmed_store h (i : Int).natAbs (-(i : Int)))
      [Event.add (-(i : Int)), Event.add 0] (by simp [Event.quiet])
    simp only [ipasir_solve_res, ipasir_assume_solver] at h1
    simpa [h1] using h'
  · have h' := confirmed_store h (i : Int).natAbs (-(i : Int))
    simp only [ipasir_solve_res, ipasir_assume_solver] at h1
    simpa [h1] using h'
  · have h' := confirmed_query h (i : Int) (O.solve (O.assume st.1.solver (i : Int))).1
    simpa using h'

theorem advanced_init_body_confirmed {σ : Type} (O : Ipasir σ) (bb : List Int)
    (st : Env σ × List Int) (i : Nat) (h : Confirmed st.1.log bb) :
    Confirmed (advanced_init_body O st i).1.log bb := by
  have h' := confirmed_quiet h [Event.val (i : Int) (O.val st.1.solver (i : Int))]
    (by simp [Event.quiet])
  simpa [advanced_init_body] using h'

theorem advanced_filter_body_confirmed {σ : Type} (O : Ipasir σ) (bb : List Int)
    (st : Env σ × List Int) (i : Nat) (h : Confirmed st.1.log bb) :
    Confirmed (advanced_filter_body O st i).1.log bb := by
  unfold advanced_filter_body
  simp only []
  split_ifs with h1
  · have h' := confirmed_quiet h
      [Event.val (i : Int) (O.val st.1.solver (i : Int)), Event.filter i (st.2.getD i 0)]
      (by simp [Event.quiet])
    simpa using h'
  · have h' := confirmed_quiet h [Event.val (i : Int) (O.val st.1.solver (i : Int))]
      (by simp [Event.quiet])
    simpa using h'

theorem advanced_body_confirmed {σ : Type} (O : Ipasir σ) (maxVar : Nat) (inject : Int)
    (st : AdvState σ) (l : Nat) (h : Confirmed st.env.log st.backbone) :
    Confirmed (advanced_body O maxVar inject st l).env.log
      (advanced_body O maxVar inject st l).backbone := by
  unfold advanced_body
  simp only []
  split_ifs with h0 h1 h2
  · exact h
  · have h' := confirmed_quiet
      (confirmed_store h (st.candidates.getD l 0).natAbs (st.candidates.getD l 0))
      [Event.add (st.candidates.getD l 0), Event.add 0] (by simp [Event.quiet])
    simp at h1
    simpa [h1] using h'
  · have h' := confirmed_store h (st.candidates.getD l 0).natAbs (st.candidates.getD l 0)
    simp at h1
    simpa [h1] using h'
  · have h' := confirmed_query h (-(st.candidates.getD l 0))
      (O.solve (O.assume st.env.solver (-(st.candidates.getD l 0)))).1
    exact foldl_range_inv (advanced_filter_body O)
      (fun _ a => Confirmed a.1.log st.backbone) (l + 1) (maxVar - l) _
      (by simpa using h')
      (fun k a _ ha => advanced_filter_body_confirmed O st.backbone a _ ha)

theorem solve_naive_confirmed {σ : Type} (O : Ipasir σ) (e : Env σ) (bb : List Int)
    (maxVar : Nat) (inject : Int) (h : Confirmed e.log bb) :
    Confirmed (solve_naive O e bb maxVar inject).1.log (solve_naive O e bb maxVar inject).2 := by
  unfold solve_naive
  simp only []
  refine foldl_range_inv (naive_pass2_body O inject)
    (fun _ a => Confirmed a.1.log a.2) 1 maxVar _ ?_
    (fun k a _ ha => naive_pass2_body_confirmed O inject a _ ha)
  exact foldl_range_inv (naive_pass1_body O inject)
    (fun _ a => Confirmed a.1.log a.2) 1 maxVar _ h
    (fun k a _ ha => naive_pass1_body_confirmed O inject a _ ha)

theorem solve_advanced_confirmed {σ : Type} (O : Ipasir σ) (e : Env σ) (bb : List Int)
    (maxVar : Nat) (inject : Int) (h : Confirmed e.log bb) :
    Confirmed (solve_advanced O e bb maxVar inject).env.log
      (solve_advanced O e bb maxVar inject).backbone := by
  unfold solve_advanced
  simp only []
  refine foldl_range_inv (advanced_body O maxVar inject)
    (fun _ a => Confirmed a.env.log a.backbone) 1 maxVar _ ?_
    (fun k a _ ha => advanced_body_confirmed O maxVar inject a _ ha)
  exact foldl_range_inv (advanced_init_body O)
    (fun _ a => Confirmed a.1.log bb) 1 maxVar _ h
    (fun k a _ ha => advanced_init_body_confirmed O bb a _ ha)

/-- C6: for every oracle, started on an all-zero vector with no assumption pending, each
non-zero entry `b` left in `backbone` by `solve_naive` or `solve_advanced` has a
`solve` call in the run that answered UNSAT under exactly the assumption set `[-b]`,
and every store into `backbone` directly follows such an answer for the stored value
(so none follows a SAT answer or a filtering step). -/
theorem backbone_only_after_unsat {σ : Type} (O : Ipasir σ) (s : σ) (n maxVar : Nat)
    (inject : Int) :
    ((∀ v : Nat,
        (solve_naive O ⟨s, [], []⟩ (List.replicate n 0) maxVar inject).2.getD v 0 ≠ 0 →
        ([-((solve_naive O ⟨s, [], []⟩ (List.replicate n 0) maxVar inject).2.getD v 0)], UNSAT)
          ∈ solveRecords (solve_naive O ⟨s, [], []⟩ (List.replicate n 0) maxVar inject).1.log [])
      ∧ StoresConfirmed (solve_naive O ⟨s, [], []⟩ (List.replicate n 0) maxVar inject).1.log)
    ∧
    ((∀ v : Nat,
        (solve_advanced O ⟨s, [], []⟩ (List.replicate n 0) maxVar inject).backbone.getD v 0 ≠ 0 →
        ([-((solve_advanced O ⟨s, [], []⟩ (List.replicate n 0) maxVar inject).backbone.getD v 0)],
            UNSAT)
          ∈ solveRecords
              (solve_advanced O ⟨s, [], []⟩ (List.replicate n 0) maxVar inject).env.log [])
      ∧ StoresConfirmed
          (solve_advanced O ⟨s, [], []⟩ (List.replicate n 0) maxVar inject).env.log) := by
  have h0 : Confirmed ([] : List Event) (List.replicate n 0) :=
    confirmed_nil _ (fun v => by
      simp only [List.getD_eq_getElem?_getD, List.getElem?_replicate]
      split_ifs <;> rfl)
  have hn := solve_naive_confirmed O ⟨s, [], []⟩ (List.replicate n 0) maxVar inject h0
  have ha := solve_advanced_confirmed O ⟨s, [], []⟩ (List.replicate n 0) maxVar inject h0
  exact ⟨⟨fun v hv => (hn.2.1 v hv).2, hn.2.2⟩, ⟨fun v hv => (ha.2.1 v hv).2, ha.2.2⟩⟩

theorem get_options_spec {σ : Type} (e : Env σ) : ∀ (opts : List Char) (s t i : Int),
    (s = 0 ∨ s = 1) → (t = 0 ∨ t = 1) → (i = 0 ∨ i = 1) → ¬ (s = 1 ∧ t = 1) →
    ((get_options e opts s t i).ok = false ↔
      (((s = 1 ∨ 's' ∈ opts) ∧ (t = 1 ∨ 't' ∈ opts)) ∨
        ∃ c ∈ opts, c ≠ 's' ∧ c ≠ 't' ∧ c ≠ 'i')) ∧
    ((get_options e opts s t i).ok = true →
      ((get_options e opts s t i).opt_s = (if s = 1 ∨ 's' ∈ opts then 1 else 0)) ∧
      ((get_options e opts s t i).opt_t = (if s = 1 ∨ 's' ∈ opts then 0 else 1)) ∧
      ((get_options e opts s t i).opt_i = (if i = 1 ∨ 'i' ∈ opts then 1 else 0))) := by
  intro opts
  induction opts with
  | nil =>
    intro s t i hs ht hi hst
    rcases hs with rfl | rfl <;> rcases ht with rfl | rfl <;> rcases hi with rfl | rfl <;>
      simp [get_options] at hst ⊢
  | cons c rest ih =>
    intro s t i hs ht hi hst
    by_cases hcs : c = 's'
    · subst hcs
      rcases ht with rfl | rfl
      · have := ih 1 0 i (Or.inr rfl) (Or.inl rfl) hi (by simp)
        rcases hs with rfl | rfl <;> simp [get_options] at this ⊢ <;> exact this
      · rcases hs with rfl | rfl <;> simp [get_options] at hst ⊢
    · by_cases hct : c = 't'
      · subst hct
        rcases hs with rfl | rfl
        · have := ih 0 1 i (Or.inl rfl) (Or.inr rfl) hi (by simp)
          rcases ht with rfl | rfl <;> simp [get_options] at this ⊢ <;> exact this
        · rcases ht with rfl | rfl <;> simp [get_options] at hst ⊢
      · by_cases hci : c = 'i'
        · subst hci
          have := ih s t 1 hs ht (Or.inr rfl) hst
          rcases hi with rfl | rfl <;> simp [get_options] at this ⊢ <;> exact this
        · simp [get_options, hcs, hct, hci]

/-- C10: from `opt_s = opt_t = opt_i = 0`, on a sequence of letters among `s`, `t`, `i`,
`get_options` returns false iff both `s` and `t` occur; otherwise it returns true with
exactly one of `opt_s`, `opt_t` equal to 1 (`opt_s` iff `s` occurs, `opt_t` iff it does
not) and `opt_i = 1` iff `i` occurs. A letter outside `s`, `t`, `i` makes it return
false. -/
theorem get_options_exclusive {σ : Type} (e : Env σ) (opts : List Char) :
    ((∀ c ∈ opts, c = 's' ∨ c = 't' ∨ c = 'i') →
      (((get_options e opts 0 0 0).ok = false ↔ ('s' ∈ opts ∧ 't' ∈ opts)) ∧
       ((get_options e opts 0 0 0).ok = true →
          (((get_options e opts 0 0 0).opt_s = 1 ∧ (get_options e opts 0 0 0).opt_t = 0) ∨
           ((get_options e opts 0 0 0).opt_s = 0 ∧ (get_options e opts 0 0 0).opt_t = 1)) ∧
          ((get_options e opts 0 0 0).opt_s = 1 ↔ 's' ∈ opts) ∧
          ((get_options e opts 0 0 0).opt_t = 1 ↔ 's' ∉ opts) ∧
          ((get_options e opts 0 0 0).opt_i = 1 ↔ 'i' ∈ opts) ∧
          ((get_options e opts 0 0 0).opt_i = 0 ∨ (get_options e opts 0 0 0).opt_i = 1)))) ∧
    ((∃ c ∈ opts, c ≠ 's' ∧ c ≠ 't' ∧ c ≠ 'i') → (get_options e opts 0 0 0).ok = false) := by
  obtain ⟨hfalse, htrue⟩ := get_options_spec e opts 0 0 0 (Or.inl rfl) (Or.inl rfl)
    (Or.inl rfl) (by simp)
  simp only [zero_ne_one, false_or] at hfalse htrue
  refine ⟨fun hall => ⟨?_, fun hok => ?_⟩, fun hex => hfalse.mpr (Or.inr hex)⟩
  · rw [hfalse]
    constructor
    · rintro (h | ⟨c, hc, h1, h2, h3⟩)
      · exact h
      · rcases hall c hc with h | h | h
        · exact absurd h h1
        · exact absurd h h2
        · exact absurd h h3
    · exact fun h => Or.inl h
  · obtain ⟨hs, ht, hi⟩ := htrue hok
    rw [hs, ht, hi]
    by_cases h1 : 's' ∈ opts <;> by_cases h2 : 'i' ∈ opts <;> simp [h1, h2]

/-! ## Facts about `get_options`, `loadFormula` and `main` -/

theorem get_options_env {σ : Type} (e : Env σ) : ∀ (opts : List Char) (s t i : Int),
    (get_options e opts s t i).ok = true → (get_options e opts s t i).env = e := by
  intro opts
  induction opts with
  | nil => intro s t i _; simp only [get_options]; split_ifs <;> rfl
  | cons c rest ih =>
    intro s t i h
    simp only [get_options] at h ⊢
    split_ifs at h ⊢ <;> exact ih _ _ _ h

/-- Invariant rule for the loop of `loadFormula`. -/
theorem loadLoop_inv {σ : Type} (O : Ipasir σ) (P : LoadState σ → Prop)
    (hstep : ∀ st st1, loadIter O st = some st1 → P st → P st1) :
    ∀ (fuel : Nat) (st st1 : LoadState σ), loadLoop O fuel st = some st1 → P st → P st1 := by
  intro fuel
  induction fuel with
  | zero => intro st st1 h; simp [loadLoop] at h
  | succ n ih =>
    intro st st1 h hP
    simp only [loadLoop] at h
    split_ifs at h
    · simp at h; rw [← h]; exact hP
    · split at h
      · simp at h
      · rename_i st2 hst2
        exact ih _ _ h (hstep _ _ hst2 hP)

theorem loadIter_out {σ : Type} (O : Ipasir σ) (st st1 : LoadState σ)
    (h : loadIter O st = some st1) : st1.env.out = st.env.out := by
  unfold loadIter at h
  simp only [] at h
  split_ifs at h
  · split at h
    · simp at h
    · simp at h; rw [← h]
  all_goals (simp at h; rw [← h])
  all_goals simp

theorem loadLoop_out {σ : Type} (O : Ipasir σ) (fuel : Nat) (st st1 : LoadState σ)
    (h : loadLoop O fuel st = some st1) : st1.env.out = st.env.out :=
  loadLoop_inv O (fun x => x.env.out = st.env.out)
    (fun a b hab ha => (loadIter_out O a b hab).trans ha) fuel st st1 h rfl

theorem loadFormula_out {σ : Type} (O : Ipasir σ) (e : Env σ) (file : Option (List Char))
    (mv nc : Int) (fuel : Nat) (ld : LoadResult σ)
    (h : loadFormula O e file mv nc fuel = some ld) : ld.env.out = e.out := by
  unfold loadFormula at h
  cases file with
  | none => simp at h; rw [← h]
  | some content =>
    simp only at h
    split at h
    · simp at h
    · rename_i st hst
      simp at h
      rw [← h]
      exact loadLoop_out O _ _ _ hst

/-- C9 fails to hold on a file whose last line is a comment without a final newline: past
the usage and option checks, `main` never returns (the comment-skipping loop of
`loadFormula` reads `EOF` forever), so the run ends in none of the four statuses. -/
theorem main_hangs_on_unterminated_comment {σ : Type} (O : Ipasir σ) (fuel : Nat) :
    main O 2 [] (some ['c']) fuel = none := by
  cases fuel <;> rfl

/-! ## Semantics of queries against a correct oracle -/

theorem litTrue_pos (m : Assignment) (v : Nat) (hv : 1 ≤ v) : litTrue m (v : Int) = m v := by
  have : (0 : Int) < (v : Int) := by omega
  simp [litTrue, this]

theorem litTrue_neg (m : Assignment) (v : Nat) (hv : 1 ≤ v) :
    litTrue m (-(v : Int)) = !(m v) := by
  have h1 : ¬ ((0 : Int) < -(v : Int)) := by omega
  have h2 : -(v : Int) < 0 := by omega
  simp [litTrue, h1, h2]

theorem formulaSat_append (m : Assignment) (F G : List (List Int)) :
    formulaSat m (F ++ G) = (formulaSat m F && formulaSat m G) := by
  simp [formulaSat, List.all_append]

theorem clauseSat_snoc (m : Assignment) (c : List Int) (x : Int) :
    clauseSat m (c ++ [x]) = (clauseSat m c || litTrue m x) := by
  simp [clauseSat, List.any_append]

theorem sat_ne_unsat : SAT ≠ UNSAT := by decide

/-- With no pending assumption, assuming `c` and solving answers UNSAT exactly when no
model of the database makes `c` true. -/
theorem query_unsat_iff {σ : Type} {O : Ipasir σ} {view : σ → View} (hO : SolveCorrect O view)
    {F : List (List Int)} {s : σ} (hs : Holds view F s) (c : Int) :
    (O.solve (O.assume s c)).1 = UNSAT ↔
      ∀ m : Assignment, formulaSat m F = true → litTrue m c = false := by
  obtain ⟨hdb, hass⟩ := hs
  have hview : view (O.assume s c) =
      { db := (view s).db, cur := (view s).cur, assumps := [c] } := by
    rw [hO.assume_view, hass]
  constructor
  · intro hun m hm
    by_contra hc
    have hsat := hO.solve_sat (O.assume s c) ⟨m, by
      rw [hview]; simp only []
      refine ⟨by rw [hdb]; exact hm, ?_⟩
      simpa [litsTrue] using hc⟩
    rw [hsat] at hun
    exact sat_ne_unsat hun
  · intro hall
    apply hO.solve_unsat
    rintro ⟨m, hm, hl⟩
    rw [hview] at hm hl
    simp only [] at hm hl
    rw [hdb] at hm
    have := hall m hm
    simp [litsTrue, this] at hl

/-- The state after a query still holds the formula. -/
theorem holds_query {σ : Type} {O : Ipasir σ} {view : σ → View} (hO : SolveCorrect O view)
    {F : List (List Int)} {s : σ} (hs : Holds view F s) (c : Int) :
    Holds view F (O.solve (O.assume s c)).2 := by
  obtain ⟨hdb, _⟩ := hs
  refine ⟨?_, ?_⟩
  · intro m; rw [hO.solve_view, hO.assume_view]; exact hdb m
  · rw [hO.solve_view]

/-- Injecting a literal that the formula entails keeps the database equivalent. -/
theorem holds_inject {σ : Type} {O : Ipasir σ} {view : σ → View} (hO : AddCorrect O view)
    {F : List (List Int)} {s : σ} (hs : Holds view F s) (x : Int) (hx : x ≠ 0)
    (hent : Entails F x) : Holds view F (O.add (O.add s x) 0) := by
  obtain ⟨hdb, hass⟩ := hs
  refine ⟨?_, ?_⟩
  · intro m
    rw [hO.add_zero, hO.add_lit s x hx]
    simp only []
    rw [formulaSat_append, hdb]
    cases hm : formulaSat m F with
    | false => simp
    | true =>
      have := hent m hm
      simp [formulaSat, clauseSat_snoc, this]
  · rw [hO.add_zero, hO.add_lit s x hx]
    exact hass

theorem query_neg_unsat_iff {σ : Type} {O : Ipasir σ} {view : σ → View} (hO : SolveCorrect O view)
    {F : List (List Int)} {s : σ} (hs : Holds view F s) (i : Nat) (hi : 1 ≤ i) :
    (O.solve (O.assume s (-(i : Int)))).1 = UNSAT ↔ AlwaysTrue F i := by
  rw [query_unsat_iff hO hs]
  constructor
  · intro h m hm
    have := h m hm
    rw [litTrue_neg m i hi] at this
    simpa using this
  · intro h m hm
    rw [litTrue_neg m i hi, h m hm]; rfl

theorem query_pos_unsat_iff {σ : Type} {O : Ipasir σ} {view : σ → View} (hO : SolveCorrect O view)
    {F : List (List Int)} {s : σ} (hs : Holds view F s) (i : Nat) (hi : 1 ≤ i) :
    (O.solve (O.assume s (i : Int))).1 = UNSAT ↔ AlwaysFalse F i := by
  rw [query_unsat_iff hO hs]
  constructor
  · intro h m hm
    have := h m hm
    rwa [litTrue_pos m i hi] at this
  · intro h m hm
    rw [litTrue_pos m i hi, h m hm]

theorem entails_pos {F : List (List Int)} {i : Nat} (hi : 1 ≤ i) (h : AlwaysTrue F i) :
    Entails F (i : Int) := fun m hm => by rw [litTrue_pos m i hi]; exact h m hm

theorem entails_neg {F : List (List Int)} {i : Nat} (hi : 1 ≤ i) (h : AlwaysFalse F i) :
    Entails F (-(i : Int)) := fun m hm => by rw [litTrue_neg m i hi, h m hm]; rfl

theorem not_both {F : List (List Int)} (hF : Satisfiable F) (v : Nat)
    (h1 : AlwaysTrue F v) (h2 : AlwaysFalse F v) : False := by
  obtain ⟨m, hm⟩ := hF
  have a := h1 m hm
  have b := h2 m hm
  rw [a] at b
  exact Bool.noConfusion b

/-- Effect of one iteration of the first loop of `solve_naive` against a correct oracle. -/
theorem naive_pass1_body_spec {σ : Type} {O : Ipasir σ} {view : σ → View}
    (hO : SolveCorrect O view) {F : List (List Int)} (inject : Int)
    (hAdd : inject ≠ 0 → AddCorrect O view) (st : Env σ × List Int)
    (i : Nat) (hi : 1 ≤ i) (hs : Holds view F st.1.solver) :
    Holds view F (naive_pass1_body O inject st i).1.solver ∧
    (AlwaysTrue F i → (naive_pass1_body O inject st i).2 = st.2.set i (i : Int)) ∧
    (¬ AlwaysTrue F i → (naive_pass1_body O inject st i).2 = st.2) := by
  have hq := query_neg_unsat_iff hO hs i hi
  have hh := holds_query hO hs (-(i : Int))
  unfold naive_pass1_body
  simp only []
  split_ifs with h1 h2
  · have hA : AlwaysTrue F i := hq.mp h1
    refine ⟨?_, fun _ => by simp, fun h => absurd hA h⟩
    have := holds_inject (hAdd h2) hh (-(-(i : Int))) (by omega) (by
      rw [neg_neg]; exact entails_pos hi hA)
    simpa using this
  · have hA : AlwaysTrue F i := hq.mp h1
    exact ⟨by simpa using hh, fun _ => by simp, fun h => absurd hA h⟩
  · have hA : ¬ AlwaysTrue F i := fun h => h1 (hq.mpr h)
    exact ⟨by simpa using hh, fun h => absurd h hA, fun _ => rfl⟩

/-- Effect of one iteration of the second loop of `solve_naive` against a correct oracle. -/
theorem naive_pass2_body_spec {σ : Type} {O : Ipasir σ} {view : σ → View}
    (hO : SolveCorrect O view) {F : List (List Int)} (inject : Int)
    (hAdd : inject ≠ 0 → AddCorrect O view) (st : Env σ × List Int)
    (i : Nat) (hi : 1 ≤ i) (hs : Holds view F st.1.solver) :
    Holds view F (naive_pass2_body O inject st i).1.solver ∧
    (st.2.getD i 0 ≠ 0 → (naive_pass2_body O inject st i).2 = st.2) ∧
    (st.2.getD i 0 = 0 → AlwaysFalse F i →
      (naive_pass2_body O inject st i).2 = st.2.set i (-(i : Int))) ∧
    (st.2.getD i 0 = 0 → ¬ AlwaysFalse F i → (naive_pass2_body O inject st i).2 = st.2) := by
  have hq := query_pos_unsat_iff hO hs i hi
  have hh := holds_query hO hs (i : Int)
  unfold naive_pass2_body
  simp only []
  split_ifs with h0 h1 h2
  · exact ⟨hs, fun _ => rfl, fun h => absurd h h0, fun h => absurd h h0⟩
  · have hB : AlwaysFalse F i := hq.mp h1
    refine ⟨?_, fun h => absurd h h0, fun _ _ => by simp, fun _ h => absurd hB h⟩
    have := holds_inject (hAdd h2) hh (-(i : Int)) (by omega) (entails_neg hi hB)
    simpa using this
  · have hB : AlwaysFalse F i := hq.mp h1
    exact ⟨by simpa using hh, fun h => absurd h h0, fun _ _ => by simp,
      fun _ h => absurd hB h⟩
  · have hB : ¬ AlwaysFalse F i := fun h => h1 (hq.mpr h)
    exact ⟨by simpa using hh, fun h => absurd h h0, fun _ h => absurd h hB, fun _ _ => rfl⟩

theorem naive_pass1_spec {σ : Type} {O : Ipasir σ} {view : σ → View}
    (hO : SolveCorrect O view) {F : List (List Int)} (inject : Int)
    (hAdd : inject ≠ 0 → AddCorrect O view) (e : Env σ) (bb0 : List Int)
    (N : Nat) (hs : Holds view F e.solver) (h0 : ∀ v : Nat, bb0.getD v 0 = 0) :
    Holds view F ((List.range' 1 N).foldl (naive_pass1_body O inject) (e, bb0)).1.solver ∧
    ((List.range' 1 N).foldl (naive_pass1_body O inject) (e, bb0)).2.length = bb0.length ∧
    ∀ v : Nat,
      ((1 ≤ v ∧ v ≤ N ∧ v < bb0.length ∧ AlwaysTrue F v) →
        ((List.range' 1 N).foldl (naive_pass1_body O inject) (e, bb0)).2.getD v 0 = (v : Int)) ∧
      (¬ (1 ≤ v ∧ v ≤ N ∧ v < bb0.length ∧ AlwaysTrue F v) →
        ((List.range' 1 N).foldl (naive_pass1_body O inject) (e, bb0)).2.getD v 0 = 0) := by
  refine foldl_range_inv (naive_pass1_body O inject)
    (fun k a => Holds view F a.1.solver ∧ a.2.length = bb0.length ∧
      ∀ v : Nat,
        ((1 ≤ v ∧ v ≤ k ∧ v < bb0.length ∧ AlwaysTrue F v) → a.2.getD v 0 = (v : Int)) ∧
        (¬ (1 ≤ v ∧ v ≤ k ∧ v < bb0.length ∧ AlwaysTrue F v) → a.2.getD v 0 = 0))
    1 N (e, bb0) ?_ ?_
  · exact ⟨hs, rfl, fun v => ⟨fun h => by omega, fun _ => h0 v⟩⟩
  · rintro k a _ ⟨hh, hlen, hinv⟩
    obtain ⟨hh1, hyes, hno⟩ := naive_pass1_body_spec hO inject hAdd a (1 + k) (by omega) hh
    refine ⟨hh1, ?_, ?_⟩
    · by_cases hA : AlwaysTrue F (1 + k)
      · rw [hyes hA, List.length_set]; exact hlen
      · rw [hno hA]; exact hlen
    · intro v
      by_cases hA : AlwaysTrue F (1 + k)
      · rw [hyes hA, getD_set]
        by_cases hv : v = 1 + k ∧ 1 + k < a.2.length
        · rw [if_pos hv]
          obtain ⟨rfl, hv2⟩ := hv
          exact ⟨fun _ => rfl, fun h => absurd ⟨by omega, by omega, by omega, hA⟩ h⟩
        · rw [if_neg hv]
          have hne : v < bb0.length → v ≠ 1 + k := by
            intro h1 h2; exact hv ⟨h2, by omega⟩
          refine ⟨fun h => (hinv v).1 ⟨h.1, ?_, h.2.2.1, h.2.2.2⟩, fun h => (hinv v).2 ?_⟩
          · have := hne h.2.2.1; omega
          · intro h'; exact h ⟨h'.1, by omega, h'.2.2.1, h'.2.2.2⟩
      · rw [hno hA]
        refine ⟨fun h => (hinv v).1 ⟨h.1, ?_, h.2.2.1, h.2.2.2⟩, fun h => (hinv v).2 ?_⟩
        · have : v ≠ 1 + k := fun hv => hA (hv ▸ h.2.2.2)
          omega
        · intro h'; exact h ⟨h'.1, by omega, h'.2.2.1, h'.2.2.2⟩

theorem naive_pass2_spec {σ : Type} {O : Ipasir σ} {view : σ → View}
    (hO : SolveCorrect O view) {F : List (List Int)} (hF : Satisfiable F) (inject : Int)
    (hAdd : inject ≠ 0 → AddCorrect O view)
    (e : Env σ) (bb1 : List Int) (N len : Nat) (hs : Holds view F e.solver)
    (hlen : bb1.length = len)
    (h1 : ∀ v : Nat,
      ((1 ≤ v ∧ v ≤ N ∧ v < len ∧ AlwaysTrue F v) → bb1.getD v 0 = (v : Int)) ∧
      (¬ (1 ≤ v ∧ v ≤ N ∧ v < len ∧ AlwaysTrue F v) → bb1.getD v 0 = 0)) :
    Holds view F ((List.range' 1 N).foldl (naive_pass2_body O inject) (e, bb1)).1.solver ∧
    BackboneVec F N len ((List.range' 1 N).foldl (naive_pass2_body O inject) (e, bb1)).2 := by
  have key := foldl_range_inv (naive_pass2_body O inject)
    (fun k a => Holds view F a.1.solver ∧ a.2.length = len ∧
      ∀ v : Nat,
        ((1 ≤ v ∧ v ≤ N ∧ v < len ∧ AlwaysTrue F v) → a.2.getD v 0 = (v : Int)) ∧
        ((1 ≤ v ∧ v ≤ k ∧ v < len ∧ AlwaysFalse F v) → a.2.getD v 0 = -(v : Int)) ∧
        (¬ (1 ≤ v ∧ v ≤ N ∧ v < len ∧ AlwaysTrue F v) →
          ¬ (1 ≤ v ∧ v ≤ k ∧ v < len ∧ AlwaysFalse F v) → a.2.getD v 0 = 0))
    1 N (e, bb1) ?_ ?_
  · obtain ⟨hh, hl, hinv⟩ := key
    refine ⟨hh, hl, fun v => ⟨fun hr => ⟨fun hA => ?_, fun hB => ?_, fun hA hB => ?_⟩,
      fun hr => ?_⟩⟩
    · exact (hinv v).1 ⟨hr.1, hr.2.1, hr.2.2, hA⟩
    · exact (hinv v).2.1 ⟨hr.1, hr.2.1, hr.2.2, hB⟩
    · exact (hinv v).2.2 (fun h => hA h.2.2.2) (fun h => hB h.2.2.2)
    · exact (hinv v).2.2 (fun h => hr ⟨h.1, h.2.1, h.2.2.1⟩)
        (fun h => hr ⟨h.1, h.2.1, h.2.2.1⟩)
  · exact ⟨hs, hlen, fun v => ⟨(h1 v).1, fun h => by omega, fun h _ => (h1 v).2 h⟩⟩
  · rintro k a hk ⟨hh, hl, hinv⟩
    obtain ⟨hh1, hskip, hyes, hno⟩ :=
      naive_pass2_body_spec hO inject hAdd a (1 + k) (by omega) hh
    have hpos : ((1 + k : Nat) : Int) ≠ 0 := by omega
    by_cases hz : a.2.getD (1 + k) 0 = 0
    · have hnA : ¬ (1 ≤ 1 + k ∧ 1 + k ≤ N ∧ 1 + k < len ∧ AlwaysTrue F (1 + k)) := by
        intro h
        have := (hinv (1 + k)).1 h
        rw [hz] at this
        exact hpos this.symm
      by_cases hB : AlwaysFalse F (1 + k)
      · rw [hyes hz hB]
        refine ⟨hh1, by rw [List.length_set]; exact hl, fun v => ?_⟩
        rw [getD_set]
        by_cases hv : v = 1 + k ∧ 1 + k < a.2.length
        · rw [if_pos hv]
          obtain ⟨rfl, hv2⟩ := hv
          exact ⟨fun h => absurd h hnA, fun _ => rfl,
            fun _ h => absurd ⟨by omega, by omega, by omega, hB⟩ h⟩
        · rw [if_neg hv]
          have hne : v < len → v ≠ 1 + k := by
            intro h1 h2; exact hv ⟨h2, by omega⟩
          refine ⟨(hinv v).1, fun h => (hinv v).2.1 ⟨h.1, ?_, h.2.2.1, h.2.2.2⟩,
            fun hA h => (hinv v).2.2 hA ?_⟩
          · have := hne h.2.2.1; omega
          · intro h'; exact h ⟨h'.1, by omega, h'.2.2.1, h'.2.2.2⟩
      · rw [hno hz hB]
        refine ⟨hh1, hl, fun v => ⟨(hinv v).1,
          fun h => (hinv v).2.1 ⟨h.1, ?_, h.2.2.1, h.2.2.2⟩, fun hA h => (hinv v).2.2 hA ?_⟩⟩
        · have : v ≠ 1 + k := fun hv => hB (hv ▸ h.2.2.2)
          omega
        · intro h'; exact h ⟨h'.1, by omega, h'.2.2.1, h'.2.2.2⟩
    · rw [hskip hz]
      have hA : 1 ≤ 1 + k ∧ 1 + k ≤ N ∧ 1 + k < len ∧ AlwaysTrue F (1 + k) := by
        by_contra hc
        exact hz ((hinv (1 + k)).2.2 hc (fun h => by omega))
      have hnB : ¬ AlwaysFalse F (1 + k) := fun hB => not_both hF _ hA.2.2.2 hB
      refine ⟨hh1, hl, fun v => ⟨(hinv v).1,
        fun h => (hinv v).2.1 ⟨h.1, ?_, h.2.2.1, h.2.2.2⟩, fun hA' h => (hinv v).2.2 hA' ?_⟩⟩
      · have : v ≠ 1 + k := fun hv => hnB (hv ▸ h.2.2.2)
        omega
      · intro h'; exact h ⟨h'.1, by omega, h'.2.2.1, h'.2.2.2⟩

/-- Against a correct oracle holding a satisfiable `F`, `solve_naive` started on an
all-zero vector ends with the backbone vector of `F`, whatever `inject` is. -/
theorem solve_naive_spec {σ : Type} {O : Ipasir σ} {view : σ → View}
    (hO : SolveCorrect O view) {F : List (List Int)} (hF : Satisfiable F) (inject : Int)
    (hAdd : inject ≠ 0 → AddCorrect O view)
    (e : Env σ) (bb0 : List Int) (N : Nat) (hs : Holds view F e.solver)
    (h0 : ∀ v : Nat, bb0.getD v 0 = 0) :
    Holds view F (solve_naive O e bb0 N inject).1.solver ∧
    BackboneVec F N bb0.length (solve_naive O e bb0 N inject).2 := by
  unfold solve_naive
  simp only []
  obtain ⟨hh, hl, hinv⟩ := naive_pass1_spec hO inject hAdd
    (printf e (Out.algo1 (decide (inject ≠ 0)))) bb0 N hs h0
  exact naive_pass2_spec hO hF inject hAdd _ _ N bb0.length hh hl hinv

/-! ## `solve_advanced` against a correct oracle -/

theorem solve_sat_or_unsat {σ : Type} {O : Ipasir σ} {view : σ → View} (hO : SolveCorrect O view)
    (s : σ) : (O.solve s).1 = SAT ∨ (O.solve s).1 = UNSAT := by
  by_cases h : ∃ m : Assignment, formulaSat m (view s).db = true ∧
      litsTrue m (view s).assumps = true
  · exact Or.inl (hO.solve_sat s h)
  · exact Or.inr (hO.solve_unsat s h)

/-- After a SAT answer on a database equivalent to `F`, every value read is admissible. -/
theorem val_candOk {σ : Type} {O : Ipasir σ} {view : σ → View} (hO : ValCorrect O view)
    {F : List (List Int)} (s : σ)
    (hdb : ∀ m : Assignment, formulaSat m (view s).db = formulaSat m F)
    (hsat : (O.solve s).1 = SAT) (v : Nat) (hv : 1 ≤ v) :
    CandOk F v (O.val (O.solve s).2 (v : Int)) := by
  obtain ⟨m, hm, _, hval⟩ := hO.val_model s hsat
  rw [hdb] at hm
  rcases hval v hv with ⟨h1, h2⟩ | ⟨h1, h2⟩ | ⟨h1, h2⟩
  · refine ⟨Or.inl h1, fun _ => h1, fun hB => ?_⟩
    have := hB m hm
    rw [h2] at this
    exact Bool.noConfusion this
  · refine ⟨Or.inr (Or.inl h1), fun hA => ?_, fun _ => h1⟩
    have := hA m hm
    rw [h2] at this
    exact Bool.noConfusion this
  · rw [hdb] at h2
    refine ⟨Or.inr (Or.inr h1), fun hA => ?_, fun hB => ?_⟩
    · have a := hA m hm
      have b := hA _ h2
      simp [a] at b
    · have a := hB m hm
      have b := hB _ h2
      simp [a] at b

theorem satisfiable_of_sat {σ : Type} {O : Ipasir σ} {view : σ → View} (hO : ValCorrect O view)
    {F : List (List Int)} (s : σ)
    (hdb : ∀ m : Assignment, formulaSat m (view s).db = formulaSat m F)
    (hsat : (O.solve s).1 = SAT) : Satisfiable F := by
  obtain ⟨m, hm, _, _⟩ := hO.val_model s hsat
  rw [hdb] at hm
  exact ⟨m, hm⟩

theorem candOk_zero {F : List (List Int)} {j : Nat} {x y : Int}
    (hx : CandOk F j x) (hy : CandOk F j y) (hne : x ≠ y) : CandOk F j 0 := by
  refine ⟨Or.inr (Or.inr rfl), fun hA => ?_, fun hB => ?_⟩
  · exact absurd ((hx.2.1 hA).trans (hy.2.1 hA).symm) hne
  · exact absurd ((hx.2.2 hB).trans (hy.2.2 hB).symm) hne

/-- The initialisation loop of `solve_advanced` leaves the solver alone and fills the
candidates with admissible values. -/
theorem advanced_init_spec {σ : Type} {O : Ipasir σ} {view : σ → View} (hO : ValCorrect O view)
    {F : List (List Int)} (s : σ)
    (hdb : ∀ m : Assignment, formulaSat m (view s).db = formulaSat m F)
    (hsat : (O.solve s).1 = SAT) (e : Env σ) (he : e.solver = (O.solve s).2) (N : Nat) :
    ((List.range' 1 N).foldl (advanced_init_body O) (e, List.replicate (N + 1) 0)).1.solver
      = (O.solve s).2 ∧
    ∀ j : Nat, 1 ≤ j → j ≤ N →
      CandOk F j
        (((List.range' 1 N).foldl (advanced_init_body O)
          (e, List.replicate (N + 1) 0)).2.getD j 0) := by
  have key := foldl_range_inv (advanced_init_body O)
    (fun k a => a.1.solver = (O.solve s).2 ∧ a.2.length = N + 1 ∧
      ∀ j : Nat, 1 ≤ j →
        (j ≤ k → CandOk F j (a.2.getD j 0)) ∧ (k < j → a.2.getD j 0 = 0))
    1 N (e, List.replicate (N + 1) 0) ?_ ?_
  · obtain ⟨h1, _, h3⟩ := key
    exact ⟨h1, fun j hj hjN => (h3 j hj).1 hjN⟩
  · refine ⟨he, by simp, fun j hj => ⟨fun h => by omega, fun _ => ?_⟩⟩
    simp only [List.getD_eq_getElem?_getD, List.getElem?_replicate]
    split_ifs <;> rfl
  · rintro k a hk ⟨hs, hl, hinv⟩
    refine ⟨by simpa [advanced_init_body] using hs, by simp [advanced_init_body, hl],
      fun j hj => ?_⟩
    simp only [advanced_init_body, ipasir_val_res, ipasir_val_solver]
    rw [getD_set]
    by_cases hj2 : j = 1 + k ∧ 1 + k < a.2.length
    · rw [if_pos hj2]
      obtain ⟨rfl, _⟩ := hj2
      rw [hs]
      exact ⟨fun _ => val_candOk hO s hdb hsat _ hj, fun h => by omega⟩
    · rw [if_neg hj2]
      have hne : j ≠ 1 + k := fun h => hj2 ⟨h, by omega⟩
      exact ⟨fun h => (hinv j hj).1 (by omega), fun h => (hinv j hj).2 (by omega)⟩

/-- The filtering loop leaves the solver alone and keeps the candidates admissible. -/
theorem advanced_filter_spec {σ : Type} {O : Ipasir σ} {view : σ → View} (hO : ValCorrect O view)
    {F : List (List Int)} (s : σ)
    (hdb : ∀ m : Assignment, formulaSat m (view s).db = formulaSat m F)
    (hsat : (O.solve s).1 = SAT) (e : Env σ) (he : e.solver = (O.solve s).2)
    (cands : List Int) (l N : Nat)
    (hc : ∀ j : Nat, 1 ≤ j → l < j → j ≤ N → CandOk F j (cands.getD j 0)) :
    ((List.range' (l + 1) (N - l)).foldl (advanced_filter_body O) (e, cands)).1.solver
      = (O.solve s).2 ∧
    ∀ j : Nat, 1 ≤ j → l < j → j ≤ N →
      CandOk F j
        (((List.range' (l + 1) (N - l)).foldl (advanced_filter_body O) (e, cands)).2.getD j 0) := by
  refine foldl_range_inv (advanced_filter_body O)
    (fun _ a => a.1.solver = (O.solve s).2 ∧
      ∀ j : Nat, 1 ≤ j → l < j → j ≤ N → CandOk F j (a.2.getD j 0))
    (l + 1) (N - l) (e, cands) ⟨he, hc⟩ ?_
  rintro k a hk ⟨hs, hinv⟩
  have hlit : 1 ≤ l + 1 + k := by omega
  have hval := val_candOk hO s hdb hsat (l + 1 + k) hlit
  unfold advanced_filter_body
  simp only [ipasir_val_res, ipasir_val_solver]
  split_ifs with hne
  · refine ⟨by simpa using hs, fun j hj hlj hjN => ?_⟩
    simp only []
    rw [getD_set]
    by_cases hj2 : j = l + 1 + k ∧ l + 1 + k < a.2.length
    · rw [if_pos hj2]
      obtain ⟨rfl, _⟩ := hj2
      rw [hs] at hne
      exact candOk_zero (hinv _ hj hlj hjN) hval hne
    · rw [if_neg hj2]
      exact hinv j hj hlj hjN
  · exact ⟨by simpa using hs, hinv⟩

/-- The SAT branch of the main loop of `solve_advanced`: after a query that did not
answer UNSAT, filtering keeps the formula and admissible candidates. -/
theorem advanced_sat_branch {σ : Type} {O : Ipasir σ} {view : σ → View} (hO : SolveCorrect O view)
    (hV : ValCorrect O view)
    {F : List (List Int)} (s : σ) (hs : Holds view F s) (x : Int)
    (hne : ¬ (O.solve (O.assume s x)).1 = UNSAT) (e : Env σ)
    (he : e.solver = (O.solve (O.assume s x)).2) (cands : List Int) (l N : Nat)
    (hc : ∀ j : Nat, 1 ≤ j → l < j → j ≤ N → CandOk F j (cands.getD j 0)) :
    Holds view F
      ((List.range' (l + 1) (N - l)).foldl (advanced_filter_body O) (e, cands)).1.solver ∧
    ∀ j : Nat, 1 ≤ j → l < j → j ≤ N →
      CandOk F j
        (((List.range' (l + 1) (N - l)).foldl (advanced_filter_body O) (e, cands)).2.getD j 0) := by
  have hsat : (O.solve (O.assume s x)).1 = SAT :=
    (solve_sat_or_unsat hO (O.assume s x)).resolve_right hne
  have hdb : ∀ m : Assignment, formulaSat m (view (O.assume s x)).db = formulaSat m F := by
    intro m; rw [hO.assume_view]; exact hs.1 m
  obtain ⟨h1, h2⟩ := advanced_filter_spec hV (O.assume s x) hdb hsat e he cands l N hc
  refine ⟨?_, h2⟩
  rw [h1]
  exact holds_query hO hs x

/-- Effect of one iteration of the main loop of `solve_advanced` against a correct oracle. -/
theorem advanced_body_spec {σ : Type} {O : Ipasir σ} {view : σ → View} (hO : SolveCorrect O view)
    (hV : ValCorrect O view)
    {F : List (List Int)} (N : Nat) (inject : Int)
    (hAdd : inject ≠ 0 → AddCorrect O view) (st : AdvState σ)
    (l : Nat) (hl : 1 ≤ l) (hlN : l ≤ N) (hs : Holds view F st.env.solver)
    (hc : ∀ j : Nat, 1 ≤ j → l ≤ j → j ≤ N → CandOk F j (st.candidates.getD j 0)) :
    Holds view F (advanced_body O N inject st l).env.solver ∧
    (∀ j : Nat, 1 ≤ j → l < j → j ≤ N →
      CandOk F j ((advanced_body O N inject st l).candidates.getD j 0)) ∧
    (AlwaysTrue F l → (advanced_body O N inject st l).backbone = st.backbone.set l (l : Int)) ∧
    (AlwaysFalse F l →
      (advanced_body O N inject st l).backbone = st.backbone.set l (-(l : Int))) ∧
    (¬ AlwaysTrue F l → ¬ AlwaysFalse F l →
      (advanced_body O N inject st l).backbone = st.backbone) := by
  have hcl := hc l hl (Nat.le_refl l) hlN
  have hrest : ∀ j : Nat, 1 ≤ j → l < j → j ≤ N → CandOk F j (st.candidates.getD j 0) :=
    fun j hj hlj hjN => hc j hj (Nat.le_of_lt hlj) hjN
  have hlne : ((l : Nat) : Int) ≠ 0 := by omega
  unfold advanced_body
  simp only []
  split_ifs with h0 h1 h2
  · -- filtered out or unconstrained: `l` has no backbone literal
    have hnA : ¬ AlwaysTrue F l := fun h => hlne ((hcl.2.1 h).symm.trans h0)
    have hnB : ¬ AlwaysFalse F l := fun h => by
      have := (hcl.2.2 h).symm.trans h0
      omega
    exact ⟨hs, hrest, fun h => absurd h hnA, fun h => absurd h hnB, fun _ _ => rfl⟩
  rcases hcl.1 with hc1 | hc1 | hc1
  · -- the candidate is `l`: the query assumes `-l`
    have hq := query_neg_unsat_iff hO hs l hl
    have hh := holds_query hO hs (-(l : Int))
    have hnB : ¬ AlwaysFalse F l := fun h => by
      have := (hcl.2.2 h).symm.trans hc1
      omega
    rw [hc1] at h1 ⊢
    simp only [ipasir_solve_res, ipasir_assume_solver] at h1
    have hA : AlwaysTrue F l := hq.mp h1
    refine ⟨?_, hrest, fun _ => by simp, fun h => absurd h hnB, fun h => absurd hA h⟩
    have := holds_inject (hAdd h2) hh (l : Int) hlne (entails_pos hl hA)
    simpa using this
  · -- the candidate is `-l`: the query assumes `l`
    have hq := query_pos_unsat_iff hO hs l hl
    have hh := holds_query hO hs (l : Int)
    have hnA : ¬ AlwaysTrue F l := fun h => by
      have := (hcl.2.1 h).symm.trans hc1
      omega
    rw [hc1] at h1 ⊢
    simp only [ipasir_solve_res, ipasir_assume_solver, neg_neg] at h1
    have hB : AlwaysFalse F l := hq.mp h1
    refine ⟨?_, hrest, fun h => absurd h hnA, fun _ => by simp, fun _ h => absurd hB h⟩
    have := holds_inject (hAdd h2) hh (-(l : Int)) (by omega) (entails_neg hl hB)
    simpa using this
  · exact absurd hc1 h0
  · rcases hcl.1 with hc1 | hc1 | hc1
    · have hq := query_neg_unsat_iff hO hs l hl
      have hh := holds_query hO hs (-(l : Int))
      have hnB : ¬ AlwaysFalse F l := fun h => by
        have := (hcl.2.2 h).symm.trans hc1
        omega
      rw [hc1] at h1 ⊢
      simp only [ipasir_solve_res, ipasir_assume_solver] at h1
      have hA : AlwaysTrue F l := hq.mp h1
      exact ⟨by simpa using hh, hrest, fun _ => by simp, fun h => absurd h hnB,
        fun h => absurd hA h⟩
    · have hq := query_pos_unsat_iff hO hs l hl
      have hh := holds_query hO hs (l : Int)
      have hnA : ¬ AlwaysTrue F l := fun h => by
        have := (hcl.2.1 h).symm.trans hc1
        omega
      rw [hc1] at h1 ⊢
      simp only [ipasir_solve_res, ipasir_assume_solver, neg_neg] at h1
      have hB : AlwaysFalse F l := hq.mp h1
      exact ⟨by simpa using hh, hrest, fun h => absurd h hnA, fun _ => by simp,
        fun _ h => absurd hB h⟩
    · exact absurd hc1 h0
  · simp only [ipasir_solve_res, ipasir_assume_solver] at h1
    obtain ⟨k1, k2⟩ := advanced_sat_branch hO hV st.env.solver hs (-(st.candidates.getD l 0)) h1
      (ipasir_solve O (ipasir_assume O st.env (-(st.candidates.getD l 0)))).2 rfl
      st.candidates l N hrest
    have hnA : ¬ AlwaysTrue F l := by
      intro hA
      have hc1 := hcl.2.1 hA
      rw [hc1] at h1
      exact h1 ((query_neg_unsat_iff hO hs l hl).mpr hA)
    have hnB : ¬ AlwaysFalse F l := by
      intro hB
      have hc1 := hcl.2.2 hB
      rw [hc1, neg_neg] at h1
      exact h1 ((query_pos_unsat_iff hO hs l hl).mpr hB)
    exact ⟨k1, k2, fun h => absurd h hnA, fun h => absurd h hnB, fun _ _ => rfl⟩

/-- Against a correct oracle whose last `solve` answered SAT on a database equivalent to
`F`, `solve_advanced` started on an all-zero vector ends with the backbone vector of `F`,
whatever `inject` is. -/
theorem solve_advanced_spec {σ : Type} {O : Ipasir σ} {view : σ → View} (hO : SolveCorrect O view)
    (hV : ValCorrect O view)
    {F : List (List Int)} (s : σ)
    (hdb : ∀ m : Assignment, formulaSat m (view s).db = formulaSat m F)
    (hsat : (O.solve s).1 = SAT) (inject : Int)
    (hAdd : inject ≠ 0 → AddCorrect O view) (e : Env σ) (he : e.solver = (O.solve s).2)
    (bb0 : List Int) (N : Nat) (h0 : ∀ v : Nat, bb0.getD v 0 = 0) :
    Holds view F (solve_advanced O e bb0 N inject).env.solver ∧
    BackboneVec F N bb0.length (solve_advanced O e bb0 N inject).backbone := by
  have hF : Satisfiable F := satisfiable_of_sat hV s hdb hsat
  have hs0 : Holds view F (O.solve s).2 :=
    ⟨fun m => by rw [hO.solve_view]; exact hdb m, by rw [hO.solve_view]⟩
  obtain ⟨hi1, hi2⟩ := advanced_init_spec hV s hdb hsat
    (printf e (Out.algo23 (decide (inject ≠ 0)))) he N
  unfold solve_advanced
  simp only []
  have key := foldl_range_inv (advanced_body O N inject)
    (fun k a => Holds view F a.env.solver ∧
      (∀ j : Nat, 1 ≤ j → k < j → j ≤ N → CandOk F j (a.candidates.getD j 0)) ∧
      a.backbone.length = bb0.length ∧
      ∀ v : Nat,
        ((1 ≤ v ∧ v ≤ k ∧ v < bb0.length) →
          (AlwaysTrue F v → a.backbone.getD v 0 = (v : Int)) ∧
          (AlwaysFalse F v → a.backbone.getD v 0 = -(v : Int)) ∧
          (¬ AlwaysTrue F v → ¬ AlwaysFalse F v → a.backbone.getD v 0 = 0)) ∧
        (¬ (1 ≤ v ∧ v ≤ k ∧ v < bb0.length) → a.backbone.getD v 0 = 0))
    1 N
    { env := ((List.range' 1 N).foldl (advanced_init_body O)
        (printf e (Out.algo23 (decide (inject ≠ 0))), List.replicate (N + 1) 0)).1,
      backbone := bb0,
      candidates := ((List.range' 1 N).foldl (advanced_init_body O)
        (printf e (Out.algo23 (decide (inject ≠ 0))), List.replicate (N + 1) 0)).2 } ?_ ?_
  · exact ⟨key.1, key.2.2.1, key.2.2.2⟩
  · refine ⟨?_, fun j hj _ hjN => hi2 j hj hjN, rfl, fun v => ⟨fun h => by omega, fun _ => h0 v⟩⟩
    show Holds view F _
    rw [hi1]; exact hs0
  · rintro k a hk ⟨hh, hc, hlen, hinv⟩
    obtain ⟨b1, b2, bA, bB, bN⟩ := advanced_body_spec hO hV N inject hAdd a (1 + k) (by omega)
      (by omega) hh (fun j hj hlj hjN => hc j hj (by omega) hjN)
    refine ⟨b1, fun j hj hlj hjN => b2 j hj (by omega) hjN, ?_, ?_⟩
    · by_cases hA : AlwaysTrue F (1 + k)
      · rw [bA hA, List.length_set]; exact hlen
      · by_cases hB : AlwaysFalse F (1 + k)
        · rw [bB hB, List.length_set]; exact hlen
        · rw [bN hA hB]; exact hlen
    · intro v
      have old1 : v ≠ 1 + k → (1 ≤ v ∧ v ≤ k + 1 ∧ v < bb0.length) →
          (1 ≤ v ∧ v ≤ k ∧ v < bb0.length) := fun h1 h2 => ⟨h2.1, by omega, h2.2.2⟩
      have old2 : ¬ (1 ≤ v ∧ v ≤ k + 1 ∧ v < bb0.length) →
          ¬ (1 ≤ v ∧ v ≤ k ∧ v < bb0.length) := fun h1 h2 => h1 ⟨h2.1, by omega, h2.2.2⟩
      by_cases hA : AlwaysTrue F (1 + k)
      · rw [bA hA, getD_set]
        by_cases hv : v = 1 + k ∧ 1 + k < a.backbone.length
        · rw [if_pos hv]
          obtain ⟨rfl, hv2⟩ := hv
          exact ⟨fun _ => ⟨fun _ => rfl, fun hB => (not_both hF _ hA hB).elim,
            fun h => absurd hA h⟩, fun h => absurd ⟨by omega, by omega, by omega⟩ h⟩
        · rw [if_neg hv]
          have hne : v < bb0.length → v ≠ 1 + k := by
            intro h1 h2; exact hv ⟨h2, by omega⟩
          exact ⟨fun h => (hinv v).1 (old1 (hne h.2.2) h), fun h => (hinv v).2 (old2 h)⟩
      · by_cases hB : AlwaysFalse F (1 + k)
        · rw [bB hB, getD_set]
          by_cases hv : v = 1 + k ∧ 1 + k < a.backbone.length
          · rw [if_pos hv]
            obtain ⟨rfl, hv2⟩ := hv
            exact ⟨fun _ => ⟨fun h => absurd h hA, fun _ => rfl, fun _ h => absurd hB h⟩,
              fun h => absurd ⟨by omega, by omega, by omega⟩ h⟩
          · rw [if_neg hv]
            have hne : v < bb0.length → v ≠ 1 + k := by
              intro h1 h2; exact hv ⟨h2, by omega⟩
            exact ⟨fun h => (hinv v).1 (old1 (hne h.2.2) h), fun h => (hinv v).2 (old2 h)⟩
        · rw [bN hA hB]
          refine ⟨fun h => ?_, fun h => (hinv v).2 (old2 h)⟩
          by_cases hvk : v = 1 + k
          · subst hvk
            exact ⟨fun h => absurd h hA, fun h => absurd h hB,
              fun _ _ => (hinv _).2 (fun h' => by omega)⟩
          · exact (hinv v).1 (old1 hvk h)

/-! ## The reference oracle is correct -/

theorem allAssignments_complete (m : Assignment) : ∀ n : Nat,
    ∃ m1 ∈ allAssignments n, (∀ v, 1 ≤ v → v ≤ n → m1 v = m v) ∧ (∀ v, n < v → m1 v = false) := by
  intro n
  induction n with
  | zero => exact ⟨fun _ => false, by simp [allAssignments], fun v h1 h2 => by omega, fun _ _ => rfl⟩
  | succ n ih =>
    obtain ⟨m1, hmem, hagree, hfalse⟩ := ih
    cases hm : m (n + 1) with
    | false =>
      refine ⟨m1, ?_, ?_, fun v hv => hfalse v (by omega)⟩
      · simp only [allAssignments, List.mem_flatMap]
        exact ⟨m1, hmem, by simp⟩
      · intro v h1 h2
        by_cases hv : v = n + 1
        · subst hv; rw [hm]; exact hfalse _ (by omega)
        · exact hagree v h1 (by omega)
    | true =>
      refine ⟨fun x => if x = n + 1 then true else m1 x, ?_, ?_, ?_⟩
      · simp only [allAssignments, List.mem_flatMap]
        exact ⟨m1, hmem, by simp⟩
      · intro v h1 h2
        by_cases hv : v = n + 1
        · subst hv; simp [hm]
        · simp only [hv, if_false]; exact hagree v h1 (by omega)
      · intro v hv
        have : v ≠ n + 1 := by omega
        simp only [this, if_false]; exact hfalse v (by omega)

theorem litTrue_congr (m m1 : Assignment) (n : Nat)
    (h : ∀ v, 1 ≤ v → v ≤ n → m1 v = m v) (l : Int) (hl : l.natAbs ≤ n) :
    litTrue m1 l = litTrue m l := by
  unfold litTrue
  by_cases h0 : l = 0
  · subst h0; simp
  · have : 1 ≤ l.natAbs := by omega
    rw [h l.natAbs this hl]

theorem natAbs_le_maxVarLits (ls : List Int) : ∀ l ∈ ls, l.natAbs ≤ maxVarLits ls := by
  induction ls with
  | nil => intro l hl; simp at hl
  | cons x xs ih =>
    intro l hl
    simp only [maxVarLits, List.foldr_cons]
    rcases List.mem_cons.mp hl with rfl | h
    · exact Nat.le_max_left _ _
    · exact Nat.le_trans (ih l h) (Nat.le_max_right _ _)

theorem maxVarLits_le_maxVarOf (F : List (List Int)) : ∀ c ∈ F, maxVarLits c ≤ maxVarOf F := by
  induction F with
  | nil => intro c hc; simp at hc
  | cons x xs ih =>
    intro c hc
    simp only [maxVarOf, List.foldr_cons]
    rcases List.mem_cons.mp hc with rfl | h
    · exact Nat.le_max_left _ _
    · exact Nat.le_trans (ih c h) (Nat.le_max_right _ _)

theorem all_congr_mem {α : Type} (l : List α) (p q : α → Bool)
    (h : ∀ x ∈ l, p x = q x) : l.all p = l.all q := by
  induction l with
  | nil => rfl
  | cons x xs ih =>
    simp only [List.all_cons]
    rw [h x (List.mem_cons_self _ _), ih (fun y hy => h y (List.mem_cons_of_mem _ hy))]

theorem any_congr_mem {α : Type} (l : List α) (p q : α → Bool)
    (h : ∀ x ∈ l, p x = q x) : l.any p = l.any q := by
  induction l with
  | nil => rfl
  | cons x xs ih =>
    simp only [List.any_cons]
    rw [h x (List.mem_cons_self _ _), ih (fun y hy => h y (List.mem_cons_of_mem _ hy))]

theorem litsTrue_congr (m m1 : Assignment) (n : Nat)
    (h : ∀ v, 1 ≤ v → v ≤ n → m1 v = m v) (ls : List Int) (hn : maxVarLits ls ≤ n) :
    litsTrue m1 ls = litsTrue m ls := by
  unfold litsTrue
  apply all_congr_mem
  intro l hl
  exact litTrue_congr m m1 n h l (Nat.le_trans (natAbs_le_maxVarLits ls l hl) hn)

theorem clauseSat_congr (m m1 : Assignment) (n : Nat)
    (h : ∀ v, 1 ≤ v → v ≤ n → m1 v = m v) (c : List Int) (hn : maxVarLits c ≤ n) :
    clauseSat m1 c = clauseSat m c := by
  unfold clauseSat
  apply any_congr_mem
  intro l hl
  exact litTrue_congr m m1 n h l (Nat.le_trans (natAbs_le_maxVarLits c l hl) hn)

theorem formulaSat_congr (m m1 : Assignment) (n : Nat)
    (h : ∀ v, 1 ≤ v → v ≤ n → m1 v = m v) (F : List (List Int)) (hn : maxVarOf F ≤ n) :
    formulaSat m1 F = formulaSat m F := by
  unfold formulaSat
  apply all_congr_mem
  intro c hc
  exact clauseSat_congr m m1 n h c (Nat.le_trans (maxVarLits_le_maxVarOf F c hc) hn)

theorem bruteSearch_some_of_model (db : List (List Int)) (assumps : List Int)
    (m : Assignment) (h1 : formulaSat m db = true) (h2 : litsTrue m assumps = true) :
    ∃ m1, bruteSearch db assumps = some m1 := by
  obtain ⟨m1, hmem, hagree, _⟩ :=
    allAssignments_complete m (max (maxVarOf db) (maxVarLits assumps))
  have e1 := formulaSat_congr m m1 _ hagree db (Nat.le_max_left _ _)
  have e2 := litsTrue_congr m m1 _ hagree assumps (Nat.le_max_right _ _)
  cases hb : bruteSearch db assumps with
  | some x => exact ⟨x, rfl⟩
  | none =>
    unfold bruteSearch at hb
    rw [List.find?_eq_none] at hb
    have := hb m1 hmem
    simp [e1, e2, h1, h2] at this

theorem bruteSearch_sound (db : List (List Int)) (assumps : List Int) (m : Assignment)
    (h : bruteSearch db assumps = some m) :
    formulaSat m db = true ∧ litsTrue m assumps = true := by
  unfold bruteSearch at h
  have := List.find?_some h
  simpa using this

/-- The exhaustive-search oracle honours the oracle contract. -/
theorem brute_correct (sig : List Char) : Correct (bruteOracle sig) (fun s => s.view) where
  init_view := rfl
  add_zero := fun s => by simp [bruteOracle]
  add_lit := fun s l hl => by simp [bruteOracle, hl]
  assume_view := fun s l => rfl
  solve_view := fun s => by
    simp only [bruteOracle]
    cases bruteSearch s.view.db s.view.assumps <;> rfl
  solve_sat := fun s ⟨m, h1, h2⟩ => by
    obtain ⟨m1, hm1⟩ := bruteSearch_some_of_model _ _ m h1 h2
    simp only [bruteOracle, hm1]
  solve_unsat := fun s hno => by
    simp only [bruteOracle]
    cases hb : bruteSearch s.view.db s.view.assumps with
    | none => rfl
    | some m => exact absurd ⟨m, bruteSearch_sound _ _ m hb⟩ hno
  val_model := fun s hsat => by
    simp only [bruteOracle] at hsat ⊢
    cases hb : bruteSearch s.view.db s.view.assumps with
    | none => rw [hb] at hsat; exact absurd hsat (Ne.symm sat_ne_unsat)
    | some m =>
      obtain ⟨h1, h2⟩ := bruteSearch_sound _ _ m hb
      refine ⟨m, h1, h2, fun v hv => ?_⟩
      simp only [Int.natAbs_ofNat]
      cases hmv : m v with
      | true => left; simp
      | false => right; left; simp

/-! ## The algorithms compute the backbone -/

theorem getD_replicate_zero (n v : Nat) : (List.replicate n (0 : Int)).getD v 0 = 0 := by
  simp only [List.getD_eq_getElem?_getD, List.getElem?_replicate]
  split_ifs <;> rfl

theorem backboneVec_isBackbone {F : List (List Int)} {N : Nat}
    {bb : List Int} (h : BackboneVec F N (N + 1) bb) : IsBackbone F N bb := by
  intro i h1 h2
  obtain ⟨hA, hB, hN⟩ := (h.2 i).1 ⟨h1, h2, by omega⟩
  refine ⟨⟨fun hi => ?_, hA⟩, ⟨fun hi => ?_, hB⟩, fun hn => hN hn.1 hn.2⟩
  · by_contra hnA
    by_cases hb : AlwaysFalse F i
    · have := (hB hb).symm.trans hi
      omega
    · have := (hN hnA hb).symm.trans hi
      omega
  · by_contra hnB
    by_cases ha : AlwaysTrue F i
    · have := (hA ha).symm.trans hi
      omega
    · have := (hN ha hnB).symm.trans hi
      omega

theorem backboneVec_unique {F : List (List Int)} {N len : Nat}
    {bb bb1 : List Int} (h : BackboneVec F N len bb) (h1 : BackboneVec F N len bb1) :
    bb = bb1 := by
  have hget : ∀ v : Nat, bb.getD v 0 = bb1.getD v 0 := by
    intro v
    by_cases hr : 1 ≤ v ∧ v ≤ N ∧ v < len
    · obtain ⟨a1, a2, a3⟩ := (h.2 v).1 hr
      obtain ⟨b1, b2, b3⟩ := (h1.2 v).1 hr
      by_cases hA : AlwaysTrue F v
      · rw [a1 hA, b1 hA]
      · by_cases hB : AlwaysFalse F v
        · rw [a2 hB, b2 hB]
        · rw [a3 hA hB, b3 hA hB]
    · rw [(h.2 v).2 hr, (h1.2 v).2 hr]
  apply List.ext_getElem (h.1.trans h1.1.symm)
  intro i hi hi1
  have := hget i
  simpa [List.getD_eq_getElem?_getD, List.getElem?_eq_getElem hi,
    List.getElem?_eq_getElem hi1] using this

/-- C1: for a satisfiable formula `F` held, with no assumption pending, by an oracle whose
`assume`/`solve` honour the contract (solve decides database and assumptions),
`solve_naive` with `inject = 0` on the all-zero vector of size `maxVar + 1` ends with
`backbone[i] = i` iff every model of `F` sets `i` true, `backbone[i] = -i` iff every
model sets `i` false, and `backbone[i] = 0` otherwise, for every `i` in `1..maxVar`
(for any `maxVar`, in particular the largest variable of `F`). -/
theorem naive_computes_backbone {σ : Type} (O : Ipasir σ) (view : σ → View)
    (hO : SolveCorrect O view) (F : List (List Int)) (hF : Satisfiable F) (e : Env σ)
    (hdb : (view e.solver).db = F) (hass : (view e.solver).assumps = []) (maxVar : Nat) :
    IsBackbone F maxVar (solve_naive O e (List.replicate (maxVar + 1) 0) maxVar 0).2 := by
  have hs : Holds view F e.solver := ⟨fun m => by rw [hdb], hass⟩
  have := (solve_naive_spec hO hF 0 (fun h => absurd rfl h) e (List.replicate (maxVar + 1) 0) maxVar hs
    (getD_replicate_zero _)).2
  rw [List.length_replicate] at this
  exact backboneVec_isBackbone this

theorem naive_computes_backbone_witness :
    (solve_naive (bruteOracle []) ⟨bruteWith [[1]], [], []⟩ (List.replicate (1 + 1) 0) 1 0).2
      = [0, 1] ∧
    IsBackbone [[1]] 1
      (solve_naive (bruteOracle []) ⟨bruteWith [[1]], [], []⟩ (List.replicate (1 + 1) 0) 1 0).2 :=
  ⟨by decide, naive_computes_backbone (bruteOracle []) (fun s => s.view) (brute_correct []).toSolveCorrect
    [[1]] ⟨fun _ => true, by decide⟩ ⟨bruteWith [[1]], [], []⟩ rfl rfl 1⟩

/-- C2: for a formula `F` held by an oracle whose `assume`/`solve` and `val` honour the
contract and whose initial `solve()` answered SAT (so `F` is satisfiable),
`solve_advanced` with `inject = 0`, entered right after that solve on the all-zero vector
of size `maxVar + 1`, ends with `backbone[l] = l` iff every model of `F` sets `l` true,
`backbone[l] = -l` iff every model sets `l` false, and `0` otherwise, for every `l` in
`1..maxVar`. -/
theorem advanced_computes_backbone {σ : Type} (O : Ipasir σ) (view : σ → View)
    (hO : SolveCorrect O view) (hV : ValCorrect O view) (F : List (List Int)) (e : Env σ)
    (hdb : (view e.solver).db = F) (hsat : (ipasir_solve O e).1 = SAT) (maxVar : Nat) :
    IsBackbone F maxVar
      (solve_advanced O (ipasir_solve O e).2 (List.replicate (maxVar + 1) 0) maxVar 0).backbone := by
  have hdb1 : ∀ m : Assignment, formulaSat m (view e.solver).db = formulaSat m F :=
    fun m => by rw [hdb]
  have := (solve_advanced_spec hO hV e.solver hdb1 hsat 0 (fun h => absurd rfl h)
    (ipasir_solve O e).2 rfl
    (List.replicate (maxVar + 1) 0) maxVar (getD_replicate_zero _)).2
  rw [List.length_replicate] at this
  exact backboneVec_isBackbone this

theorem advanced_computes_backbone_witness :
    (solve_advanced (bruteOracle [])
      (ipasir_solve (bruteOracle []) ⟨bruteWith [[1, 2], [-1, 2]], [], []⟩).2
      (List.replicate (2 + 1) 0) 2 0).backbone = [0, 0, 2] ∧
    IsBackbone [[1, 2], [-1, 2]] 2
      (solve_advanced (bruteOracle [])
        (ipasir_solve (bruteOracle []) ⟨bruteWith [[1, 2], [-1, 2]], [], []⟩).2
        (List.replicate (2 + 1) 0) 2 0).backbone :=
  ⟨by decide, advanced_computes_backbone (bruteOracle []) (fun s => s.view) (brute_correct []).toSolveCorrect
    (brute_correct []).toValCorrect
    [[1, 2], [-1, 2]] ⟨bruteWith [[1, 2], [-1, 2]], [], []⟩ rfl (by decide) 2⟩

/-- C4: for a satisfiable formula held by a correct oracle, `solve_naive` returns the same
backbone vector with injection (any non-zero `inject`, in particular 1) as with
`inject = 0`, and so does `solve_advanced` entered after the initial solve. -/
theorem injection_preserves_backbone {σ : Type} (O : Ipasir σ) (view : σ → View)
    (hO : Correct O view) (F : List (List Int)) (hF : Satisfiable F) (e : Env σ)
    (hdb : (view e.solver).db = F) (hass : (view e.solver).assumps = []) (maxVar : Nat)
    (inject : Int) :
    (solve_naive O e (List.replicate (maxVar + 1) 0) maxVar inject).2
      = (solve_naive O e (List.replicate (maxVar + 1) 0) maxVar 0).2 ∧
    (solve_advanced O (ipasir_solve O e).2 (List.replicate (maxVar + 1) 0) maxVar inject).backbone
      = (solve_advanced O (ipasir_solve O e).2 (List.replicate (maxVar + 1) 0) maxVar 0).backbone := by
  have hdb1 : ∀ m : Assignment, formulaSat m (view e.solver).db = formulaSat m F :=
    fun m => by rw [hdb]
  have hs : Holds view F e.solver := ⟨hdb1, hass⟩
  have hsat : (O.solve e.solver).1 = SAT := by
    obtain ⟨m, hm⟩ := hF
    exact hO.solve_sat e.solver ⟨m, by rw [hdb]; exact hm, by rw [hass]; rfl⟩
  constructor
  · exact backboneVec_unique
      (solve_naive_spec hO.toSolveCorrect hF inject (fun _ => hO.toAddCorrect) e _ maxVar hs (getD_replicate_zero _)).2
      (solve_naive_spec hO.toSolveCorrect hF 0 (fun _ => hO.toAddCorrect) e _ maxVar hs (getD_replicate_zero _)).2
  · exact backboneVec_unique
      (solve_advanced_spec hO.toSolveCorrect hO.toValCorrect e.solver hdb1 hsat inject
        (fun _ => hO.toAddCorrect) (ipasir_solve O e).2 rfl _ maxVar
        (getD_replicate_zero _)).2
      (solve_advanced_spec hO.toSolveCorrect hO.toValCorrect e.solver hdb1 hsat 0
        (fun _ => hO.toAddCorrect) (ipasir_solve O e).2 rfl _ maxVar
        (getD_replicate_zero _)).2

theorem injection_preserves_backbone_witness :
    ((solve_naive (bruteOracle []) ⟨bruteWith [[1], [-2], [3, 4]], [], []⟩
        (List.replicate (4 + 1) 0) 4 1).2
      = (solve_naive (bruteOracle []) ⟨bruteWith [[1], [-2], [3, 4]], [], []⟩
        (List.replicate (4 + 1) 0) 4 0).2 ∧
     (solve_advanced (bruteOracle [])
        (ipasir_solve (bruteOracle []) ⟨bruteWith [[1], [-2], [3, 4]], [], []⟩).2
        (List.replicate (4 + 1) 0) 4 1).backbone
      = (solve_advanced (bruteOracle [])
        (ipasir_solve (bruteOracle []) ⟨bruteWith [[1], [-2], [3, 4]], [], []⟩).2
        (List.replicate (4 + 1) 0) 4 0).backbone) ∧
    (solve_naive (bruteOracle []) ⟨bruteWith [[1], [-2], [3, 4]], [], []⟩
        (List.replicate (4 + 1) 0) 4 1).2 = [0, 1, -2, 0, 0] ∧
    (solve_naive (bruteOracle []) ⟨bruteWith [[1], [-2], [3, 4]], [], []⟩
        (List.replicate (4 + 1) 0) 4 1).1.solver.view.db = [[1], [-2], [3, 4], [1], [-2]] ∧
    (solve_naive (bruteOracle []) ⟨bruteWith [[1], [-2], [3, 4]], [], []⟩
        (List.replicate (4 + 1) 0) 4 0).1.solver.view.db = [[1], [-2], [3, 4]] :=
  ⟨injection_preserves_backbone (bruteOracle []) (fun s => s.view) (brute_correct [])
      [[1], [-2], [3, 4]] ⟨fun v => decide (v ≠ 2), by decide⟩
      ⟨bruteWith [[1], [-2], [3, 4]], [], []⟩ rfl rfl 4 1,
    by decide, by decide, by decide⟩

/-! ## Loading is independent of the oracle -/

theorem view_add_congr {σ1 σ2 : Type} {O1 : Ipasir σ1} {O2 : Ipasir σ2} {view1 : σ1 → View}
    {view2 : σ2 → View} (h1 : AddCorrect O1 view1) (h2 : AddCorrect O2 view2) (s1 : σ1) (s2 : σ2)
    (hv : view1 s1 = view2 s2) (l : Int) : view1 (O1.add s1 l) = view2 (O2.add s2 l) := by
  by_cases hl : l = 0
  · subst hl; rw [h1.add_zero, h2.add_zero, hv]
  · rw [h1.add_lit s1 l hl, h2.add_lit s2 l hl, hv]

theorem loadIter_sim {σ1 σ2 : Type} {O1 : Ipasir σ1} {O2 : Ipasir σ2} {view1 : σ1 → View}
    {view2 : σ2 → View} (h1 : AddCorrect O1 view1) (h2 : AddCorrect O2 view2)
    (a : LoadState σ1) (b : LoadState σ2) (hab : LoadSim view1 view2 a b) :
    (loadIter O1 a = none ∧ loadIter O2 b = none) ∨
    ∃ a1 b1, loadIter O1 a = some a1 ∧ loadIter O2 b = some b1 ∧ LoadSim view1 view2 a1 b1 := by
  obtain ⟨hf, hc, hn, hm, hnc, hv⟩ := hab
  unfold loadIter
  simp only []
  rw [← hf, ← hn, ← hm, ← hnc]
  split_ifs with c1
  · cases skipLine (fgetc a.f).2 with
    | none => exact Or.inl ⟨rfl, rfl⟩
    | some f1 => exact Or.inr ⟨_, _, rfl, rfl, rfl, rfl, rfl, rfl, rfl, hv⟩
  all_goals
    first
    | exact Or.inr ⟨_, _, rfl, rfl, rfl, rfl, rfl, rfl, rfl, hv⟩
    | exact Or.inr ⟨_, _, rfl, rfl, rfl, rfl, rfl, rfl, rfl, view_add_congr h1 h2 _ _ hv _⟩

theorem loadLoop_sim {σ1 σ2 : Type} {O1 : Ipasir σ1} {O2 : Ipasir σ2} {view1 : σ1 → View}
    {view2 : σ2 → View} (h1 : AddCorrect O1 view1) (h2 : AddCorrect O2 view2) :
    ∀ (fuel : Nat) (a : LoadState σ1) (b : LoadState σ2), LoadSim view1 view2 a b →
      (loadLoop O1 fuel a = none ∧ loadLoop O2 fuel b = none) ∨
      ∃ a1 b1, loadLoop O1 fuel a = some a1 ∧ loadLoop O2 fuel b = some b1 ∧
        LoadSim view1 view2 a1 b1 := by
  intro fuel
  induction fuel with
  | zero => intro a b _; exact Or.inl ⟨rfl, rfl⟩
  | succ n ih =>
    intro a b hab
    simp only [loadLoop]
    rw [← hab.2.1]
    split_ifs with hc
    · exact Or.inr ⟨a, b, rfl, rfl, hab⟩
    · rcases loadIter_sim h1 h2 a b hab with ⟨e1, e2⟩ | ⟨a1, b1, e1, e2, hs⟩
      · rw [e1, e2]; exact Or.inl ⟨rfl, rfl⟩
      · rw [e1, e2]; exact ih a1 b1 hs

theorem view_add_assumps {σ : Type} {O : Ipasir σ} {view : σ → View} (hO : AddCorrect O view)
    (s : σ) (l : Int) : (view (O.add s l)).assumps = (view s).assumps := by
  by_cases hl : l = 0
  · subst hl; rw [hO.add_zero]
  · rw [hO.add_lit s l hl]

theorem loadIter_assumps {σ : Type} {O : Ipasir σ} {view : σ → View} (hO : AddCorrect O view)
    (st st1 : LoadState σ) (h : loadIter O st = some st1)
    (hp : (view st.env.solver).assumps = []) : (view st1.env.solver).assumps = [] := by
  unfold loadIter at h
  simp only [] at h
  split_ifs at h
  · split at h
    · simp at h
    · simp at h; rw [← h]; exact hp
  all_goals (simp at h; rw [← h])
  all_goals
    first
    | exact hp
    | (simp only [ipasir_add_solver]; rw [view_add_assumps hO]; exact hp)

theorem loadLoop_assumps {σ : Type} {O : Ipasir σ} {view : σ → View} (hO : AddCorrect O view)
    (fuel : Nat) (st st1 : LoadState σ) (h : loadLoop O fuel st = some st1)
    (hp : (view st.env.solver).assumps = []) : (view st1.env.solver).assumps = [] :=
  loadLoop_inv O (fun x => (view x.env.solver).assumps = [])
    (fun a b hab ha => loadIter_assumps hO a b hab ha) fuel st st1 h hp

/-! ## Options that select an algorithm; loading against two oracles -/

theorem get_options_naive {σ : Type} (e : Env σ) (opts : List Char) (h1 : 's' ∈ opts)
    (h2 : ∀ c ∈ opts, c = 's' ∨ c = 'i') :
    (get_options e opts 0 0 0).ok = true ∧ (get_options e opts 0 0 0).opt_s = 1 ∧
    ((get_options e opts 0 0 0).opt_i ≠ 0 → 'i' ∈ opts) := by
  obtain ⟨hfalse, htrue⟩ := get_options_spec e opts 0 0 0 (Or.inl rfl) (Or.inl rfl)
    (Or.inl rfl) (by simp)
  simp only [zero_ne_one, false_or] at hfalse htrue
  have hok : (get_options e opts 0 0 0).ok = true := by
    cases hb : (get_options e opts 0 0 0).ok with
    | true => rfl
    | false =>
      rcases hfalse.mp hb with ⟨_, ht⟩ | ⟨c, hc, c1, _, c3⟩
      · rcases h2 _ ht with h | h <;> simp at h
      · rcases h2 c hc with h | h
        · exact absurd h c1
        · exact absurd h c3
  obtain ⟨hs, _, hi⟩ := htrue hok
  refine ⟨hok, by rw [hs, if_pos h1], fun hne => ?_⟩
  by_contra hni
  rw [hi, if_neg hni] at hne
  exact hne rfl

theorem get_options_advanced {σ : Type} (e : Env σ) (opts : List Char)
    (h2 : ∀ c ∈ opts, c = 't' ∨ c = 'i') :
    (get_options e opts 0 0 0).ok = true ∧ (get_options e opts 0 0 0).opt_s = 0 ∧
    (get_options e opts 0 0 0).opt_t = 1 ∧
    ((get_options e opts 0 0 0).opt_i ≠ 0 → 'i' ∈ opts) := by
  obtain ⟨hfalse, htrue⟩ := get_options_spec e opts 0 0 0 (Or.inl rfl) (Or.inl rfl)
    (Or.inl rfl) (by simp)
  simp only [zero_ne_one, false_or] at hfalse htrue
  have hns : 's' ∉ opts := by
    intro hs
    rcases h2 _ hs with h | h <;> simp at h
  have hok : (get_options e opts 0 0 0).ok = true := by
    cases hb : (get_options e opts 0 0 0).ok with
    | true => rfl
    | false =>
      rcases hfalse.mp hb with ⟨hs, _⟩ | ⟨c, hc, _, c2, c3⟩
      · exact absurd hs hns
      · rcases h2 c hc with h | h
        · exact absurd h c2
        · exact absurd h c3
  obtain ⟨hs, ht, hi⟩ := htrue hok
  refine ⟨hok, by rw [hs, if_neg hns], by rw [ht, if_neg hns], fun hne => ?_⟩
  by_contra hni
  rw [hi, if_neg hni] at hne
  exact hne rfl

/-- What loading leaves in a correct oracle depends on the file only: two correct oracles
finish loading together, with the same `maxVar`, the same abstract content and no
assumption pending. -/
theorem loadFormula_agree {σ1 σ2 : Type} {O1 : Ipasir σ1} {O2 : Ipasir σ2}
    {view1 : σ1 → View} {view2 : σ2 → View} (h1 : AddCorrect O1 view1) (h2 : AddCorrect O2 view2)
    (e1 : Env σ1) (e2 : Env σ2) (hv : view1 e1.solver = view2 e2.solver)
    (ha : (view1 e1.solver).assumps = []) (content : List Char) (fuel : Nat)
    (ld1 : LoadResult σ1) (hl : loadFormula O1 e1 (some content) 0 0 fuel = some ld1) :
    ∃ ld2 : LoadResult σ2, loadFormula O2 e2 (some content) 0 0 fuel = some ld2 ∧
      ld1.loaded = true ∧ ld2.loaded = true ∧ ld1.maxVar = ld2.maxVar ∧
      view1 ld1.env.solver = view2 ld2.env.solver ∧ (view1 ld1.env.solver).assumps = [] := by
  unfold loadFormula at hl ⊢
  simp only [] at hl ⊢
  have hsim : LoadSim view1 view2
      { env := e1, f := content, c := 0, neg := false, maxVar := 0, numClauses := 0 }
      { env := e2, f := content, c := 0, neg := false, maxVar := 0, numClauses := 0 } :=
    ⟨rfl, rfl, rfl, rfl, rfl, hv⟩
  rcases loadLoop_sim h1 h2 fuel _ _ hsim with ⟨n1, _⟩ | ⟨a1, b1, q1, q2, hs⟩
  · rw [n1] at hl; simp at hl
  · rw [q1] at hl
    rw [q2]
    simp only [Option.some.injEq] at hl
    refine ⟨_, rfl, ?_, rfl, ?_, ?_, ?_⟩
    · rw [← hl]
    · rw [← hl]; exact hs.2.2.2.1
    · rw [← hl]; exact hs.2.2.2.2.2
    · rw [← hl]
      exact loadLoop_assumps h1 fuel _ a1 q1 ha

/-! ## Termination of the loader on files whose comment lines are closed -/

theorem skipLine_of_newline : ∀ t : List Char,
    t.any (fun x => decide ((x.toNat : Int) = 10)) = true →
    ∃ t1, skipLine t = some t1 ∧ t1.length < t.length ∧
      (commentsClosed t = true → commentsClosed t1 = true) := by
  intro t
  induction t with
  | nil => intro h; simp at h
  | cons ch t ih =>
    intro h
    simp only [skipLine]
    by_cases hc : (ch.toNat : Int) = 10
    · rw [if_pos hc]
      refine ⟨t, rfl, by simp, fun hcl => ?_⟩
      simp only [commentsClosed, Bool.and_eq_true] at hcl
      exact hcl.2
    · rw [if_neg hc]
      have ht : t.any (fun x => decide ((x.toNat : Int) = 10)) = true := by
        simp only [List.any_cons, Bool.or_eq_true, decide_eq_true_eq] at h
        rcases h with h | h
        · exact absurd h hc
        · exact h
      obtain ⟨t1, h1, h2, h3⟩ := ih ht
      refine ⟨t1, h1, by simp; omega, fun hcl => h3 ?_⟩
      simp only [commentsClosed, Bool.and_eq_true] at hcl
      exact hcl.2

theorem readDigits_rest : ∀ (f : List Char) (num c : Int),
    (readDigits num c f).2.2.length ≤ f.length ∧
    (commentsClosed f = true → commentsClosed (readDigits num c f).2.2 = true) := by
  intro f
  induction f with
  | nil =>
    intro num c
    simp only [readDigits]
    split_ifs <;> exact ⟨Nat.le_refl _, fun h => h⟩
  | cons ch t ih =>
    intro num c
    simp only [readDigits]
    split_ifs
    · obtain ⟨h1, h2⟩ := ih (wrap32 (num * 10 + (c - 48))) (ch.toNat : Int)
      refine ⟨by simp; omega, fun hcl => h2 ?_⟩
      simp only [commentsClosed, Bool.and_eq_true] at hcl
      exact hcl.2
    · exact ⟨Nat.le_refl _, fun h => h⟩

theorem commentsClosed_tail (ch : Char) (t : List Char)
    (h : commentsClosed (ch :: t) = true) : commentsClosed t = true := by
  simp only [commentsClosed, Bool.and_eq_true] at h
  exact h.2

/-- On a closed text one pass of the loop body finishes, leaves a closed text, and either
consumes input or meets the end of the file. -/
theorem loadIter_of_closed {σ : Type} (O : Ipasir σ) (st : LoadState σ)
    (hcl : commentsClosed st.f = true) :
    ∃ st1, loadIter O st = some st1 ∧ commentsClosed st1.f = true ∧
      (st.f = [] → st1.c = EOF) ∧ (st.f ≠ [] → st1.f.length < st.f.length) := by
  unfold loadIter
  simp only []
  cases hf : st.f with
  | nil =>
    refine ⟨{ st with c := EOF, f := [] }, ?_, rfl, fun _ => rfl, fun h => absurd rfl h⟩
    simp [fgetc, EOF, isspace, isdigit]
  | cons ch t =>
    rw [hf] at hcl
    have htail := commentsClosed_tail ch t hcl
    simp only [fgetc]
    split_ifs with c1
    · have hnl : t.any (fun x => decide ((x.toNat : Int) = 10)) = true := by
        simp only [commentsClosed, Bool.and_eq_true] at hcl
        have := hcl.1
        rw [if_pos c1] at this
        exact this
      obtain ⟨t1, h1, h2, h3⟩ := skipLine_of_newline t hnl
      rw [h1]
      exact ⟨_, rfl, h3 htail, fun h => by simp at h, fun _ => by simp; omega⟩
    all_goals
      first
      | exact ⟨_, rfl, htail, fun h => by simp at h, fun _ => by simp⟩
      | (refine ⟨_, rfl, ?_, fun h => by simp at h, fun _ => ?_⟩
         · cases t with
           | nil => exact (readDigits_rest [] _ _).2 rfl
           | cons x xs =>
             exact (readDigits_rest xs _ _).2 (commentsClosed_tail x xs htail)
         · cases t with
           | nil =>
             have := (readDigits_rest [] ((ch.toNat : Int) - 48) EOF).1
             simp only [List.length_cons, List.length_nil] at this ⊢
             exact Nat.lt_of_le_of_lt this (by omega)
           | cons x xs =>
             have := (readDigits_rest xs ((ch.toNat : Int) - 48) (x.toNat : Int)).1
             simp only [List.length_cons]
             exact Nat.lt_of_le_of_lt this (by omega))

theorem loadLoop_of_closed {σ : Type} (O : Ipasir σ) : ∀ (fuel : Nat) (st : LoadState σ),
    commentsClosed st.f = true → (if st.c = EOF then 0 else st.f.length + 1) < fuel →
    ∃ st1, loadLoop O fuel st = some st1 := by
  intro fuel
  induction fuel with
  | zero => intro st _ h; omega
  | succ n ih =>
    intro st hcl hm
    simp only [loadLoop]
    by_cases hc : st.c = EOF
    · rw [if_pos hc]; exact ⟨st, rfl⟩
    · rw [if_neg hc] at hm ⊢
      obtain ⟨st1, h1, h2, h3, h4⟩ := loadIter_of_closed O st hcl
      rw [h1]
      apply ih st1 h2
      by_cases hf : st.f = []
      · rw [if_pos (h3 hf)]; omega
      · have := h4 hf
        split_ifs <;> omega

/-- On a file whose comment and problem lines are all closed by a newline, `loadFormula`
returns true within `length + 2` evaluations of the loop head. -/
theorem loadFormula_of_closed {σ : Type} (O : Ipasir σ) (e : Env σ) (content : List Char)
    (mv nc : Int) (fuel : Nat) (hcl : commentsClosed content = true)
    (hfuel : content.length + 2 ≤ fuel) :
    ∃ ld, loadFormula O e (some content) mv nc fuel = some ld ∧ ld.loaded = true := by
  obtain ⟨st1, h1⟩ := loadLoop_of_closed O fuel
    { env := e, f := content, c := 0, neg := false, maxVar := 0, numClauses := nc } hcl
    (by simp only []; split_ifs <;> omega)
  unfold loadFormula
  simp only [h1]
  exact ⟨_, rfl, rfl⟩

/-- Two correct oracles fail to finish loading together. -/
theorem loadFormula_none_agree {σ1 σ2 : Type} {O1 : Ipasir σ1} {O2 : Ipasir σ2}
    {view1 : σ1 → View} {view2 : σ2 → View} (h1 : AddCorrect O1 view1)
    (h2 : AddCorrect O2 view2) (e1 : Env σ1) (e2 : Env σ2)
    (hv : view1 e1.solver = view2 e2.solver) (content : List Char) (fuel : Nat)
    (hl : loadFormula O1 e1 (some content) 0 0 fuel = none) :
    loadFormula O2 e2 (some content) 0 0 fuel = none := by
  unfold loadFormula at hl ⊢
  simp only [] at hl ⊢
  have hsim : LoadSim view1 view2
      { env := e1, f := content, c := 0, neg := false, maxVar := 0, numClauses := 0 }
      { env := e2, f := content, c := 0, neg := false, maxVar := 0, numClauses := 0 } :=
    ⟨rfl, rfl, rfl, rfl, rfl, hv⟩
  rcases loadLoop_sim h1 h2 fuel _ _ hsim with ⟨_, n2⟩ | ⟨a1, b1, q1, _, _⟩
  · rw [n2]
  · rw [q1] at hl; simp at hl

/-! ## The loader on a last line that is an unterminated comment -/

/-- C19 fails on the file that consists of the single character `c` (a last line that
starts with `c` and has no trailing newline): whatever the fuel, the loop of `loadFormula`
does not return, because the comment-skipping loop of lines 39-41 reads `EOF` forever. -/
theorem loadFormula_hangs_on_unterminated_comment {σ : Type} (O : Ipasir σ) (e : Env σ)
    (mv nc : Int) (fuel : Nat) : loadFormula O e (some ['c']) mv nc fuel = none := by
  cases fuel <;> rfl

/-! ## `solve_naive` on an unsatisfiable formula -/

theorem unsat_query {σ : Type} {O : Ipasir σ} {view : σ → View} (hO : SolveCorrect O view)
    {F : List (List Int)} (hF : ¬ Satisfiable F) (s : σ)
    (hdb : ∀ m : Assignment, formulaSat m (view s).db = formulaSat m F) (c : Int) :
    (O.solve (O.assume s c)).1 = UNSAT ∧
    ∀ m : Assignment, formulaSat m (view (O.solve (O.assume s c)).2).db = formulaSat m F := by
  constructor
  · apply hO.solve_unsat
    rintro ⟨m, hm, _⟩
    rw [hO.assume_view] at hm
    simp only [] at hm
    rw [hdb] at hm
    exact hF ⟨m, hm⟩
  · intro m
    rw [hO.solve_view, hO.assume_view]
    exact hdb m

theorem unsat_inject {σ : Type} {O : Ipasir σ} {view : σ → View} (hO : AddCorrect O view)
    {F : List (List Int)} (hF : ¬ Satisfiable F) (s : σ)
    (hdb : ∀ m : Assignment, formulaSat m (view s).db = formulaSat m F) (x : Int)
    (hx : x ≠ 0) :
    ∀ m : Assignment, formulaSat m (view (O.add (O.add s x) 0)).db = formulaSat m F := by
  intro m
  have hf : formulaSat m F = false := by
    cases h : formulaSat m F with
    | false => rfl
    | true => exact absurd ⟨m, h⟩ hF
  rw [hO.add_zero, hO.add_lit s x hx]
  simp only []
  rw [formulaSat_append, hdb, hf]
  rfl

/-- One iteration of the first loop of `solve_naive` on an unsatisfiable formula: the
answer is UNSAT, entry `i` is set to `i`, one solve call is issued. -/
theorem naive_pass1_body_unsat {σ : Type} {O : Ipasir σ} {view : σ → View}
    (hO : SolveCorrect O view) {F : List (List Int)} (hF : ¬ Satisfiable F) (inject : Int)
    (hAdd : inject ≠ 0 → AddCorrect O view) (st : Env σ × List Int) (i : Nat) (hi : 1 ≤ i)
    (hdb : ∀ m : Assignment, formulaSat m (view st.1.solver).db = formulaSat m F) :
    (∀ m : Assignment,
      formulaSat m (view (naive_pass1_body O inject st i).1.solver).db = formulaSat m F) ∧
    (naive_pass1_body O inject st i).2 = st.2.set i (i : Int) := by
  obtain ⟨hun, hdb1⟩ := unsat_query hO hF st.1.solver hdb (-(i : Int))
  unfold naive_pass1_body
  simp only []
  rw [if_pos (by simpa using hun)]
  split_ifs with h2
  · refine ⟨?_, by simp⟩
    have := unsat_inject (hAdd h2) hF _ hdb1 (-(-(i : Int))) (by omega)
    simpa using this
  · exact ⟨by simpa using hdb1, by simp⟩

/-- C20: on an unsatisfiable formula held by a correct oracle, `solve_naive` called
directly on the all-zero vector of size `maxVar + 1`, with or without injection, ends with
`backbone[i] = i` for every `i` in `1..maxVar` after exactly `maxVar` solve calls; with
`maxVar ≥ 1` this vector is not the backbone of the formula. -/
theorem naive_on_unsat {σ : Type} (O : Ipasir σ) (view : σ → View) (hO : Correct O view)
    (F : List (List Int)) (hF : ¬ Satisfiable F) (e : Env σ) (hdb : (view e.solver).db = F)
    (maxVar : Nat) (hN : 1 ≤ maxVar) (inject : Int) :
    (∀ i : Nat, 1 ≤ i → i ≤ maxVar →
      (solve_naive O e (List.replicate (maxVar + 1) 0) maxVar inject).2.getD i 0 = (i : Int)) ∧
    solveCount (solve_naive O e (List.replicate (maxVar + 1) 0) maxVar inject).1.log
      = solveCount e.log + maxVar ∧
    ¬ IsBackbone F maxVar
      (solve_naive O e (List.replicate (maxVar + 1) 0) maxVar inject).2 := by
  have p1 := foldl_range_inv (naive_pass1_body O inject)
    (fun k a => (∀ m : Assignment, formulaSat m (view a.1.solver).db = formulaSat m F) ∧
      a.2.length = maxVar + 1 ∧ (∀ v : Nat, 1 ≤ v → v ≤ k → a.2.getD v 0 = (v : Int)) ∧
      solveCount a.1.log = solveCount e.log + k)
    1 maxVar (printf e (Out.algo1 (decide (inject ≠ 0))), List.replicate (maxVar + 1) 0)
    ⟨fun m => by rw [printf_solver, hdb], by simp, fun v h1 h2 => by omega, rfl⟩
    (by
      rintro k a hk ⟨hd, hl, hv, hc⟩
      obtain ⟨hd1, hset⟩ := naive_pass1_body_unsat hO.toSolveCorrect hF inject
        (fun _ => hO.toAddCorrect) a (1 + k) (by omega) hd
      refine ⟨hd1, by rw [hset, List.length_set]; exact hl, fun v h1 h2 => ?_, ?_⟩
      · rw [hset, getD_set]
        by_cases hvk : v = 1 + k ∧ 1 + k < a.2.length
        · rw [if_pos hvk, hvk.1]
        · rw [if_neg hvk]
          exact hv v h1 (by
            by_contra hc2
            exact hvk ⟨by omega, by omega⟩)
      · rw [naive_pass1_body_count, hc]; omega)
  obtain ⟨_, _, hv, hc⟩ := p1
  have p2 := foldl_range_inv (naive_pass2_body O inject)
    (fun _ a => a = (List.range' 1 maxVar).foldl (naive_pass1_body O inject)
      (printf e (Out.algo1 (decide (inject ≠ 0))), List.replicate (maxVar + 1) 0))
    1 maxVar _ rfl
    (by
      intro k a hk ha
      show naive_pass2_body O inject a (1 + k) = _
      rw [ha]
      unfold naive_pass2_body
      rw [if_pos]
      rw [hv (1 + k) (by omega) (by omega)]
      omega)
  have hres : solve_naive O e (List.replicate (maxVar + 1) 0) maxVar inject
      = (List.range' 1 maxVar).foldl (naive_pass1_body O inject)
          (printf e (Out.algo1 (decide (inject ≠ 0))), List.replicate (maxVar + 1) 0) := by
    unfold solve_naive
    exact p2
  rw [hres]
  refine ⟨fun i h1 h2 => hv i h1 h2, hc, fun hbb => ?_⟩
  obtain ⟨_, hneg, _⟩ := hbb 1 (Nat.le_refl 1) hN
  have h1 := hv 1 (Nat.le_refl 1) hN
  have h2 := hneg.mpr (fun m hm => absurd ⟨m, hm⟩ hF)
  rw [h1] at h2
  omega

theorem naive_on_unsat_witness :
    (∀ i : Nat, 1 ≤ i → i ≤ 1 →
      (solve_naive (bruteOracle []) ⟨bruteWith [[1], [-1]], [], []⟩
        (List.replicate (1 + 1) 0) 1 1).2.getD i 0 = (i : Int)) ∧
    solveCount (solve_naive (bruteOracle []) ⟨bruteWith [[1], [-1]], [], []⟩
        (List.replicate (1 + 1) 0) 1 1).1.log
      = solveCount ([] : List Event) + 1 ∧
    ¬ IsBackbone [[1], [-1]] 1
      (solve_naive (bruteOracle []) ⟨bruteWith [[1], [-1]], [], []⟩
        (List.replicate (1 + 1) 0) 1 1).2 :=
  naive_on_unsat (bruteOracle []) (fun s => s.view) (brute_correct []) [[1], [-1]]
    (by
      rintro ⟨m, hm⟩
      cases h : m 1 <;> simp [formulaSat, clauseSat, litTrue, h] at hm)
    ⟨bruteWith [[1], [-1]], [], []⟩ rfl 1 (by decide) 1

/-! ## Free variables and strengthening by the backbone -/

theorem litTrue_flip (m : Assignment) (v : Nat) (l : Int) (hl : l.natAbs ≠ v) :
    litTrue (fun x => if x = v then !(m v) else m x) l = litTrue m l := by
  unfold litTrue
  simp only [hl, if_false]

theorem formulaSat_flip (m : Assignment) (v : Nat) (F : List (List Int))
    (habs : ∀ c ∈ F, ∀ l ∈ c, l.natAbs ≠ v) :
    formulaSat (fun x => if x = v then !(m v) else m x) F = formulaSat m F := by
  unfold formulaSat
  apply all_congr_mem
  intro c hc
  unfold clauseSat
  apply any_congr_mem
  intro l hl
  exact litTrue_flip m v l (habs c hc l hl)

/-- A variable that occurs in no clause of a satisfiable formula has no backbone literal. -/
theorem absent_not_backbone {F : List (List Int)} (hF : Satisfiable F) (v : Nat)
    (habs : ∀ c ∈ F, ∀ l ∈ c, l.natAbs ≠ v) : ¬ AlwaysTrue F v ∧ ¬ AlwaysFalse F v := by
  obtain ⟨m, hm⟩ := hF
  have hm1 : formulaSat (fun x => if x = v then !(m v) else m x) F = true := by
    rw [formulaSat_flip m v F habs]; exact hm
  constructor
  · intro h
    have a := h m hm
    have b := h _ hm1
    simp [a] at b
  · intro h
    have a := h m hm
    have b := h _ hm1
    simp [a] at b

/-- C14: for a satisfiable formula held by a correct oracle, a variable `v` in
`1..maxVar` that occurs in no clause ends with `backbone[v] = 0` in `solve_naive` and in
`solve_advanced` (with or without injection), whatever the oracle reports as `val(v)`
within its contract. -/
theorem absent_variable_free {σ : Type} (O : Ipasir σ) (view : σ → View)
    (hO : Correct O view) (F : List (List Int)) (hF : Satisfiable F) (e : Env σ)
    (hdb : (view e.solver).db = F) (hass : (view e.solver).assumps = []) (maxVar : Nat)
    (inject : Int) (v : Nat) (hv1 : 1 ≤ v) (hv2 : v ≤ maxVar)
    (habs : ∀ c ∈ F, ∀ l ∈ c, l.natAbs ≠ v) :
    (solve_naive O e (List.replicate (maxVar + 1) 0) maxVar inject).2.getD v 0 = 0 ∧
    (solve_advanced O (ipasir_solve O e).2 (List.replicate (maxVar + 1) 0) maxVar
      inject).backbone.getD v 0 = 0 := by
  have hdb1 : ∀ m : Assignment, formulaSat m (view e.solver).db = formulaSat m F :=
    fun m => by rw [hdb]
  have hs : Holds view F e.solver := ⟨hdb1, hass⟩
  have hsat : (O.solve e.solver).1 = SAT := by
    obtain ⟨m, hm⟩ := hF
    exact hO.solve_sat e.solver ⟨m, by rw [hdb]; exact hm, by rw [hass]; rfl⟩
  obtain ⟨hnA, hnB⟩ := absent_not_backbone hF v habs
  have hn := (solve_naive_spec hO.toSolveCorrect hF inject (fun _ => hO.toAddCorrect) e
    (List.replicate (maxVar + 1) 0) maxVar hs (getD_replicate_zero _)).2
  have ha := (solve_advanced_spec hO.toSolveCorrect hO.toValCorrect e.solver hdb1 hsat inject
    (fun _ => hO.toAddCorrect) (ipasir_solve O e).2 rfl (List.replicate (maxVar + 1) 0)
    maxVar (getD_replicate_zero _)).2
  rw [List.length_replicate] at hn ha
  exact ⟨((hn.2 v).1 ⟨hv1, hv2, by omega⟩).2.2 hnA hnB,
    ((ha.2 v).1 ⟨hv1, hv2, by omega⟩).2.2 hnA hnB⟩

theorem absent_variable_free_witness :
    (solve_naive (bruteOracle []) ⟨bruteWith [[1], [-3]], [], []⟩
      (List.replicate (3 + 1) 0) 3 0).2.getD 2 0 = 0 ∧
    (solve_advanced (bruteOracle [])
      (ipasir_solve (bruteOracle []) ⟨bruteWith [[1], [-3]], [], []⟩).2
      (List.replicate (3 + 1) 0) 3 0).backbone.getD 2 0 = 0 :=
  absent_variable_free (bruteOracle []) (fun s => s.view) (brute_correct []) [[1], [-3]]
    ⟨fun x => decide (x = 1), by decide⟩ ⟨bruteWith [[1], [-3]], [], []⟩ rfl rfl 3 0 2
    (by decide) (by decide) (by decide)

/-- The unit clauses of a backbone vector of `F` add nothing to `F`. -/
theorem unitClauses_equiv {F : List (List Int)} {N len : Nat} {bb : List Int}
    (h : BackboneVec F N len bb) (m : Assignment) :
    formulaSat m (F ++ unitClauses bb) = formulaSat m F := by
  rw [formulaSat_append]
  cases hm : formulaSat m F with
  | false => rfl
  | true =>
    simp only [Bool.true_and]
    unfold formulaSat unitClauses
    rw [List.all_eq_true]
    intro c hc
    simp only [List.mem_map, List.mem_filter, decide_eq_true_eq] at hc
    obtain ⟨b, ⟨hb, hb0⟩, rfl⟩ := hc
    obtain ⟨k, hk, rfl⟩ := List.mem_iff_getElem.mp hb
    have hget : bb.getD k 0 = bb[k] := by
      simp [List.getD_eq_getElem?_getD, List.getElem?_eq_getElem hk]
    rw [← hget] at hb0 ⊢
    simp only [clauseSat, List.any_cons, List.any_nil, Bool.or_false]
    by_cases hr : 1 ≤ k ∧ k ≤ N ∧ k < len
    · obtain ⟨a1, a2, a3⟩ := (h.2 k).1 hr
      by_cases hA : AlwaysTrue F k
      · rw [a1 hA, litTrue_pos m k hr.1]; exact hA m hm
      · by_cases hB : AlwaysFalse F k
        · rw [a2 hB, litTrue_neg m k hr.1, hB m hm]; rfl
        · exact absurd (a3 hA hB) hb0
    · exact absurd ((h.2 k).2 hr) hb0

/-- C13: let `B` be the vector either algorithm computes for a satisfiable `F` against a
correct oracle. Running either algorithm again, against any correct oracle that holds `F`
extended with one unit clause `(b)` per non-zero entry `b` of `B`, yields `B` again. -/
theorem backbone_idempotent {σ σ2 : Type} (O : Ipasir σ) (view : σ → View)
    (hO : Correct O view) (F : List (List Int)) (hF : Satisfiable F) (e : Env σ)
    (hdb : (view e.solver).db = F) (hass : (view e.solver).assumps = []) (maxVar : Nat)
    (inject : Int) (B : List Int)
    (hB : B = (solve_naive O e (List.replicate (maxVar + 1) 0) maxVar inject).2 ∨
      B = (solve_advanced O (ipasir_solve O e).2 (List.replicate (maxVar + 1) 0) maxVar
        inject).backbone)
    (O2 : Ipasir σ2) (view2 : σ2 → View) (hO2 : Correct O2 view2) (e2 : Env σ2)
    (hdb2 : (view2 e2.solver).db = F ++ unitClauses B)
    (hass2 : (view2 e2.solver).assumps = []) (inject2 : Int) :
    (solve_naive O2 e2 (List.replicate (maxVar + 1) 0) maxVar inject2).2 = B ∧
    (solve_advanced O2 (ipasir_solve O2 e2).2 (List.replicate (maxVar + 1) 0) maxVar
      inject2).backbone = B := by
  have hdb1 : ∀ m : Assignment, formulaSat m (view e.solver).db = formulaSat m F :=
    fun m => by rw [hdb]
  have hs : Holds view F e.solver := ⟨hdb1, hass⟩
  have hsat : (O.solve e.solver).1 = SAT := by
    obtain ⟨m, hm⟩ := hF
    exact hO.solve_sat e.solver ⟨m, by rw [hdb]; exact hm, by rw [hass]; rfl⟩
  have hBv : BackboneVec F maxVar (List.replicate (maxVar + 1) (0 : Int)).length B := by
    rcases hB with rfl | rfl
    · exact (solve_naive_spec hO.toSolveCorrect hF inject (fun _ => hO.toAddCorrect) e
        (List.replicate (maxVar + 1) 0) maxVar hs (getD_replicate_zero _)).2
    · exact (solve_advanced_spec hO.toSolveCorrect hO.toValCorrect e.solver hdb1 hsat inject
        (fun _ => hO.toAddCorrect) (ipasir_solve O e).2 rfl (List.replicate (maxVar + 1) 0)
        maxVar (getD_replicate_zero _)).2
  have hdb3 : ∀ m : Assignment, formulaSat m (view2 e2.solver).db = formulaSat m F :=
    fun m => by rw [hdb2]; exact unitClauses_equiv hBv m
  have hs2 : Holds view2 F e2.solver := ⟨hdb3, hass2⟩
  have hsat2 : (O2.solve e2.solver).1 = SAT := by
    obtain ⟨m, hm⟩ := hF
    exact hO2.solve_sat e2.solver ⟨m, by rw [hdb3]; exact hm, by rw [hass2]; rfl⟩
  constructor
  · exact backboneVec_unique
      (solve_naive_spec hO2.toSolveCorrect hF inject2 (fun _ => hO2.toAddCorrect) e2
        (List.replicate (maxVar + 1) 0) maxVar hs2 (getD_replicate_zero _)).2 hBv
  · exact backboneVec_unique
      (solve_advanced_spec hO2.toSolveCorrect hO2.toValCorrect e2.solver hdb3 hsat2 inject2
        (fun _ => hO2.toAddCorrect) (ipasir_solve O2 e2).2 rfl
        (List.replicate (maxVar + 1) 0) maxVar (getD_replicate_zero _)).2 hBv

theorem backbone_idempotent_witness :
    (solve_naive (bruteOracle []) ⟨bruteWith ([[1, 2], [-1, 2]] ++ unitClauses [0, 0, 2]), [], []⟩
      (List.replicate (2 + 1) 0) 2 0).2 = [0, 0, 2] ∧
    (solve_advanced (bruteOracle [])
      (ipasir_solve (bruteOracle [])
        ⟨bruteWith ([[1, 2], [-1, 2]] ++ unitClauses [0, 0, 2]), [], []⟩).2
      (List.replicate (2 + 1) 0) 2 0).backbone = [0, 0, 2] :=
  backbone_idempotent (bruteOracle []) (fun s => s.view) (brute_correct [])
    [[1, 2], [-1, 2]] ⟨fun _ => true, by decide⟩ ⟨bruteWith [[1, 2], [-1, 2]], [], []⟩
    rfl rfl 2 0 [0, 0, 2] (Or.inl (by decide)) (bruteOracle []) (fun s => s.view)
    (brute_correct []) ⟨bruteWith ([[1, 2], [-1, 2]] ++ unitClauses [0, 0, 2]), [], []⟩
    rfl rfl 0

/-! ## What the program prints, and the capability check of `-i` -/

theorem get_options_frame {σ : Type} (e : Env σ) : ∀ (opts : List Char) (s t i : Int),
    (get_options e opts s t i).env.log = e.log ∧
    (get_options e opts s t i).env.solver = e.solver ∧
    ((get_options e opts s t i).env.out = e.out ∨
     (get_options e opts s t i).env.out = e.out ++ [Out.cannotChoose]) := by
  intro opts
  induction opts with
  | nil => intro s t i; simp only [get_options]; split_ifs <;> exact ⟨rfl, rfl, Or.inl rfl⟩
  | cons c rest ih =>
    intro s t i
    simp only [get_options]
    split_ifs
    all_goals
      first
      | exact ih _ _ _
      | exact ⟨rfl, rfl, Or.inl rfl⟩
      | exact ⟨rfl, rfl, Or.inr rfl⟩

theorem naive_pass1_body_out {σ : Type} (O : Ipasir σ) (inject : Int)
    (st : Env σ × List Int) (i : Nat) : (naive_pass1_body O inject st i).1.out = st.1.out := by
  unfold naive_pass1_body
  simp only []
  split_ifs <;> rfl

theorem naive_pass2_body_out {σ : Type} (O : Ipasir σ) (inject : Int)
    (st : Env σ × List Int) (i : Nat) : (naive_pass2_body O inject st i).1.out = st.1.out := by
  unfold naive_pass2_body
  simp only []
  split_ifs <;> rfl

theorem advanced_init_body_out {σ : Type} (O : Ipasir σ) (st : Env σ × List Int) (i : Nat) :
    (advanced_init_body O st i).1.out = st.1.out := rfl

theorem advanced_filter_body_out {σ : Type} (O : Ipasir σ) (st : Env σ × List Int)
    (i : Nat) : (advanced_filter_body O st i).1.out = st.1.out := by
  unfold advanced_filter_body
  simp only []
  split_ifs <;> rfl

theorem advanced_body_out {σ : Type} (O : Ipasir σ) (maxVar : Nat) (inject : Int)
    (st : AdvState σ) (l : Nat) : (advanced_body O maxVar inject st l).env.out = st.env.out := by
  unfold advanced_body
  simp only []
  split_ifs
  · rfl
  · rfl
  · rfl
  · exact foldl_range_inv (advanced_filter_body O) (fun _ a => a.1.out = st.env.out)
      (l + 1) (maxVar - l) _ rfl
      (fun k a _ h => (advanced_filter_body_out O a _).trans h)

/-- `solve_naive` prints its header and nothing else. -/
theorem solve_naive_out {σ : Type} (O : Ipasir σ) (e : Env σ) (bb : List Int) (N : Nat)
    (inject : Int) :
    (solve_naive O e bb N inject).1.out = e.out ++ [Out.algo1 (decide (inject ≠ 0))] := by
  unfold solve_naive
  simp only []
  refine foldl_range_inv (naive_pass2_body O inject)
    (fun _ a => a.1.out = e.out ++ [Out.algo1 (decide (inject ≠ 0))]) 1 N _ ?_
    (fun k a _ h => (naive_pass2_body_out O inject a _).trans h)
  exact foldl_range_inv (naive_pass1_body O inject)
    (fun _ a => a.1.out = e.out ++ [Out.algo1 (decide (inject ≠ 0))]) 1 N _ rfl
    (fun k a _ h => (naive_pass1_body_out O inject a _).trans h)

/-- `solve_advanced` prints its header and nothing else. -/
theorem solve_advanced_out {σ : Type} (O : Ipasir σ) (e : Env σ) (bb : List Int) (N : Nat)
    (inject : Int) :
    (solve_advanced O e bb N inject).env.out = e.out ++ [Out.algo23 (decide (inject ≠ 0))] := by
  unfold solve_advanced
  simp only []
  refine foldl_range_inv (advanced_body O N inject)
    (fun _ a => a.env.out = e.out ++ [Out.algo23 (decide (inject ≠ 0))]) 1 N _ ?_
    (fun k a _ h => (advanced_body_out O N inject a _).trans h)
  exact foldl_range_inv (advanced_init_body O)
    (fun _ a => a.1.out = e.out ++ [Out.algo23 (decide (inject ≠ 0))]) 1 N _ rfl
    (fun k a _ h => (advanced_init_body_out O a _).trans h)

/-- No header announcing injection has been printed. -/
theorem print_backbone_no_header {σ : Type} (e : Env σ) (bb : List Int)
    (h : Out.algo1 true ∉ e.out ∧ Out.algo23 true ∉ e.out) :
    Out.algo1 true ∉ (print_backbone e bb).out ∧
    Out.algo23 true ∉ (print_backbone e bb).out := by
  unfold print_backbone
  simp only []
  have key := foldl_range_inv (print_backbone_body (σ := σ) bb)
    (fun _ a => Out.algo1 true ∉ a.1.out ∧ Out.algo23 true ∉ a.1.out) 1 (bb.length - 1)
    (printf e Out.v, 0) (by simpa using h)
    (by
      intro k a _ ha
      unfold print_backbone_body
      split_ifs
      · simpa using ha
      · exact ha)
  simpa using key

/-! ## The backbone vector as the replay of the recorded stores -/

theorem replayStores_append (l1 l2 : List Event) :
    ∀ bb, replayStores (l1 ++ l2) bb = replayStores l2 (replayStores l1 bb) := by
  induction l1 with
  | nil => intro bb; rfl
  | cons ev l1 ih => intro bb; cases ev <;> simp [replayStores, ih]

theorem storeIndices_append (l1 l2 : List Event) :
    storeIndices (l1 ++ l2) = storeIndices l1 ++ storeIndices l2 := by
  induction l1 with
  | nil => rfl
  | cons ev l1 ih => cases ev <;> simp [storeIndices, ih]

theorem replayStores_noStore (l : List Event) (h : ∀ ev ∈ l, Event.noStore ev = true) :
    ∀ bb, replayStores l bb = bb := by
  induction l with
  | nil => intro bb; rfl
  | cons ev l ih =>
    intro bb
    have h1 := h ev (List.mem_cons_self _ _)
    have h2 := ih (fun x hx => h x (List.mem_cons_of_mem _ hx))
    cases ev <;> simp_all [replayStores, Event.noStore]

theorem storeIndices_noStore (l : List Event) (h : ∀ ev ∈ l, Event.noStore ev = true) :
    storeIndices l = [] := by
  induction l with
  | nil => rfl
  | cons ev l ih =>
    have h1 := h ev (List.mem_cons_self _ _)
    have h2 := ih (fun x hx => h x (List.mem_cons_of_mem _ hx))
    cases ev <;> simp_all [storeIndices, Event.noStore]

theorem mem_storeIndices {l : List Event} {i : Nat} :
    i ∈ storeIndices l ↔ ∃ x, Event.store i x ∈ l := by
  induction l with
  | nil => simp [storeIndices]
  | cons ev l ih =>
    cases ev <;> simp [storeIndices, ih]
    rename_i idx v
    constructor
    · rintro (rfl | ⟨x, hx⟩)
      · exact ⟨v, Or.inl ⟨rfl, rfl⟩⟩
      · exact ⟨x, Or.inr hx⟩
    · rintro ⟨x, (⟨rfl, _⟩ | hx)⟩
      · exact Or.inl rfl
      · exact Or.inr ⟨x, hx⟩

theorem vecInv_nil (N : Nat) : VecInv N [] (List.replicate (N + 1) 0) :=
  ⟨rfl, by simp, fun _ _ h => by simp at h, by simp [storeIndices],
    fun i h => by simp [storeIndices] at h⟩

theorem vecInv_noStore {N : Nat} {log : List Event} {bb : List Int} (h : VecInv N log bb)
    (suf : List Event) (hs : ∀ ev ∈ suf, Event.noStore ev = true) :
    VecInv N (log ++ suf) bb := by
  obtain ⟨h1, h2, h3, h4, h5⟩ := h
  refine ⟨?_, h2, ?_, ?_, ?_⟩
  · rw [replayStores_append, replayStores_noStore suf hs]; exact h1
  · intro idx x hm
    rcases List.mem_append.mp hm with hm | hm
    · exact h3 idx x hm
    · have := hs _ hm
      simp [Event.noStore] at this
  · rw [storeIndices_append, storeIndices_noStore suf hs, List.append_nil]; exact h4
  · rw [storeIndices_append, storeIndices_noStore suf hs, List.append_nil]; exact h5

theorem vecInv_store {N : Nat} {log : List Event} {bb : List Int} (h : VecInv N log bb)
    (idx : Nat) (x : Int) (h1 : 1 ≤ idx) (h2 : idx ≤ N)
    (hx : x = (idx : Int) ∨ x = -(idx : Int)) (hfresh : idx ∉ storeIndices log) :
    VecInv N (log ++ [Event.store idx x]) (bb.set idx x) := by
  obtain ⟨g1, g2, g3, g4, g5⟩ := h
  have hx0 : x ≠ 0 := by rcases hx with rfl | rfl <;> omega
  refine ⟨?_, by rw [List.length_set]; exact g2, ?_, ?_, ?_⟩
  · rw [replayStores_append, ← g1]; rfl
  · intro i y hm
    rcases List.mem_append.mp hm with hm | hm
    · exact g3 i y hm
    · simp only [List.mem_singleton, Event.store.injEq] at hm
      obtain ⟨rfl, rfl⟩ := hm
      exact ⟨h1, h2, hx⟩
  · rw [storeIndices_append]
    simp only [storeIndices]
    rw [List.nodup_append]
    refine ⟨g4, by simp, ?_⟩
    intro a ha hb
    simp only [List.mem_singleton] at hb
    subst hb
    exact hfresh ha
  · intro i hi
    rw [storeIndices_append] at hi
    simp only [storeIndices, List.mem_append, List.mem_singleton] at hi
    rw [getD_set]
    by_cases hc : i = idx ∧ idx < bb.length
    · rw [if_pos hc]; exact hx0
    · rw [if_neg hc]
      rcases hi with hi | hi
      · exact g5 i hi
      · exact absurd ⟨hi, by omega⟩ hc

/-- Entries of a replayed vector are `0`, `i` or `-i` when the stores write `±idx`. -/
theorem replayStores_entries : ∀ (l : List Event) (bb : List Int),
    (∀ (idx : Nat) (x : Int), Event.store idx x ∈ l → x = (idx : Int) ∨ x = -(idx : Int)) →
    (∀ i : Nat, bb.getD i 0 = 0 ∨ bb.getD i 0 = (i : Int) ∨ bb.getD i 0 = -(i : Int)) →
    ∀ i : Nat, (replayStores l bb).getD i 0 = 0 ∨ (replayStores l bb).getD i 0 = (i : Int) ∨
      (replayStores l bb).getD i 0 = -(i : Int) := by
  intro l
  induction l with
  | nil => intro bb _ hb; exact hb
  | cons ev l ih =>
    intro bb hs hb
    have hs1 : ∀ (idx : Nat) (x : Int), Event.store idx x ∈ l →
        x = (idx : Int) ∨ x = -(idx : Int) :=
      fun idx x hm => hs idx x (List.mem_cons_of_mem _ hm)
    cases ev with
    | store idx x =>
      simp only [replayStores]
      apply ih _ hs1
      intro i
      rw [getD_set]
      by_cases hc : i = idx ∧ idx < bb.length
      · rw [if_pos hc, hc.1]
        exact Or.inr (hs idx x (List.mem_cons_self _ _))
      · rw [if_neg hc]; exact hb i
    | _ => exact ih bb hs1 hb

theorem vecInv_step {N : Nat} {log : List Event} {bb : List Int} (h : VecInv N log bb)
    (pre post : List Event) (hpre : ∀ ev ∈ pre, Event.noStore ev = true)
    (hpost : ∀ ev ∈ post, Event.noStore ev = true)
    (idx : Nat) (x : Int) (h1 : 1 ≤ idx) (h2 : idx ≤ N)
    (hx : x = (idx : Int) ∨ x = -(idx : Int)) (hfresh : idx ∉ storeIndices log) :
    VecInv N (log ++ pre ++ [Event.store idx x] ++ post) (bb.set idx x) ∧
    storeIndices (log ++ pre ++ [Event.store idx x] ++ post) = storeIndices log ++ [idx] := by
  have e1 : storeIndices (log ++ pre) = storeIndices log := by
    rw [storeIndices_append, storeIndices_noStore pre hpre, List.append_nil]
  constructor
  · exact vecInv_noStore (vecInv_store (vecInv_noStore h pre hpre) idx x h1 h2 hx
      (by rw [e1]; exact hfresh)) post hpost
  · rw [storeIndices_append, storeIndices_append, e1, storeIndices_noStore post hpost,
      List.append_nil]
    rfl

theorem naive_pass1_body_vec {σ : Type} (O : Ipasir σ) (N : Nat) (inject : Int)
    (st : Env σ × List Int) (i : Nat) (h1 : 1 ≤ i) (h2 : i ≤ N)
    (h : VecInv N st.1.log st.2) (hfresh : i ∉ storeIndices st.1.log) :
    VecInv N (naive_pass1_body O inject st i).1.log (naive_pass1_body O inject st i).2 ∧
    (storeIndices (naive_pass1_body O inject st i).1.log = storeIndices st.1.log ∨
     storeIndices (naive_pass1_body O inject st i).1.log = storeIndices st.1.log ++ [i]) := by
  unfold naive_pass1_body
  simp only []
  split_ifs with c1 c2
  · have := vecInv_step h [Event.assume (-(i : Int)),
        Event.solve (O.solve (O.assume st.1.solver (-(i : Int)))).1]
      [Event.add (-(-(i : Int))), Event.add 0] (by simp [Event.noStore])
      (by simp [Event.noStore]) i (i : Int) h1 h2 (Or.inl rfl) hfresh
    exact ⟨by simpa using this.1, Or.inr (by simpa using this.2)⟩
  · have := vecInv_step h [Event.assume (-(i : Int)),
        Event.solve (O.solve (O.assume st.1.solver (-(i : Int)))).1]
      [] (by simp [Event.noStore]) (by simp) i (i : Int) h1 h2 (Or.inl rfl) hfresh
    exact ⟨by simpa using this.1, Or.inr (by simpa using this.2)⟩
  · have := vecInv_noStore h [Event.assume (-(i : Int)),
        Event.solve (O.solve (O.assume st.1.solver (-(i : Int)))).1]
      (by simp [Event.noStore])
    refine ⟨by simpa using this, Or.inl ?_⟩
    simp [storeIndices_append, storeIndices]

theorem naive_pass2_body_vec {σ : Type} (O : Ipasir σ) (N : Nat) (inject : Int)
    (st : Env σ × List Int) (i : Nat) (h1 : 1 ≤ i) (h2 : i ≤ N)
    (h : VecInv N st.1.log st.2) :
    VecInv N (naive_pass2_body O inject st i).1.log (naive_pass2_body O inject st i).2 := by
  unfold naive_pass2_body
  simp only []
  split_ifs with c0 c1 c2
  · exact h
  · have hfresh : i ∉ storeIndices st.1.log := fun hm => h.2.2.2.2 i hm (by simpa using c0)
    have := vecInv_step h [Event.assume (i : Int),
        Event.solve (O.solve (O.assume st.1.solver (i : Int))).1]
      [Event.add (-(i : Int)), Event.add 0] (by simp [Event.noStore])
      (by simp [Event.noStore]) i (-(i : Int)) h1 h2 (Or.inr rfl) hfresh
    simpa using this.1
  · have hfresh : i ∉ storeIndices st.1.log := fun hm => h.2.2.2.2 i hm (by simpa using c0)
    have := vecInv_step h [Event.assume (i : Int),
        Event.solve (O.solve (O.assume st.1.solver (i : Int))).1]
      [] (by simp [Event.noStore]) (by simp) i (-(i : Int)) h1 h2 (Or.inr rfl) hfresh
    simpa using this.1
  · have := vecInv_noStore h [Event.assume (i : Int),
        Event.solve (O.solve (O.assume st.1.solver (i : Int))).1]
      (by simp [Event.noStore])
    simpa using this

/-- `solve_naive`, whatever the oracle, keeps the vector invariant. -/
theorem solve_naive_vec {σ : Type} (O : Ipasir σ) (s : σ) (N : Nat) (inject : Int) :
    VecInv N (solve_naive O ⟨s, [], []⟩ (List.replicate (N + 1) 0) N inject).1.log
      (solve_naive O ⟨s, [], []⟩ (List.replicate (N + 1) 0) N inject).2 := by
  unfold solve_naive
  simp only []
  refine foldl_range_inv (naive_pass2_body O inject)
    (fun _ a => VecInv N a.1.log a.2) 1 N _ ?_
    (fun k a hk ha => naive_pass2_body_vec O N inject a (1 + k) (by omega) (by omega) ha)
  have p1 := foldl_range_inv (naive_pass1_body O inject)
    (fun k a => VecInv N a.1.log a.2 ∧ ∀ i ∈ storeIndices a.1.log, i ≤ k) 1 N
    (printf ⟨s, [], []⟩ (Out.algo1 (decide (inject ≠ 0))), List.replicate (N + 1) 0)
    ⟨vecInv_nil N, fun i hi => by simp [storeIndices] at hi⟩
    (by
      rintro k a hk ⟨hv, hb⟩
      have hfresh : 1 + k ∉ storeIndices a.1.log := fun hm => by
        have := hb _ hm
        omega
      obtain ⟨g1, g2⟩ := naive_pass1_body_vec O N inject a (1 + k) (by omega) (by omega)
        hv hfresh
      refine ⟨g1, fun i hi => ?_⟩
      rcases g2 with g2 | g2
      · rw [g2] at hi
        have := hb i hi
        omega
      · rw [g2] at hi
        rcases List.mem_append.mp hi with hi | hi
        · have := hb i hi
          omega
        · simp only [List.mem_singleton] at hi
          omega)
  exact p1.1

/-! ## Invariants of `solve_advanced` for an oracle with values in range -/

theorem advanced_filter_inv {σ : Type} (O : Ipasir σ) (N l : Nat)
    (bb : List Int) (e : Env σ) (cands : List Int)
    (hv : VecInv N e.log bb) (hst : ∀ i ∈ storeIndices e.log, i ≤ l)
    (hlen : cands.length = N + 1)
    (hc : ∀ j : Nat, 1 ≤ j → j ≤ N →
      cands.getD j 0 = (j : Int) ∨ cands.getD j 0 = -(j : Int) ∨ cands.getD j 0 = 0)
    (hf : ∀ (idx : Nat) (old : Int), Event.filter idx old ∈ e.log →
      1 ≤ idx ∧ idx ≤ N ∧ idx ∉ storeIndices e.log ∧ (l < idx → cands.getD idx 0 = 0)) :
    AdvInv N l
      { env := ((List.range' (l + 1) (N - l)).foldl (advanced_filter_body O) (e, cands)).1,
        backbone := bb,
        candidates :=
          ((List.range' (l + 1) (N - l)).foldl (advanced_filter_body O) (e, cands)).2 } := by
  have key := foldl_range_inv (advanced_filter_body O)
    (fun _ a => VecInv N a.1.log bb ∧ storeIndices a.1.log = storeIndices e.log ∧
      a.2.length = N + 1 ∧
      (∀ j : Nat, 1 ≤ j → j ≤ N →
        a.2.getD j 0 = (j : Int) ∨ a.2.getD j 0 = -(j : Int) ∨ a.2.getD j 0 = 0) ∧
      (∀ (idx : Nat) (old : Int), Event.filter idx old ∈ a.1.log →
        1 ≤ idx ∧ idx ≤ N ∧ idx ∉ storeIndices e.log ∧ (l < idx → a.2.getD idx 0 = 0)))
    (l + 1) (N - l) (e, cands) ⟨hv, rfl, hlen, hc, hf⟩ ?_
  · obtain ⟨k1, k2, k3, k4, k5⟩ := key
    refine ⟨k1, fun i hi => hst i (by rw [← k2]; exact hi), k3, k4, fun idx old hm => ?_⟩
    obtain ⟨a1, a2, a3, a4⟩ := k5 idx old hm
    exact ⟨a1, a2, by rw [k2]; exact a3, a4⟩
  · rintro k a hk ⟨g1, g2, g3, g4, g5⟩
    unfold advanced_filter_body
    simp only [ipasir_val_res]
    split_ifs with hne
    · refine ⟨?_, ?_, ?_, ?_, ?_⟩
      · have := vecInv_noStore g1 [Event.val ((l + 1 + k : Nat) : Int)
            (O.val a.1.solver ((l + 1 + k : Nat) : Int)),
            Event.filter (l + 1 + k) (a.2.getD (l + 1 + k) 0)] (by simp [Event.noStore])
        simpa using this
      · simp [storeIndices_append, storeIndices, g2]
      · simp [g3]
      · intro j hj1 hj2
        simp only []
        rw [getD_set]
        split_ifs
        · exact Or.inr (Or.inr rfl)
        · exact g4 j hj1 hj2
      · intro idx old hm
        simp only [record_log, ipasir_val_log, List.append_assoc, List.mem_append,
          List.mem_cons, List.mem_singleton, List.mem_nil_iff, or_false] at hm
        simp only []
        rw [getD_set]
        rcases hm with hm | hm | hm
        · obtain ⟨a1, a2, a3, a4⟩ := g5 idx old hm
          refine ⟨a1, a2, a3, fun h => ?_⟩
          split_ifs
          · rfl
          · exact a4 h
        · exact Event.noConfusion hm
        · simp only [Event.filter.injEq] at hm
          obtain ⟨rfl, _⟩ := hm
          refine ⟨by omega, by omega, fun hmem => ?_, fun _ => ?_⟩
          · have := hst _ hmem
            omega
          · rw [if_pos ⟨rfl, by omega⟩]
    · refine ⟨?_, ?_, g3, g4, ?_⟩
      · have := vecInv_noStore g1 [Event.val ((l + 1 + k : Nat) : Int)
            (O.val a.1.solver ((l + 1 + k : Nat) : Int))] (by simp [Event.noStore])
        simpa using this
      · simp [storeIndices_append, storeIndices, g2]
      · intro idx old hm
        simp only [ipasir_val_log, List.mem_append, List.mem_singleton] at hm
        rcases hm with hm | hm
        · exact g5 idx old hm
        · exact Event.noConfusion hm

theorem advInv_weaken {σ : Type} {N k : Nat} {st : AdvState σ} (h : AdvInv N k st) :
    AdvInv N (k + 1) st := by
  obtain ⟨h1, h2, h3, h4, h5⟩ := h
  refine ⟨h1, fun i hi => Nat.le_succ_of_le (h2 i hi), h3, h4, fun idx old hm => ?_⟩
  obtain ⟨a1, a2, a3, a4⟩ := h5 idx old hm
  exact ⟨a1, a2, a3, fun h => a4 (by omega)⟩

/-- A store at the index of the current step, among calls that neither store nor filter,
keeps the invariant of `solve_advanced` and moves it to the next step. -/
theorem advInv_store {σ : Type} {N k : Nat} {st : AdvState σ} (h : AdvInv N k st)
    (hk : k < N) (c : Int) (hc : st.candidates.getD (1 + k) 0 = c) (c0 : c ≠ 0)
    (pre post : List Event)
    (hpre : ∀ ev ∈ pre, Event.noStore ev = true ∧ ∀ i o, ev ≠ Event.filter i o)
    (hpost : ∀ ev ∈ post, Event.noStore ev = true ∧ ∀ i o, ev ≠ Event.filter i o)
    (e1 : Env σ) (hlog : e1.log = st.env.log ++ pre ++ [Event.store (1 + k) c] ++ post) :
    AdvInv N (k + 1)
      { env := e1, backbone := st.backbone.set (1 + k) c, candidates := st.candidates } := by
  obtain ⟨h1, h2, h3, h4, h5⟩ := h
  have hfresh : 1 + k ∉ storeIndices st.env.log := fun hm => by
    have := h2 _ hm
    omega
  have hx : c = ((1 + k : Nat) : Int) ∨ c = -((1 + k : Nat) : Int) := by
    rcases h4 (1 + k) (by omega) (by omega) with h | h | h
    · exact Or.inl (hc ▸ h)
    · exact Or.inr (hc ▸ h)
    · exact absurd (hc ▸ h) c0
  have := vecInv_step h1 pre post (fun ev hm => (hpre ev hm).1) (fun ev hm => (hpost ev hm).1)
    (1 + k) c (by omega) (by omega) hx hfresh
  refine ⟨?_, ?_, h3, h4, ?_⟩
  · show VecInv N e1.log _
    rw [hlog]; exact this.1
  · intro i hi
    change i ∈ storeIndices e1.log at hi
    rw [hlog, this.2] at hi
    rcases List.mem_append.mp hi with hi | hi
    · exact Nat.le_succ_of_le (h2 i hi)
    · simp only [List.mem_singleton] at hi; omega
  · intro idx old hm
    change Event.filter idx old ∈ e1.log at hm
    rw [hlog] at hm
    have hm0 : Event.filter idx old ∈ st.env.log := by
      simp only [List.mem_append, List.mem_singleton] at hm
      rcases hm with ((hm | hm) | hm) | hm
      · exact hm
      · exact absurd rfl ((hpre _ hm).2 idx old)
      · exact Event.noConfusion hm
      · exact absurd rfl ((hpost _ hm).2 idx old)
    obtain ⟨a1, a2, a3, a4⟩ := h5 idx old hm0
    refine ⟨a1, a2, ?_, fun h => a4 (by omega)⟩
    change idx ∉ storeIndices e1.log
    rw [hlog, this.2]
    intro hmem
    rcases List.mem_append.mp hmem with hmem | hmem
    · exact a3 hmem
    · simp only [List.mem_singleton] at hmem
      have := a4 (by omega)
      rw [hmem, hc] at this
      exact c0 this

theorem advanced_body_inv {σ : Type} (O : Ipasir σ) (N : Nat) (inject : Int) (k : Nat)
    (hk : k < N) (st : AdvState σ) (h : AdvInv N k st) :
    AdvInv N (k + 1) (advanced_body O N inject st (1 + k)) := by
  have hcand := h.2.2.2.1 (1 + k) (by omega) (by omega)
  unfold advanced_body
  simp only []
  split_ifs with c0 c1 c2
  · exact advInv_weaken h
  · have habs : (st.candidates.getD (1 + k) 0).natAbs = 1 + k := by
      rcases hcand with h | h | h
      · rw [h]; omega
      · rw [h]; omega
      · exact absurd h c0
    rw [habs]
    have := advInv_store h hk _ rfl c0
      [Event.assume (-(st.candidates.getD (1 + k) 0)),
        Event.solve (O.solve (O.assume st.env.solver (-(st.candidates.getD (1 + k) 0)))).1]
      [Event.add (st.candidates.getD (1 + k) 0), Event.add 0]
      (by simp [Event.noStore]) (by simp [Event.noStore])
      (ipasir_add O (ipasir_add O (storeBackbone (ipasir_solve O (ipasir_assume O
        st.env (-(st.candidates.getD (1 + k) 0)))).2 st.backbone
        (1 + k) (st.candidates.getD (1 + k) 0)).1
        (st.candidates.getD (1 + k) 0)) 0)
      (by simp only [ipasir_add_log, storeBackbone_log, ipasir_solve_log, ipasir_assume_log,
        ipasir_assume_solver, List.append_assoc, List.cons_append, List.nil_append])
    rw [storeBackbone_vec]
    exact this
  · have habs : (st.candidates.getD (1 + k) 0).natAbs = 1 + k := by
      rcases hcand with h | h | h
      · rw [h]; omega
      · rw [h]; omega
      · exact absurd h c0
    rw [habs]
    have := advInv_store h hk _ rfl c0
      [Event.assume (-(st.candidates.getD (1 + k) 0)),
        Event.solve (O.solve (O.assume st.env.solver (-(st.candidates.getD (1 + k) 0)))).1]
      [] (by simp [Event.noStore]) (by simp)
      (storeBackbone (ipasir_solve O (ipasir_assume O
        st.env (-(st.candidates.getD (1 + k) 0)))).2 st.backbone
        (1 + k) (st.candidates.getD (1 + k) 0)).1
      (by simp only [storeBackbone_log, ipasir_solve_log, ipasir_assume_log,
        ipasir_assume_solver, List.append_assoc, List.cons_append, List.nil_append,
        List.append_nil])
    rw [storeBackbone_vec]
    exact this
  · -- SAT: filtering
    obtain ⟨h1, h2, h3, h4, h5⟩ := h
    have hv2 := vecInv_noStore h1 [Event.assume (-(st.candidates.getD (1 + k) 0)),
        Event.solve (O.solve (O.assume st.env.solver (-(st.candidates.getD (1 + k) 0)))).1]
      (by simp [Event.noStore])
    have hlog : (ipasir_solve O (ipasir_assume O st.env
        (-(st.candidates.getD (1 + k) 0)))).2.log
        = st.env.log ++ [Event.assume (-(st.candidates.getD (1 + k) 0)),
          Event.solve (O.solve (O.assume st.env.solver
            (-(st.candidates.getD (1 + k) 0)))).1] := by
      simp only [ipasir_solve_log, ipasir_assume_log, ipasir_assume_solver,
        List.append_assoc, List.cons_append, List.nil_append]
    have hsi : storeIndices (ipasir_solve O (ipasir_assume O st.env
        (-(st.candidates.getD (1 + k) 0)))).2.log = storeIndices st.env.log := by
      rw [hlog, storeIndices_append]
      simp [storeIndices]
    have res := advanced_filter_inv O N (1 + k) st.backbone
      (ipasir_solve O (ipasir_assume O st.env (-(st.candidates.getD (1 + k) 0)))).2
      st.candidates (by rw [hlog]; exact hv2)
      (fun i hi => by rw [hsi] at hi; have := h2 i hi; omega) h3 h4
      (by
        intro idx old hm
        rw [hlog] at hm
        have hm0 : Event.filter idx old ∈ st.env.log := by
          simp only [List.mem_append, List.mem_cons, List.mem_singleton, List.mem_nil_iff,
            or_false] at hm
          rcases hm with hm | hm | hm
          · exact hm
          all_goals exact Event.noConfusion hm
        obtain ⟨a1, a2, a3, a4⟩ := h5 idx old hm0
        exact ⟨a1, a2, by rw [hsi]; exact a3, fun h => a4 (by omega)⟩)
    have e1 : k + 1 = 1 + k := by omega
    rw [e1]
    exact res

/-- `solve_advanced`, for an oracle with values in range, keeps its loop invariant. -/
theorem solve_advanced_inv {σ : Type} (O : Ipasir σ) (hval : ValInRange O) (s : σ) (N : Nat)
    (inject : Int) :
    AdvInv N N (solve_advanced O ⟨s, [], []⟩ (List.replicate (N + 1) 0) N inject) := by
  unfold solve_advanced
  simp only []
  have hinit := foldl_range_inv (advanced_init_body O)
    (fun _ a => VecInv N a.1.log (List.replicate (N + 1) 0) ∧ storeIndices a.1.log = [] ∧
      (∀ (idx : Nat) (old : Int), Event.filter idx old ∉ a.1.log) ∧ a.2.length = N + 1 ∧
      (∀ j : Nat, 1 ≤ j → j ≤ N →
        a.2.getD j 0 = (j : Int) ∨ a.2.getD j 0 = -(j : Int) ∨ a.2.getD j 0 = 0))
    1 N (printf ⟨s, [], []⟩ (Out.algo23 (decide (inject ≠ 0))), List.replicate (N + 1) 0)
    ⟨vecInv_nil N, rfl, fun _ _ h => by simp at h, by simp,
      fun j _ _ => Or.inr (Or.inr (getD_replicate_zero _ _))⟩
    (by
      rintro k a hk ⟨g1, g2, g3, g4, g5⟩
      unfold advanced_init_body
      simp only [ipasir_val_res, ipasir_val_log]
      refine ⟨?_, ?_, ?_, ?_, ?_⟩
      · exact vecInv_noStore g1 _ (by simp [Event.noStore])
      · rw [storeIndices_append, g2]; rfl
      · intro idx old hm
        simp only [List.mem_append, List.mem_singleton] at hm
        rcases hm with hm | hm
        · exact g3 idx old hm
        · exact Event.noConfusion hm
      · rw [List.length_set]; exact g4
      · intro j hj1 hj2
        rw [getD_set]
        split_ifs with hc
        · rw [hc.1]
          exact hval a.1.solver (1 + k) (by omega)
        · exact g5 j hj1 hj2)
  obtain ⟨g1, g2, g3, g4, g5⟩ := hinit
  refine foldl_range_inv (advanced_body O N inject) (fun k a => AdvInv N k a) 1 N _ ?_
    (fun k a hk ha => advanced_body_inv O N inject k hk a ha)
  exact ⟨g1, fun i hi => by rw [g2] at hi; simp at hi, g4, g5,
    fun idx old hm => absurd hm (g3 idx old)⟩

theorem replay_take_entries (N : Nat) (log : List Event)
    (h : ∀ (idx : Nat) (x : Int), Event.store idx x ∈ log →
      1 ≤ idx ∧ idx ≤ N ∧ (x = (idx : Int) ∨ x = -(idx : Int))) (n i : Nat) :
    (replayStores (log.take n) (List.replicate (N + 1) 0)).getD i 0 = 0 ∨
    (replayStores (log.take n) (List.replicate (N + 1) 0)).getD i 0 = (i : Int) ∨
    (replayStores (log.take n) (List.replicate (N + 1) 0)).getD i 0 = -(i : Int) :=
  replayStores_entries (log.take n) _
    (fun idx x hm => (h idx x (List.mem_of_mem_take hm)).2.2)
    (fun _ => Or.inl (getD_replicate_zero _ _)) i

/-- C16: started on the all-zero vector of size `maxVar + 1`, `solve_naive` (for any
oracle) and `solve_advanced` (for an oracle whose `val(v)` is always `v`, `-v` or `0`)
keep the vector equal to the replay of the recorded stores; every store writes `idx` or
`-idx` at an index `idx` in `1..maxVar`; no index is written twice (so a non-zero entry
is never written again, in particular not by the second pass of the naive algorithm);
hence after every prefix of the run every entry `i` is `0`, `i` or `-i`. -/
theorem backbone_vector_invariant {σ : Type} (O : Ipasir σ) (s : σ) (maxVar : Nat)
    (inject : Int) :
    (VecInv maxVar
        (solve_naive O ⟨s, [], []⟩ (List.replicate (maxVar + 1) 0) maxVar inject).1.log
        (solve_naive O ⟨s, [], []⟩ (List.replicate (maxVar + 1) 0) maxVar inject).2 ∧
      ∀ n i : Nat,
        (replayStores
          ((solve_naive O ⟨s, [], []⟩ (List.replicate (maxVar + 1) 0) maxVar inject).1.log.take n)
          (List.replicate (maxVar + 1) 0)).getD i 0 = 0 ∨
        (replayStores
          ((solve_naive O ⟨s, [], []⟩ (List.replicate (maxVar + 1) 0) maxVar inject).1.log.take n)
          (List.replicate (maxVar + 1) 0)).getD i 0 = (i : Int) ∨
        (replayStores
          ((solve_naive O ⟨s, [], []⟩ (List.replicate (maxVar + 1) 0) maxVar inject).1.log.take n)
          (List.replicate (maxVar + 1) 0)).getD i 0 = -(i : Int)) ∧
    (ValInRange O →
      VecInv maxVar
        (solve_advanced O ⟨s, [], []⟩ (List.replicate (maxVar + 1) 0) maxVar inject).env.log
        (solve_advanced O ⟨s, [], []⟩ (List.replicate (maxVar + 1) 0) maxVar inject).backbone ∧
      ∀ n i : Nat,
        (replayStores
          ((solve_advanced O ⟨s, [], []⟩ (List.replicate (maxVar + 1) 0) maxVar
            inject).env.log.take n)
          (List.replicate (maxVar + 1) 0)).getD i 0 = 0 ∨
        (replayStores
          ((solve_advanced O ⟨s, [], []⟩ (List.replicate (maxVar + 1) 0) maxVar
            inject).env.log.take n)
          (List.replicate (maxVar + 1) 0)).getD i 0 = (i : Int) ∨
        (replayStores
          ((solve_advanced O ⟨s, [], []⟩ (List.replicate (maxVar + 1) 0) maxVar
            inject).env.log.take n)
          (List.replicate (maxVar + 1) 0)).getD i 0 = -(i : Int)) := by
  have hn := solve_naive_vec O s maxVar inject
  refine ⟨⟨hn, fun n i => replay_take_entries maxVar _ hn.2.2.1 n i⟩, fun hval => ?_⟩
  have ha := (solve_advanced_inv O hval s maxVar inject).1
  exact ⟨ha, fun n i => replay_take_entries maxVar _ ha.2.2.1 n i⟩

/-! ## Candidates are only filtered forward -/

theorem brute_valInRange (sig : List Char) : ValInRange (bruteOracle sig) := by
  intro s v _
  simp only [bruteOracle, Int.natAbs_ofNat]
  split_ifs <;> simp

theorem advanced_filter_cands {σ : Type} (O : Ipasir σ) (a : Nat) :
    ∀ (n : Nat) (e : Env σ) (cands : List Int) (j : Nat),
      (((List.range' a n).foldl (advanced_filter_body O) (e, cands)).2.getD j 0 =
          cands.getD j 0 ∨
        (cands.getD j 0 ≠ 0 ∧
          ((List.range' a n).foldl (advanced_filter_body O) (e, cands)).2.getD j 0 = 0)) ∧
      (j < a → ((List.range' a n).foldl (advanced_filter_body O) (e, cands)).2.getD j 0 =
        cands.getD j 0) := by
  intro n e cands j
  have key := foldl_range_inv (advanced_filter_body O)
    (fun _ st => (st.2.getD j 0 = cands.getD j 0 ∨ (cands.getD j 0 ≠ 0 ∧ st.2.getD j 0 = 0)) ∧
      (j < a → st.2.getD j 0 = cands.getD j 0))
    a n (e, cands) ⟨Or.inl rfl, fun _ => rfl⟩ ?_
  · exact key
  · rintro k st _ ⟨h1, h2⟩
    unfold advanced_filter_body
    simp only []
    split_ifs with hne
    · simp only [getD_set]
      split_ifs with hc
      · refine ⟨?_, fun hj => by omega⟩
        by_cases h0 : cands.getD j 0 = 0
        · exact Or.inl h0.symm
        · exact Or.inr ⟨h0, rfl⟩
      · exact ⟨h1, h2⟩
    · exact ⟨h1, h2⟩

/-- C17 (as amended): for every oracle, one step of the main loop of `solve_advanced`
leaves each candidate entry unchanged or turns a non-zero entry into `0`; the step for
index `l` leaves the entries with index `<= l` unchanged, and leaves all entries
unchanged when it does not query or when the answer is UNSAT. For an oracle whose
`val(v)` is always `v`, `-v` or `0`, no index has both a filtering write and a backbone
store in the record of a run. -/
theorem candidates_forward_only {σ : Type} (O : Ipasir σ) (maxVar : Nat) (inject : Int) :
    (∀ (st : AdvState σ) (l j : Nat),
      ((advanced_body O maxVar inject st l).candidates.getD j 0 = st.candidates.getD j 0 ∨
        (st.candidates.getD j 0 ≠ 0 ∧
          (advanced_body O maxVar inject st l).candidates.getD j 0 = 0)) ∧
      (j ≤ l →
        (advanced_body O maxVar inject st l).candidates.getD j 0 = st.candidates.getD j 0)) ∧
    (∀ (st : AdvState σ) (l : Nat),
      (st.candidates.getD l 0 = 0 ∨
        (ipasir_solve O (ipasir_assume O st.env (-(st.candidates.getD l 0)))).1 = UNSAT) →
      (advanced_body O maxVar inject st l).candidates = st.candidates) ∧
    (ValInRange O → ∀ (s : σ) (idx : Nat) (x old : Int),
      Event.store idx x ∈
        (solve_advanced O ⟨s, [], []⟩ (List.replicate (maxVar + 1) 0) maxVar inject).env.log →
      Event.filter idx old ∉
        (solve_advanced O ⟨s, [], []⟩ (List.replicate (maxVar + 1) 0) maxVar inject).env.log) := by
  refine ⟨?_, ?_, ?_⟩
  · intro st l j
    unfold advanced_body
    simp only []
    split_ifs
    · exact ⟨Or.inl rfl, fun _ => rfl⟩
    · exact ⟨Or.inl rfl, fun _ => rfl⟩
    · exact ⟨Or.inl rfl, fun _ => rfl⟩
    · have h := advanced_filter_cands O (l + 1) (maxVar - l)
        (ipasir_solve O (ipasir_assume O st.env (-(st.candidates.getD l 0)))).2
        st.candidates j
      exact ⟨h.1, fun hj => h.2 (by omega)⟩
  · intro st l h
    unfold advanced_body
    simp only []
    rcases h with h | h
    · rw [if_pos h]
    · split_ifs <;> rfl
  · intro hval s idx x old hs hf
    have h := solve_advanced_inv O hval s maxVar inject
    exact (h.2.2.2.2 idx old hf).2.2.1 (mem_storeIndices.2 ⟨x, hs⟩)

theorem candidates_forward_only_witness :
    Event.store 2 2 ∈
      (solve_advanced (bruteOracle [])
        ⟨(ipasir_solve (bruteOracle []) ⟨bruteWith [[1, 2], [-1, 2]], [], []⟩).2.solver, [], []⟩
        (List.replicate (2 + 1) 0) 2 0).env.log ∧
    Event.filter 2 2 ∉
      (solve_advanced (bruteOracle [])
        ⟨(ipasir_solve (bruteOracle []) ⟨bruteWith [[1, 2], [-1, 2]], [], []⟩).2.solver, [], []⟩
        (List.replicate (2 + 1) 0) 2 0).env.log :=
  ⟨by decide, (candidates_forward_only (bruteOracle []) 2 0).2.2 (brute_valInRange [])
    (ipasir_solve (bruteOracle []) ⟨bruteWith [[1, 2], [-1, 2]], [], []⟩).2.solver 2 2 2
    (by decide)⟩

/-- C17 (counterexample): with the scripted oracle, whose value for variable 2 is the
literal 3, the run on three variables first filters candidate 3 (after the SAT answer of
step 1) and then, at step 2, stores the literal 3 at index 3 of the backbone. -/
theorem filtered_index_recorded :
    (solve_advanced scriptedOracle ⟨0, [], []⟩ (List.replicate (3 + 1) 0) 3 0).env.log =
      [Event.val 1 1, Event.val 2 3, Event.val 3 3,
       Event.assume (-1), Event.solve SAT, Event.val 2 3, Event.val 3 (-3),
       Event.filter 3 3,
       Event.assume (-3), Event.solve UNSAT, Event.store 3 3] ∧
    (solve_advanced scriptedOracle ⟨0, [], []⟩ (List.replicate (3 + 1) 0) 3 0).backbone =
      [0, 0, 0, 3] := by
  decide

/-! ## Injection only adds implied unit clauses -/

theorem replayView_append (a b : List Event) (v : View) :
    replayView (a ++ b) v = replayView b (replayView a v) := by
  simp [replayView, List.foldl_append]

theorem replayView_noadd : ∀ (seg : List Event) (v : View),
    (∀ x : Int, Event.add x ∉ seg) → Event.init ∉ seg →
    (replayView seg v).db = v.db ∧ (replayView seg v).cur = v.cur := by
  intro seg
  induction seg with
  | nil => intro v _ _; exact ⟨rfl, rfl⟩
  | cons ev rest ih =>
    intro v h hi
    have hrest : ∀ x : Int, Event.add x ∉ rest := fun x hx => h x (List.mem_cons_of_mem _ hx)
    have hstep := ih (replayEvent v ev) hrest (fun hx => hi (List.mem_cons_of_mem _ hx))
    have hev : (replayEvent v ev).db = v.db ∧ (replayEvent v ev).cur = v.cur := by
      cases ev with
      | init => exact absurd (List.mem_cons_self _ _) hi
      | add l => exact absurd (List.mem_cons_self _ _) (h l)
      | assume l => exact ⟨rfl, rfl⟩
      | solve r => exact ⟨rfl, rfl⟩
      | val a b => exact ⟨rfl, rfl⟩
      | store a b => exact ⟨rfl, rfl⟩
      | filter a b => exact ⟨rfl, rfl⟩
    show (replayView rest (replayEvent v ev)).db = v.db ∧
      (replayView rest (replayEvent v ev)).cur = v.cur
    rw [hstep.1, hstep.2]
    exact hev

theorem replayView_block_part (x : Int) (hx : x ≠ 0) (idx : Nat) (y : Int) (v : View)
    (a post : List Event)
    (h : a ++ post = [Event.assume (-x), Event.solve UNSAT, Event.store idx y,
      Event.add x, Event.add 0]) :
    (replayView a v).db = v.db ∨ (replayView a v).db = v.db ++ [v.cur ++ [x]] := by
  rcases a with _ | ⟨a1, _ | ⟨a2, _ | ⟨a3, _ | ⟨a4, _ | ⟨a5, _ | ⟨a6, a7⟩⟩⟩⟩⟩⟩
  · exact Or.inl rfl
  · simp at h; obtain ⟨rfl, -⟩ := h; exact Or.inl rfl
  · simp at h; obtain ⟨rfl, rfl, -⟩ := h; exact Or.inl rfl
  · simp at h; obtain ⟨rfl, rfl, rfl, -⟩ := h; exact Or.inl rfl
  · simp at h; obtain ⟨rfl, rfl, rfl, rfl, -⟩ := h
    left
    simp [replayView, replayEvent, hx]
  · simp at h; obtain ⟨rfl, rfl, rfl, rfl, rfl, -⟩ := h
    right
    simp [replayView, replayEvent, hx]
  · simp at h

theorem formulaSat_implied_clause {F db : List (List Int)} {x : Int}
    (hdb : ∀ m : Assignment, formulaSat m db = formulaSat m F) (hent : Entails F x)
    (c : List Int) (m : Assignment) :
    formulaSat m (db ++ [c ++ [x]]) = formulaSat m F := by
  rw [formulaSat_append, hdb m]
  cases hF : formulaSat m F with
  | false => rfl
  | true =>
    have := hent m hF
    simp [formulaSat, clauseSat, this]

theorem injectionSound_nil {σ : Type} {view : σ → View} {F : List (List Int)} {s : σ}
    (hs : Holds view F s) (out : List Out) : InjInv view F (view s) ⟨s, [], out⟩ := by
  refine ⟨hs, rfl, ?_, [], rfl, fun _ h => by simp at h⟩
  intro pre post h
  have : pre = [] := by
    cases pre with
    | nil => rfl
    | cons a b => simp at h
  subst this
  exact ⟨hs.1, [], by simp [replayView]⟩

/-- One more stretch of calls keeps the record sound. -/
theorem injInv_step {σ : Type} {view : σ → View} {F : List (List Int)} {v0 : View}
    {e e2 : Env σ} (h : InjInv view F v0 e) (seg : List Event)
    (hlog : e2.log = e.log ++ seg)
    (hview : view e2.solver = replayView seg (view e.solver))
    (hholds : Holds view F e2.solver) (hinit : Event.init ∉ seg)
    (hseg : (∀ x : Int, Event.add x ∉ seg) ∨
      ∃ x : Int, x ≠ 0 ∧ Entails F x ∧
        seg = [Event.assume (-x), Event.solve UNSAT, Event.store x.natAbs x,
               Event.add x, Event.add 0]) :
    InjInv view F v0 e2 := by
  obtain ⟨hs, hfin, hpre, segs, hsegs, hall⟩ := h
  refine ⟨hholds, ?_, ?_, segs ++ [seg], ?_, ?_⟩
  · rw [hview, hlog, replayView_append, ← hfin]
  · intro pre post hpp
    rw [hlog] at hpp
    rcases List.append_eq_append_iff.1 hpp with ⟨a, hpa, hsa⟩ | ⟨c, hLc, -⟩
    · have hQ := hpre e.log [] (by simp)
      rw [← hfin] at hQ
      obtain ⟨hQ1, us, hQ2⟩ := hQ
      rw [hpa, replayView_append, ← hfin]
      rcases hseg with hno | ⟨x, hx, hent, hblock⟩
      · have hdb := (replayView_noadd a (view e.solver)
          (fun y hy => hno y (by rw [hsa]; exact List.mem_append_left _ hy))
          (fun hy => hinit (by rw [hsa]; exact List.mem_append_left _ hy))).1
        rw [hdb]
        exact ⟨hQ1, us, hQ2⟩
      · rcases replayView_block_part x hx x.natAbs x (view e.solver) a post
          (by rw [← hsa, hblock]) with hdb | hdb
        · rw [hdb]; exact ⟨hQ1, us, hQ2⟩
        · rw [hdb]
          refine ⟨formulaSat_implied_clause hQ1 hent _, us ++ [(view e.solver).cur ++ [x]], ?_⟩
          rw [hQ2, List.append_assoc]
    · exact hpre pre c hLc
  · rw [hlog, List.flatten_append, ← hsegs]; simp
  · intro sg hsg
    rcases List.mem_append.1 hsg with hsg | hsg
    · exact hall sg hsg
    · rw [List.mem_singleton.1 hsg]; exact hseg

theorem litTrue_of_neg_false (m : Assignment) (x : Int) (hx : x ≠ 0)
    (h : litTrue m (-x) = false) : litTrue m x = true := by
  unfold litTrue at h ⊢
  rcases lt_trichotomy x 0 with hlt | heq | hgt
  · have h1 : (0 : Int) < -x := by omega
    have h2 : ¬ (0 : Int) < x := by omega
    rw [if_pos h1, Int.natAbs_neg] at h
    rw [if_neg h2, if_pos hlt, h]; rfl
  · exact absurd heq hx
  · have h1 : ¬ (0 : Int) < -x := by omega
    have h2 : -x < 0 := by omega
    rw [if_neg h1, if_pos h2, Int.natAbs_neg] at h
    rw [if_pos hgt]
    cases hm : m x.natAbs with
    | true => rfl
    | false => rw [hm] at h; exact absurd h (by decide)

/-- The query of a literal and, on UNSAT, its store and injection keep the record sound. -/
theorem injInv_confirm {σ : Type} {O : Ipasir σ} {view : σ → View} (hO : Correct O view)
    {F : List (List Int)} {v0 : View} {e : Env σ} (h : InjInv view F v0 e)
    (c x y : Int) (idx : Nat) (hc : c = -x) (hy : y = x) (hidx : idx = x.natAbs)
    (hx : x ≠ 0) (bb : List Int) :
    InjInv view F v0 (ipasir_solve O (ipasir_assume O e c)).2 ∧
    ((ipasir_solve O (ipasir_assume O e c)).1 = UNSAT →
      InjInv view F v0 (storeBackbone (ipasir_solve O (ipasir_assume O e c)).2 bb idx y).1 ∧
      InjInv view F v0
        (ipasir_add O (ipasir_add O
          (storeBackbone (ipasir_solve O (ipasir_assume O e c)).2 bb idx y).1 y) 0)) := by
  subst hc hy hidx
  have hq : Holds view F (O.solve (O.assume e.solver (-y))).2 :=
    holds_query hO.toSolveCorrect h.1 (-y)
  have hv2 : view (O.solve (O.assume e.solver (-y))).2 =
      { db := (view e.solver).db, cur := (view e.solver).cur, assumps := [] } := by
    rw [hO.solve_view, hO.assume_view]
  refine ⟨?_, fun hun => ⟨?_, ?_⟩⟩
  · refine injInv_step h [Event.assume (-y), Event.solve (O.solve (O.assume e.solver (-y))).1]
      (by simp [ipasir_solve, ipasir_assume, record]) ?_ hq (by simp) (Or.inl (by simp))
    show view (O.solve (O.assume e.solver (-y))).2 = _
    rw [hv2]; rfl
  · refine injInv_step h [Event.assume (-y), Event.solve (O.solve (O.assume e.solver (-y))).1,
        Event.store y.natAbs y]
      (by simp [ipasir_solve, ipasir_assume, record, storeBackbone]) ?_ hq (by simp)
      (Or.inl (by simp))
    show view (O.solve (O.assume e.solver (-y))).2 = _
    rw [hv2]; rfl
  · have hun2 : (O.solve (O.assume e.solver (-y))).1 = UNSAT := hun
    have hent : Entails F y := fun m hm =>
      litTrue_of_neg_false m y hx ((query_unsat_iff hO.toSolveCorrect h.1 (-y)).1 hun2 m hm)
    refine injInv_step h [Event.assume (-y), Event.solve UNSAT, Event.store y.natAbs y,
        Event.add y, Event.add 0] ?_ ?_ ?_ (by simp) (Or.inr ⟨y, hx, hent, rfl⟩)
    · simp [ipasir_solve, ipasir_assume, ipasir_add, record, storeBackbone, hun2]
    · show view (O.add (O.add (O.solve (O.assume e.solver (-y))).2 y) 0) = _
      rw [hO.add_zero, hO.add_lit _ _ hx, hv2]
      simp [replayView, replayEvent, hx]
    · exact holds_inject hO.toAddCorrect hq y hx hent

theorem replayView_inert : ∀ (seg : List Event) (v : View),
    (∀ ev ∈ seg, (∃ a b, ev = Event.val a b) ∨ ∃ a b, ev = Event.filter a b) →
    replayView seg v = v := by
  intro seg
  induction seg with
  | nil => intro v _; rfl
  | cons ev rest ih =>
    intro v h
    show replayView rest (replayEvent v ev) = v
    have hev : replayEvent v ev = v := by
      rcases h ev (List.mem_cons_self _ _) with ⟨a, b, rfl⟩ | ⟨a, b, rfl⟩ <;> rfl
    rw [hev]
    exact ih v (fun e2 he2 => h e2 (List.mem_cons_of_mem _ he2))

/-- A stretch of reads of values and filtering writes keeps the record sound. -/
theorem injInv_inert {σ : Type} {view : σ → View} {F : List (List Int)} {v0 : View}
    {e e2 : Env σ} (h : InjInv view F v0 e)
    (hx : ∃ extra : List Event, e2.log = e.log ++ extra ∧ e2.solver = e.solver ∧
      ∀ ev ∈ extra, (∃ a b, ev = Event.val a b) ∨ ∃ a b, ev = Event.filter a b) :
    InjInv view F v0 e2 := by
  obtain ⟨extra, hlog, hsol, hev⟩ := hx
  refine injInv_step h extra hlog ?_ (by rw [hsol]; exact h.1) ?_ (Or.inl ?_)
  · rw [hsol, replayView_inert extra _ hev]
  · intro hx
    rcases hev _ hx with ⟨a, b, hab⟩ | ⟨a, b, hab⟩ <;> exact Event.noConfusion hab
  · intro x hx
    rcases hev _ hx with ⟨a, b, hab⟩ | ⟨a, b, hab⟩ <;> exact Event.noConfusion hab

theorem advanced_filter_inert {σ : Type} (O : Ipasir σ) (a n : Nat) (e : Env σ)
    (cands : List Int) :
    ∃ extra : List Event,
      ((List.range' a n).foldl (advanced_filter_body O) (e, cands)).1.log = e.log ++ extra ∧
      ((List.range' a n).foldl (advanced_filter_body O) (e, cands)).1.solver = e.solver ∧
      ∀ ev ∈ extra, (∃ a b, ev = Event.val a b) ∨ ∃ a b, ev = Event.filter a b := by
  refine foldl_range_inv (advanced_filter_body O)
    (fun _ st => ∃ extra : List Event, st.1.log = e.log ++ extra ∧ st.1.solver = e.solver ∧
      ∀ ev ∈ extra, (∃ a b, ev = Event.val a b) ∨ ∃ a b, ev = Event.filter a b)
    a n (e, cands) ⟨[], by simp, rfl, fun _ h => by simp at h⟩ ?_
  rintro k st _ ⟨extra, h1, h2, h3⟩
  unfold advanced_filter_body
  simp only []
  split_ifs
  · refine ⟨extra ++ [Event.val ((a + k : Nat) : Int) (O.val st.1.solver ((a + k : Nat) : Int)),
      Event.filter (a + k) (st.2.getD (a + k) 0)], ?_, h2, ?_⟩
    · simp [ipasir_val, record, h1]
    · intro ev hev
      simp only [List.mem_append, List.mem_cons, List.mem_singleton, List.not_mem_nil,
        or_false] at hev
      rcases hev with hev | hev | hev
      · exact h3 ev hev
      · exact Or.inl ⟨_, _, hev⟩
      · exact Or.inr ⟨_, _, hev⟩
  · refine ⟨extra ++ [Event.val ((a + k : Nat) : Int) (O.val st.1.solver ((a + k : Nat) : Int))],
      ?_, h2, ?_⟩
    · simp [ipasir_val, record, h1]
    · intro ev hev
      simp only [List.mem_append, List.mem_singleton] at hev
      rcases hev with hev | hev
      · exact h3 ev hev
      · exact Or.inl ⟨_, _, hev⟩

theorem advanced_init_inert {σ : Type} (O : Ipasir σ) (a n : Nat) (e : Env σ)
    (cands : List Int) :
    ∃ extra : List Event,
      ((List.range' a n).foldl (advanced_init_body O) (e, cands)).1.log = e.log ++ extra ∧
      ((List.range' a n).foldl (advanced_init_body O) (e, cands)).1.solver = e.solver ∧
      ∀ ev ∈ extra, (∃ a b, ev = Event.val a b) ∨ ∃ a b, ev = Event.filter a b := by
  refine foldl_range_inv (advanced_init_body O)
    (fun _ st => ∃ extra : List Event, st.1.log = e.log ++ extra ∧ st.1.solver = e.solver ∧
      ∀ ev ∈ extra, (∃ a b, ev = Event.val a b) ∨ ∃ a b, ev = Event.filter a b)
    a n (e, cands) ⟨[], by simp, rfl, fun _ h => by simp at h⟩ ?_
  rintro k st _ ⟨extra, h1, h2, h3⟩
  unfold advanced_init_body
  simp only []
  refine ⟨extra ++ [Event.val ((a + k : Nat) : Int) (O.val st.1.solver ((a + k : Nat) : Int))],
    ?_, h2, ?_⟩
  · simp [ipasir_val, record, h1]
  · intro ev hev
    simp only [List.mem_append, List.mem_singleton] at hev
    rcases hev with hev | hev
    · exact h3 ev hev
    · exact Or.inl ⟨_, _, hev⟩

theorem naive_pass1_body_inj {σ : Type} {O : Ipasir σ} {view : σ → View} (hO : Correct O view)
    {F : List (List Int)} {v0 : View} (inject : Int) (st : Env σ × List Int) (i : Nat)
    (hi : 1 ≤ i) (h : InjInv view F v0 st.1) :
    InjInv view F v0 (naive_pass1_body O inject st i).1 := by
  have C := injInv_confirm hO h (-(i : Int)) (i : Int) (-(-(i : Int))) (-(i : Int)).natAbs
    rfl (by simp) (by simp) (by omega) st.2
  unfold naive_pass1_body
  simp only []
  split_ifs with hun hinj
  · exact (C.2 hun).2
  · exact (C.2 hun).1
  · exact C.1

theorem naive_pass2_body_inj {σ : Type} {O : Ipasir σ} {view : σ → View} (hO : Correct O view)
    {F : List (List Int)} {v0 : View} (inject : Int) (st : Env σ × List Int) (i : Nat)
    (hi : 1 ≤ i) (h : InjInv view F v0 st.1) :
    InjInv view F v0 (naive_pass2_body O inject st i).1 := by
  have C := injInv_confirm hO h (i : Int) (-(i : Int)) (-(i : Int)) (i : Int).natAbs
    (by simp) rfl (by simp) (by omega) st.2
  unfold naive_pass2_body
  simp only []
  split_ifs with hbb hun hinj
  · exact h
  · exact (C.2 hun).2
  · exact (C.2 hun).1
  · exact C.1

theorem advanced_body_inj {σ : Type} {O : Ipasir σ} {view : σ → View} (hO : Correct O view)
    {F : List (List Int)} {v0 : View} (N : Nat) (inject : Int) (st : AdvState σ) (l : Nat)
    (h : InjInv view F v0 st.env) :
    InjInv view F v0 (advanced_body O N inject st l).env := by
  unfold advanced_body
  simp only []
  split_ifs with hc hun hinj
  · exact h
  · exact ((injInv_confirm hO h (-(st.candidates.getD l 0)) (st.candidates.getD l 0)
      (st.candidates.getD l 0) (st.candidates.getD l 0).natAbs rfl rfl rfl hc
      st.backbone).2 hun).2
  · exact ((injInv_confirm hO h (-(st.candidates.getD l 0)) (st.candidates.getD l 0)
      (st.candidates.getD l 0) (st.candidates.getD l 0).natAbs rfl rfl rfl hc
      st.backbone).2 hun).1
  · exact injInv_inert (injInv_confirm hO h (-(st.candidates.getD l 0))
      (st.candidates.getD l 0) (st.candidates.getD l 0) (st.candidates.getD l 0).natAbs
      rfl rfl rfl hc st.backbone).1 (advanced_filter_inert O _ _ _ _)

theorem solve_naive_inj {σ : Type} {O : Ipasir σ} {view : σ → View} (hO : Correct O view)
    {F : List (List Int)} (s : σ) (hs : Holds view F s) (bb : List Int) (N : Nat)
    (inject : Int) :
    InjInv view F (view s) (solve_naive O ⟨s, [], []⟩ bb N inject).1 := by
  unfold solve_naive
  simp only []
  refine foldl_range_inv (naive_pass2_body O inject) (fun _ a => InjInv view F (view s) a.1)
    1 N _ ?_ (fun k a _ ha => naive_pass2_body_inj hO inject a (1 + k) (by omega) ha)
  exact foldl_range_inv (naive_pass1_body O inject) (fun _ a => InjInv view F (view s) a.1)
    1 N _ (injectionSound_nil hs _)
    (fun k a _ ha => naive_pass1_body_inj hO inject a (1 + k) (by omega) ha)

theorem solve_advanced_inj {σ : Type} {O : Ipasir σ} {view : σ → View} (hO : Correct O view)
    {F : List (List Int)} (s : σ) (hs : Holds view F s) (bb : List Int) (N : Nat)
    (inject : Int) :
    InjInv view F (view s) (solve_advanced O ⟨s, [], []⟩ bb N inject).env := by
  unfold solve_advanced
  simp only []
  refine foldl_range_inv (advanced_body O N inject) (fun _ a => InjInv view F (view s) a.env)
    1 N _ ?_ (fun k a _ ha => advanced_body_inj hO N inject a (1 + k) ha)
  exact injInv_inert (injectionSound_nil hs _) (advanced_init_inert O _ _ _ _)

theorem naive_pass1_body_noadd {σ : Type} (O : Ipasir σ) (st : Env σ × List Int) (i : Nat)
    (h : ∀ x : Int, Event.add x ∉ st.1.log) :
    ∀ x : Int, Event.add x ∉ (naive_pass1_body O 0 st i).1.log := by
  intro x
  unfold naive_pass1_body
  simp only []
  split_ifs <;>
    simp_all [ipasir_solve, ipasir_assume, record, storeBackbone]

theorem naive_pass2_body_noadd {σ : Type} (O : Ipasir σ) (st : Env σ × List Int) (i : Nat)
    (h : ∀ x : Int, Event.add x ∉ st.1.log) :
    ∀ x : Int, Event.add x ∉ (naive_pass2_body O 0 st i).1.log := by
  intro x
  unfold naive_pass2_body
  simp only []
  split_ifs <;>
    simp_all [ipasir_solve, ipasir_assume, record, storeBackbone]

theorem advanced_body_noadd {σ : Type} (O : Ipasir σ) (N : Nat) (st : AdvState σ) (l : Nat)
    (h : ∀ x : Int, Event.add x ∉ st.env.log) :
    ∀ x : Int, Event.add x ∉ (advanced_body O N 0 st l).env.log := by
  intro x
  unfold advanced_body
  simp only []
  split_ifs with hc hun hinj
  · exact h x
  · exact absurd rfl hinj
  · simp_all [ipasir_solve, ipasir_assume, record, storeBackbone]
  · obtain ⟨extra, h1, -, h3⟩ := advanced_filter_inert O (l + 1) (N - l)
      (ipasir_solve O (ipasir_assume O st.env (-(st.candidates.getD l 0)))).2 st.candidates
    rw [h1]
    intro hm
    rcases List.mem_append.1 hm with hm | hm
    · simp [ipasir_solve, ipasir_assume, record] at hm
      exact h x hm
    · rcases h3 _ hm with ⟨a, b, hab⟩ | ⟨a, b, hab⟩ <;> exact Event.noConfusion hab

theorem solve_naive_noadd {σ : Type} (O : Ipasir σ) (s : σ) (bb : List Int) (N : Nat) :
    ∀ x : Int, Event.add x ∉ (solve_naive O ⟨s, [], []⟩ bb N 0).1.log := by
  unfold solve_naive
  simp only []
  refine foldl_range_inv (naive_pass2_body O 0) (fun _ a => ∀ x : Int, Event.add x ∉ a.1.log)
    1 N _ ?_ (fun k a _ ha => naive_pass2_body_noadd O a (1 + k) ha)
  exact foldl_range_inv (naive_pass1_body O 0) (fun _ a => ∀ x : Int, Event.add x ∉ a.1.log)
    1 N _ (fun x hx => by simp [printf] at hx)
    (fun k a _ ha => naive_pass1_body_noadd O a (1 + k) ha)

theorem solve_advanced_noadd {σ : Type} (O : Ipasir σ) (s : σ) (bb : List Int) (N : Nat) :
    ∀ x : Int, Event.add x ∉ (solve_advanced O ⟨s, [], []⟩ bb N 0).env.log := by
  unfold solve_advanced
  simp only []
  refine foldl_range_inv (advanced_body O N 0) (fun _ a => ∀ x : Int, Event.add x ∉ a.env.log)
    1 N _ ?_ (fun k a _ ha => advanced_body_noadd O N a (1 + k) ha)
  obtain ⟨extra, h1, -, h3⟩ := advanced_init_inert O 1 N
    (printf (⟨s, [], []⟩ : Env σ) (Out.algo23 (decide ((0 : Int) ≠ 0)))) (List.replicate (N + 1) 0)
  intro x hm
  simp only [] at hm
  rw [h1] at hm
  rcases List.mem_append.1 hm with hm | hm
  · simp [printf] at hm
  · rcases h3 _ hm with ⟨a, b, hab⟩ | ⟨a, b, hab⟩ <;> exact Event.noConfusion hab

/-- C18: for a correct oracle whose solver holds (a database equivalent to) `F`, the
record of `solve_naive` and of `solve_advanced` is sound for injection: the final content
of the solver is the replay of the recorded calls; the record splits into blocks, and
every block containing an `add` call is exactly `assume(-x)`, `solve` answering UNSAT,
the store of `x`, `add(x)`, `add(0)` for a non-zero literal `x` entailed by `F`; after
every initial part of the record the database extends the initial one and is equivalent
to `F`. With `inject = 0` neither record contains an `add` call. -/
theorem injection_adds_implied_units {σ : Type} (O : Ipasir σ) (view : σ → View)
    (hO : Correct O view) (F : List (List Int)) (s : σ) (hs : Holds view F s)
    (backbone : List Int) (maxVar : Nat) (inject : Int) :
    InjectionSound F (view s) (solve_naive O ⟨s, [], []⟩ backbone maxVar inject).1.log
      (view (solve_naive O ⟨s, [], []⟩ backbone maxVar inject).1.solver) ∧
    InjectionSound F (view s) (solve_advanced O ⟨s, [], []⟩ backbone maxVar inject).env.log
      (view (solve_advanced O ⟨s, [], []⟩ backbone maxVar inject).env.solver) ∧
    (inject = 0 →
      (∀ x : Int, Event.add x ∉ (solve_naive O ⟨s, [], []⟩ backbone maxVar inject).1.log) ∧
      (∀ x : Int,
        Event.add x ∉ (solve_advanced O ⟨s, [], []⟩ backbone maxVar inject).env.log)) := by
  refine ⟨(solve_naive_inj hO s hs backbone maxVar inject).2,
    (solve_advanced_inj hO s hs backbone maxVar inject).2, ?_⟩
  rintro rfl
  exact ⟨solve_naive_noadd O s backbone maxVar, solve_advanced_noadd O s backbone maxVar⟩

theorem injection_adds_implied_units_witness :
    (solve_naive (bruteOracle []) ⟨bruteWith [[1, 2], [-1, 2]], [], []⟩ [0, 0, 0] 2 1).1.log =
      [Event.assume (-1), Event.solve SAT,
       Event.assume (-2), Event.solve UNSAT, Event.store 2 2, Event.add 2, Event.add 0,
       Event.assume 1, Event.solve SAT] ∧
    InjectionSound [[1, 2], [-1, 2]] (bruteWith [[1, 2], [-1, 2]]).view
      (solve_naive (bruteOracle []) ⟨bruteWith [[1, 2], [-1, 2]], [], []⟩ [0, 0, 0] 2 1).1.log
      (solve_naive (bruteOracle []) ⟨bruteWith [[1, 2], [-1, 2]], [], []⟩ [0, 0, 0] 2
        1).1.solver.view :=
  ⟨by decide, (injection_adds_implied_units (bruteOracle []) (fun s => s.view)
    (brute_correct []) [[1, 2], [-1, 2]] (bruteWith [[1, 2], [-1, 2]]) ⟨fun _ => rfl, rfl⟩
    [0, 0, 0] 2 1).1⟩

/-! ## Filtering saves solve calls -/

theorem advanced_filter_live {σ : Type} (O : Ipasir σ) (N l : Nat) (e : Env σ)
    (cands : List Int) (hlen : cands.length = N + 1) :
    ((List.range' (l + 1) (N - l)).foldl (advanced_filter_body O) (e, cands)).2.length
      = N + 1 ∧
    ∀ (idx : Nat) (old : Int),
      Event.filter idx old ∈
        ((List.range' (l + 1) (N - l)).foldl (advanced_filter_body O) (e, cands)).1.log →
      Event.filter idx old ∈ e.log ∨
      (l < idx ∧ idx ≤ N ∧
        ((List.range' (l + 1) (N - l)).foldl (advanced_filter_body O)
          (e, cands)).2.getD idx 0 = 0) := by
  refine foldl_range_inv (advanced_filter_body O)
    (fun _ a => a.2.length = N + 1 ∧
      ∀ (idx : Nat) (old : Int), Event.filter idx old ∈ a.1.log →
        Event.filter idx old ∈ e.log ∨ (l < idx ∧ idx ≤ N ∧ a.2.getD idx 0 = 0))
    (l + 1) (N - l) (e, cands) ⟨hlen, fun _ _ h => Or.inl h⟩ ?_
  rintro k a hk ⟨h1, h2⟩
  unfold advanced_filter_body
  simp only []
  split_ifs with hne
  · refine ⟨by rw [List.length_set]; exact h1, fun idx old hm => ?_⟩
    simp only [ipasir_val, record, List.mem_append, List.mem_singleton] at hm
    rw [getD_set]
    rcases hm with (hm | hm) | hm
    · rcases h2 idx old hm with h | ⟨ha, hb, hc⟩
      · exact Or.inl h
      · refine Or.inr ⟨ha, hb, ?_⟩
        split_ifs
        · rfl
        · exact hc
    · exact Event.noConfusion hm
    · injection hm with hi ho
      subst hi
      refine Or.inr ⟨by omega, by omega, ?_⟩
      rw [if_pos ⟨rfl, by omega⟩]
  · refine ⟨h1, fun idx old hm => ?_⟩
    simp only [ipasir_val, record, List.mem_append, List.mem_singleton] at hm
    rcases hm with hm | hm
    · exact h2 idx old hm
    · exact Event.noConfusion hm

/-- One step of the main loop of `solve_advanced` keeps the account of solve calls: at
most one call per step, and none at the step of an index that was filtered. -/
theorem advanced_body_saves {σ : Type} (O : Ipasir σ) (N : Nat) (inject : Int) (c k : Nat)
    (st : AdvState σ)
    (h : st.candidates.length = N + 1 ∧ solveCount st.env.log ≤ c + k ∧
      ∀ (idx : Nat) (old : Int), Event.filter idx old ∈ st.env.log →
        solveCount st.env.log + 1 ≤ c + k ∨
        ∃ j : Nat, k < j ∧ j ≤ N ∧ st.candidates.getD j 0 = 0) :
    (advanced_body O N inject st (1 + k)).candidates.length = N + 1 ∧
    solveCount (advanced_body O N inject st (1 + k)).env.log ≤ c + (k + 1) ∧
    ∀ (idx : Nat) (old : Int),
      Event.filter idx old ∈ (advanced_body O N inject st (1 + k)).env.log →
      solveCount (advanced_body O N inject st (1 + k)).env.log + 1 ≤ c + (k + 1) ∨
      ∃ j : Nat, k + 1 < j ∧ j ≤ N ∧
        (advanced_body O N inject st (1 + k)).candidates.getD j 0 = 0 := by
  obtain ⟨h1, h2, h3⟩ := h
  have hcount := advanced_body_count O N inject st (1 + k)
  refine ⟨?_, by omega, ?_⟩
  · unfold advanced_body
    simp only []
    split_ifs
    · exact h1
    · exact h1
    · exact h1
    · exact (advanced_filter_live O N (1 + k) _ st.candidates h1).1
  · unfold advanced_body at hcount ⊢
    simp only [] at hcount ⊢
    split_ifs at hcount ⊢ with hc hun hinj
    · intro idx old hm
      left
      omega
    · intro idx old hm
      have hm2 : Event.filter idx old ∈ st.env.log := by
        simpa [ipasir_add, ipasir_solve, ipasir_assume, record, storeBackbone] using hm
      rcases h3 idx old hm2 with h | ⟨j, hj1, hj2, hj3⟩
      · left; omega
      · right
        refine ⟨j, ?_, hj2, hj3⟩
        rcases Nat.lt_or_ge (k + 1) j with h | h
        · exact h
        · have : j = 1 + k := by omega
          rw [this] at hj3
          exact absurd hj3 hc
    · intro idx old hm
      have hm2 : Event.filter idx old ∈ st.env.log := by
        simpa [ipasir_add, ipasir_solve, ipasir_assume, record, storeBackbone] using hm
      rcases h3 idx old hm2 with h | ⟨j, hj1, hj2, hj3⟩
      · left; omega
      · right
        refine ⟨j, ?_, hj2, hj3⟩
        rcases Nat.lt_or_ge (k + 1) j with h | h
        · exact h
        · have : j = 1 + k := by omega
          rw [this] at hj3
          exact absurd hj3 hc
    · intro idx old hm
      rcases (advanced_filter_live O N (1 + k)
        (ipasir_solve O (ipasir_assume O st.env (-(st.candidates.getD (1 + k) 0)))).2
        st.candidates h1).2 idx old hm with hm2 | ⟨ha, hb, hc2⟩
      · have hm3 : Event.filter idx old ∈ st.env.log := by
          simpa [ipasir_solve, ipasir_assume, record] using hm2
        rcases h3 idx old hm3 with h | ⟨j, hj1, hj2, hj3⟩
        · left; omega
        · right
          refine ⟨j, ?_, hj2, ?_⟩
          · rcases Nat.lt_or_ge (k + 1) j with h | h
            · exact h
            · have : j = 1 + k := by omega
              rw [this] at hj3
              exact absurd hj3 hc
          · rcases (advanced_filter_cands O (1 + k + 1) (N - (1 + k))
              (ipasir_solve O (ipasir_assume O st.env (-(st.candidates.getD (1 + k) 0)))).2
              st.candidates j).1 with h | h
            · rw [h]; exact hj3
            · exact h.2
      · right
        exact ⟨idx, by omega, hb, hc2⟩

theorem advanced_init_nofilter {σ : Type} (O : Ipasir σ) (N : Nat) (e : Env σ)
    (he : ∀ (idx : Nat) (old : Int), Event.filter idx old ∉ e.log) :
    ((List.range' 1 N).foldl (advanced_init_body O) (e, List.replicate (N + 1) 0)).2.length
      = N + 1 ∧
    solveCount ((List.range' 1 N).foldl (advanced_init_body O)
      (e, List.replicate (N + 1) 0)).1.log = solveCount e.log ∧
    ∀ (idx : Nat) (old : Int), Event.filter idx old ∉
      ((List.range' 1 N).foldl (advanced_init_body O) (e, List.replicate (N + 1) 0)).1.log := by
  refine foldl_range_inv (advanced_init_body O)
    (fun _ a => a.2.length = N + 1 ∧ solveCount a.1.log = solveCount e.log ∧
      ∀ (idx : Nat) (old : Int), Event.filter idx old ∉ a.1.log)
    1 N (e, List.replicate (N + 1) 0) ⟨by simp, rfl, he⟩ ?_
  rintro k a _ ⟨h1, h2, h3⟩
  refine ⟨?_, ?_, ?_⟩
  · simp only [advanced_init_body]
    rw [List.length_set]; exact h1
  · rw [advanced_init_body_count]; exact h2
  · intro idx old hm
    simp only [advanced_init_body, ipasir_val, record, List.mem_append,
      List.mem_singleton] at hm
    rcases hm with hm | hm
    · exact h3 idx old hm
    · exact Event.noConfusion hm

/-- A run of `solve_advanced` in which a filtering write occurs issues at most
`maxVar - 1` solve calls. -/
theorem solve_advanced_saves {σ : Type} (O : Ipasir σ) (e : Env σ)
    (he : ∀ (idx : Nat) (old : Int), Event.filter idx old ∉ e.log)
    (bb : List Int) (N : Nat) (inject : Int)
    (hf : ∃ (idx : Nat) (old : Int),
      Event.filter idx old ∈ (solve_advanced O e bb N inject).env.log) :
    solveCount (solve_advanced O e bb N inject).env.log + 1 ≤ solveCount e.log + N := by
  obtain ⟨i1, i2, i3⟩ := advanced_init_nofilter O N
    (printf e (Out.algo23 (decide (inject ≠ 0)))) he
  have key := foldl_range_inv (advanced_body O N inject)
    (fun k st => st.candidates.length = N + 1 ∧
      solveCount st.env.log ≤ solveCount e.log + k ∧
      ∀ (idx : Nat) (old : Int), Event.filter idx old ∈ st.env.log →
        solveCount st.env.log + 1 ≤ solveCount e.log + k ∨
        ∃ j : Nat, k < j ∧ j ≤ N ∧ st.candidates.getD j 0 = 0)
    1 N
    { env := ((List.range' 1 N).foldl (advanced_init_body O)
        (printf e (Out.algo23 (decide (inject ≠ 0))), List.replicate (N + 1) 0)).1,
      backbone := bb,
      candidates := ((List.range' 1 N).foldl (advanced_init_body O)
        (printf e (Out.algo23 (decide (inject ≠ 0))), List.replicate (N + 1) 0)).2 }
    ⟨i1, Nat.le_of_eq i2, fun idx old hm => absurd hm (i3 idx old)⟩
    (fun k st _ h => advanced_body_saves O N inject (solveCount e.log) k st h)
  obtain ⟨idx, old, hm⟩ := hf
  rcases key.2.2 idx old hm with h | ⟨j, hj1, hj2, -⟩
  · exact h
  · omega

theorem naive_pass2_body_lb {σ : Type} (O : Ipasir σ) (inject : Int)
    (st : Env σ × List Int) (i : Nat) :
    solveCount st.1.log ≤ solveCount (naive_pass2_body O inject st i).1.log ∧
    (st.2.getD i 0 = 0 →
      solveCount (naive_pass2_body O inject st i).1.log = solveCount st.1.log + 1) ∧
    ∀ v : Nat, v ≠ i → (naive_pass2_body O inject st i).2.getD v 0 = st.2.getD v 0 := by
  unfold naive_pass2_body
  simp only []
  split_ifs with hbb hun hinj
  · exact ⟨Nat.le_refl _, fun h => absurd h hbb, fun _ _ => rfl⟩
  · refine ⟨by simp [solveCount_append, solveCount], fun _ => by
      simp [solveCount_append, solveCount], fun v hv => ?_⟩
    simp only [storeBackbone, Int.natAbs_ofNat]
    rw [getD_set, if_neg (fun h => hv h.1)]
  · refine ⟨by simp [solveCount_append, solveCount], fun _ => by
      simp [solveCount_append, solveCount], fun v hv => ?_⟩
    simp only [storeBackbone, Int.natAbs_ofNat]
    rw [getD_set, if_neg (fun h => hv h.1)]
  · exact ⟨by simp [solveCount_append, solveCount], fun _ => by
      simp [solveCount_append, solveCount], fun _ _ => rfl⟩

/-- Against a correct oracle, `solve_naive` issues more than `maxVar` solve calls as soon
as one variable is not forced true: the second pass queries it. -/
theorem solve_naive_count_lb {σ : Type} {O : Ipasir σ} {view : σ → View} (hO : Correct O view)
    {F : List (List Int)} (inject : Int) (e : Env σ) (hs : Holds view F e.solver)
    (bb0 : List Int) (h0 : ∀ v : Nat, bb0.getD v 0 = 0) (N j : Nat) (hj1 : 1 ≤ j)
    (hjN : j ≤ N) (hj : ¬ AlwaysTrue F j) :
    solveCount e.log + N + 1 ≤ solveCount (solve_naive O e bb0 N inject).1.log := by
  have hp1 := naive_pass1_spec hO.toSolveCorrect inject (fun _ => hO.toAddCorrect)
    (printf e (Out.algo1 (decide (inject ≠ 0)))) bb0 N hs h0
  have hc1 := foldl_range_inv (naive_pass1_body O inject)
    (fun k a => solveCount a.1.log = solveCount e.log + k) 1 N
    (printf e (Out.algo1 (decide (inject ≠ 0))), bb0) rfl
    (fun k a _ h => by
      show solveCount (naive_pass1_body O inject a (1 + k)).1.log = _
      rw [naive_pass1_body_count, h]; omega)
  have hz := (hp1.2.2 j).2 (fun h => hj h.2.2.2)
  unfold solve_naive
  simp only []
  have key := foldl_range_inv (naive_pass2_body O inject)
    (fun k a => solveCount e.log + N + (if j ≤ k then 1 else 0) ≤ solveCount a.1.log ∧
      ∀ v : Nat, k < v → a.2.getD v 0 =
        ((List.range' 1 N).foldl (naive_pass1_body O inject)
          (printf e (Out.algo1 (decide (inject ≠ 0))), bb0)).2.getD v 0)
    1 N ((List.range' 1 N).foldl (naive_pass1_body O inject)
      (printf e (Out.algo1 (decide (inject ≠ 0))), bb0)) ?_ ?_
  · have := key.1
    rw [if_pos hjN] at this
    exact this
  · refine ⟨?_, fun _ _ => rfl⟩
    rw [if_neg (by omega), hc1]; omega
  · rintro k a _ ⟨g1, g2⟩
    obtain ⟨b1, b2, b3⟩ := naive_pass2_body_lb O inject a (1 + k)
    refine ⟨?_, fun v hv => by rw [b3 v (by omega)]; exact g2 v (by omega)⟩
    by_cases hjk : j ≤ k
    · rw [if_pos hjk] at g1
      rw [if_pos (by omega)]
      omega
    · rw [if_neg hjk] at g1
      by_cases hjk1 : j ≤ k + 1
      · rw [if_pos hjk1]
        have hjeq : j = 1 + k := by omega
        have hzero : a.2.getD (1 + k) 0 = 0 := by
          rw [g2 (1 + k) (by omega), ← hjeq]; exact hz
        rw [b2 hzero]
        omega
      · rw [if_neg hjk1]
        omega

/-- Against a correct oracle, a filtering write of `solve_advanced` only hits a variable
in `1..maxVar` that is not forced true. -/
theorem advanced_filter_target {σ : Type} {O : Ipasir σ} {view : σ → View} (hO : ValCorrect O view)
    {F : List (List Int)} (s : σ)
    (hdb : ∀ m : Assignment, formulaSat m (view s).db = formulaSat m F)
    (hsat : (O.solve s).1 = SAT) (e : Env σ) (he : e.solver = (O.solve s).2)
    (cands : List Int) (l N : Nat)
    (hc : ∀ j : Nat, 1 ≤ j → l < j → j ≤ N → CandOk F j (cands.getD j 0))
    (idx : Nat) (old : Int)
    (hm : Event.filter idx old ∈
      ((List.range' (l + 1) (N - l)).foldl (advanced_filter_body O) (e, cands)).1.log) :
    Event.filter idx old ∈ e.log ∨ (1 ≤ idx ∧ idx ≤ N ∧ ¬ AlwaysTrue F idx) := by
  have key := foldl_range_inv (advanced_filter_body O)
    (fun _ a => a.1.solver = (O.solve s).2 ∧
      (∀ j : Nat, 1 ≤ j → l < j → j ≤ N → CandOk F j (a.2.getD j 0)) ∧
      ∀ (idx : Nat) (old : Int), Event.filter idx old ∈ a.1.log →
        Event.filter idx old ∈ e.log ∨ (1 ≤ idx ∧ idx ≤ N ∧ ¬ AlwaysTrue F idx))
    (l + 1) (N - l) (e, cands) ⟨he, hc, fun _ _ h => Or.inl h⟩ ?_
  · exact key.2.2 idx old hm
  · rintro k a hk ⟨hs, hinv, hlog⟩
    have hlit : 1 ≤ l + 1 + k := by omega
    have hval := val_candOk hO s hdb hsat (l + 1 + k) hlit
    have hold := hinv (l + 1 + k) hlit (by omega) (by omega)
    unfold advanced_filter_body
    simp only [ipasir_val_res, ipasir_val_solver]
    split_ifs with hne
    · refine ⟨by simpa using hs, fun j hj hlj hjN => ?_, fun i2 o2 hm2 => ?_⟩
      · simp only []
        rw [getD_set]
        by_cases hj2 : j = l + 1 + k ∧ l + 1 + k < a.2.length
        · rw [if_pos hj2]
          obtain ⟨rfl, _⟩ := hj2
          rw [hs] at hne
          exact candOk_zero hold hval hne
        · rw [if_neg hj2]
          exact hinv j hj hlj hjN
      · simp only [ipasir_val, record, List.mem_append, List.mem_singleton] at hm2
        rcases hm2 with (hm2 | hm2) | hm2
        · exact hlog i2 o2 hm2
        · exact Event.noConfusion hm2
        · injection hm2 with hi ho
          subst hi
          rw [hs] at hne
          have hz := candOk_zero hold hval hne
          refine Or.inr ⟨hlit, by omega, fun hA => ?_⟩
          have := hz.2.1 hA
          omega
    · refine ⟨by simpa using hs, hinv, fun i2 o2 hm2 => ?_⟩
      simp only [ipasir_val, record, List.mem_append, List.mem_singleton] at hm2
      rcases hm2 with hm2 | hm2
      · exact hlog i2 o2 hm2
      · exact Event.noConfusion hm2

theorem advanced_body_target {σ : Type} {O : Ipasir σ} {view : σ → View}
    (hO : SolveCorrect O view) (hV : ValCorrect O view)
    {F : List (List Int)} (N : Nat) (inject : Int) (st : AdvState σ)
    (l : Nat) (hs : Holds view F st.env.solver)
    (hc : ∀ j : Nat, 1 ≤ j → l < j → j ≤ N → CandOk F j (st.candidates.getD j 0))
    (idx : Nat) (old : Int)
    (hm : Event.filter idx old ∈ (advanced_body O N inject st l).env.log) :
    Event.filter idx old ∈ st.env.log ∨ (1 ≤ idx ∧ idx ≤ N ∧ ¬ AlwaysTrue F idx) := by
  unfold advanced_body at hm
  simp only [] at hm
  split_ifs at hm with h0 h1 h2
  · exact Or.inl hm
  · left
    simpa [ipasir_add, ipasir_solve, ipasir_assume, record, storeBackbone] using hm
  · left
    simpa [ipasir_add, ipasir_solve, ipasir_assume, record, storeBackbone] using hm
  · simp only [ipasir_solve_res, ipasir_assume_solver] at h1
    have hsat : (O.solve (O.assume st.env.solver (-(st.candidates.getD l 0)))).1 = SAT :=
      (solve_sat_or_unsat hO _).resolve_right h1
    have hdb : ∀ m : Assignment,
        formulaSat m (view (O.assume st.env.solver (-(st.candidates.getD l 0)))).db
          = formulaSat m F := by
      intro m; rw [hO.assume_view]; exact hs.1 m
    rcases advanced_filter_target hV _ hdb hsat
      (ipasir_solve O (ipasir_assume O st.env (-(st.candidates.getD l 0)))).2 rfl
      st.candidates l N hc idx old hm with h | h
    · left
      simpa [ipasir_solve, ipasir_assume, record] using h
    · exact Or.inr h

/-- Against a correct oracle that has just answered SAT, every filtering write of a run
of `solve_advanced` hits a variable in `1..maxVar` that is not forced true. -/
theorem solve_advanced_target {σ : Type} {O : Ipasir σ} {view : σ → View} (hO : Correct O view)
    {F : List (List Int)} (s : σ)
    (hdb : ∀ m : Assignment, formulaSat m (view s).db = formulaSat m F)
    (hsat : (O.solve s).1 = SAT) (inject : Int) (e : Env σ) (he : e.solver = (O.solve s).2)
    (hlog : ∀ (idx : Nat) (old : Int), Event.filter idx old ∉ e.log)
    (bb0 : List Int) (N : Nat) (idx : Nat) (old : Int)
    (hm : Event.filter idx old ∈ (solve_advanced O e bb0 N inject).env.log) :
    1 ≤ idx ∧ idx ≤ N ∧ ¬ AlwaysTrue F idx := by
  have hs0 : Holds view F (O.solve s).2 :=
    ⟨fun m => by rw [hO.solve_view]; exact hdb m, by rw [hO.solve_view]⟩
  obtain ⟨hi1, hi2⟩ := advanced_init_spec hO.toValCorrect s hdb hsat
    (printf e (Out.algo23 (decide (inject ≠ 0)))) he N
  obtain ⟨-, -, hi3⟩ := advanced_init_nofilter O N
    (printf e (Out.algo23 (decide (inject ≠ 0)))) hlog
  have key := foldl_range_inv (advanced_body O N inject)
    (fun k a => Holds view F a.env.solver ∧
      (∀ j : Nat, 1 ≤ j → k < j → j ≤ N → CandOk F j (a.candidates.getD j 0)) ∧
      ∀ (idx : Nat) (old : Int), Event.filter idx old ∈ a.env.log →
        1 ≤ idx ∧ idx ≤ N ∧ ¬ AlwaysTrue F idx)
    1 N
    { env := ((List.range' 1 N).foldl (advanced_init_body O)
        (printf e (Out.algo23 (decide (inject ≠ 0))), List.replicate (N + 1) 0)).1,
      backbone := bb0,
      candidates := ((List.range' 1 N).foldl (advanced_init_body O)
        (printf e (Out.algo23 (decide (inject ≠ 0))), List.replicate (N + 1) 0)).2 } ?_ ?_
  · exact key.2.2 idx old hm
  · refine ⟨?_, fun j hj _ hjN => hi2 j hj hjN, fun i2 o2 h => absurd h (hi3 i2 o2)⟩
    show Holds view F _
    rw [hi1]; exact hs0
  · rintro k a hk ⟨hh, hc, hl⟩
    obtain ⟨b1, b2, -⟩ := advanced_body_spec hO.toSolveCorrect hO.toValCorrect N inject
      (fun _ => hO.toAddCorrect) a (1 + k) (by omega) (by omega) hh
      (fun j hj hlj hjN => hc j hj (by omega) hjN)
    refine ⟨b1, fun j hj hlj hjN => b2 j hj (by omega) hjN, fun i2 o2 hm2 => ?_⟩
    rcases advanced_body_target hO.toSolveCorrect hO.toValCorrect N inject a (1 + k) hh
      (fun j hj hlj hjN => hc j hj (by omega) hjN) i2 o2 hm2 with h | h
    · exact hl i2 o2 h
    · exact h

/-- C15: for a satisfiable formula `F` held by a correct oracle, if during
`solve_advanced` (run, as in `main`, right after the precondition solve) a live candidate
(`old` non-zero) is set to `0` by filtering, then the advanced run, precondition solve
included, issues strictly fewer solve calls than `solve_naive` issues on the same
formula. -/
theorem advanced_cheaper_when_filtering {σ : Type} (O : Ipasir σ) (view : σ → View)
    (hO : Correct O view) (F : List (List Int)) (hF : Satisfiable F) (s : σ)
    (hs : Holds view F s) (maxVar : Nat) (injectA injectN : Int)
    (hfilter : ∃ (idx : Nat) (old : Int), old ≠ 0 ∧
      Event.filter idx old ∈
        (solve_advanced O (ipasir_solve O ⟨s, [], []⟩).2 (List.replicate (maxVar + 1) 0)
          maxVar injectA).env.log) :
    solveCount (solve_advanced O (ipasir_solve O ⟨s, [], []⟩).2
        (List.replicate (maxVar + 1) 0) maxVar injectA).env.log <
      solveCount (solve_naive O ⟨(O.solve s).2, [], []⟩
        (List.replicate (maxVar + 1) 0) maxVar injectN).1.log := by
  obtain ⟨m, hm⟩ := hF
  have hsat : (O.solve s).1 = SAT :=
    hO.solve_sat s ⟨m, by rw [hs.1 m]; exact hm, by rw [hs.2]; rfl⟩
  have hs0 : Holds view F (O.solve s).2 :=
    ⟨fun m => by rw [hO.solve_view]; exact hs.1 m, by rw [hO.solve_view]⟩
  have hnof : ∀ (idx : Nat) (old : Int),
      Event.filter idx old ∉ (ipasir_solve O (⟨s, [], []⟩ : Env σ)).2.log := by
    intro idx old h
    simp [ipasir_solve, record] at h
  obtain ⟨idx, old, -, hmem⟩ := hfilter
  have hA := solve_advanced_saves O (ipasir_solve O (⟨s, [], []⟩ : Env σ)).2 hnof
    (List.replicate (maxVar + 1) 0) maxVar injectA ⟨idx, old, hmem⟩
  obtain ⟨t1, t2, t3⟩ := solve_advanced_target hO s hs.1 hsat injectA
    (ipasir_solve O (⟨s, [], []⟩ : Env σ)).2 rfl hnof (List.replicate (maxVar + 1) 0) maxVar
    idx old hmem
  have hB := solve_naive_count_lb hO injectN (⟨(O.solve s).2, [], []⟩ : Env σ) hs0
    (List.replicate (maxVar + 1) 0) (getD_replicate_zero _) maxVar idx t1 t2 t3
  have h1 : solveCount (ipasir_solve O (⟨s, [], []⟩ : Env σ)).2.log = 1 := by
    simp [ipasir_solve, record, solveCount]
  have h2 : solveCount (⟨(O.solve s).2, [], []⟩ : Env σ).log = 0 := rfl
  omega

theorem advanced_cheaper_when_filtering_witness :
    Event.filter 2 2 ∈
      (solve_advanced (bruteOracle []) (ipasir_solve (bruteOracle []) ⟨bruteWith [[1, 2]], [], []⟩).2
        (List.replicate (2 + 1) 0) 2 0).env.log ∧
    solveCount (solve_advanced (bruteOracle [])
        (ipasir_solve (bruteOracle []) ⟨bruteWith [[1, 2]], [], []⟩).2
        (List.replicate (2 + 1) 0) 2 0).env.log <
      solveCount (solve_naive (bruteOracle [])
        ⟨((bruteOracle []).solve (bruteWith [[1, 2]])).2, [], []⟩
        (List.replicate (2 + 1) 0) 2 0).1.log :=
  ⟨by decide, advanced_cheaper_when_filtering (bruteOracle []) (fun s => s.view)
    (brute_correct []) [[1, 2]] ⟨fun _ => true, by decide⟩ (bruteWith [[1, 2]])
    ⟨fun _ => rfl, rfl⟩ 2 0 0 ⟨2, 2, by decide, by decide⟩⟩

/-! ## The loader on well-formed input -/

theorem wrap32_id (x : Int) (h1 : -2147483648 ≤ x) (h2 : x ≤ 2147483647) : wrap32 x = x := by
  unfold wrap32; omega

theorem isdigit_iff (c : Int) : isdigit c = true ↔ 48 ≤ c ∧ c ≤ 57 := by
  simp [isdigit]

theorem isspace_iff (c : Int) : isspace c = true ↔ c = 32 ∨ (9 ≤ c ∧ c ≤ 13) := by
  simp [isspace]

theorem readDigits_digit (num c : Int) (f : List Char) (h : isdigit c = true) :
    readDigits num c f =
      readDigits (wrap32 (num * 10 + (c - 48))) (fgetc f).1 (fgetc f).2 := by
  cases f with
  | nil =>
    have hE : isdigit EOF = false := by decide
    simp only [readDigits, fgetc, h, hE, if_true]
    rfl
  | cons ch t => simp [readDigits, fgetc, h]

theorem readDigits_stop (num c : Int) (f : List Char) (h : isdigit c = false) :
    readDigits num c f = (num, c, f) := by
  cases f with
  | nil => simp [readDigits, h]
  | cons ch t => simp [readDigits, h]

theorem decimalValue_cons (acc : Int) (d : Char) (ds : List Char) :
    decimalValue acc (d :: ds) = decimalValue (acc * 10 + ((d.toNat : Int) - 48)) ds := rfl

theorem decimalValue_ge : ∀ (ds : List Char) (acc : Int), 0 ≤ acc →
    (∀ ch ∈ ds, isdigit (ch.toNat : Int) = true) → acc ≤ decimalValue acc ds := by
  intro ds
  induction ds with
  | nil => intro acc _ _; exact le_refl _
  | cons d ds ih =>
    intro acc h0 hd
    rw [decimalValue_cons]
    have hdd := (isdigit_iff _).1 (hd d (List.mem_cons_self _ _))
    have := ih (acc * 10 + ((d.toNat : Int) - 48)) (by omega)
      (fun ch hch => hd ch (List.mem_cons_of_mem _ hch))
    omega

/-- The digit-reading loop computes the value of the numeral in front of it. -/
theorem readDigits_numeral : ∀ (ds : List Char) (acc : Int) (tail : List Char),
    (∀ ch ∈ ds, isdigit (ch.toNat : Int) = true) → 0 ≤ acc →
    decimalValue acc ds ≤ 2147483647 → isdigit (fgetc tail).1 = false →
    readDigits acc (fgetc (ds ++ tail)).1 (fgetc (ds ++ tail)).2 =
      (decimalValue acc ds, (fgetc tail).1, (fgetc tail).2) := by
  intro ds
  induction ds with
  | nil =>
    intro acc tail _ _ _ ht
    exact readDigits_stop _ _ _ ht
  | cons d ds ih =>
    intro acc tail hd h0 hmax ht
    have hdd := (isdigit_iff _).1 (hd d (List.mem_cons_self _ _))
    have hds : ∀ ch ∈ ds, isdigit (ch.toNat : Int) = true :=
      fun ch hch => hd ch (List.mem_cons_of_mem _ hch)
    rw [decimalValue_cons] at hmax ⊢
    have hge := decimalValue_ge ds (acc * 10 + ((d.toNat : Int) - 48)) (by omega) hds
    show readDigits acc (d.toNat : Int) (ds ++ tail) = _
    rw [readDigits_digit _ _ _ (hd d (List.mem_cons_self _ _)),
      wrap32_id _ (by omega) (by omega)]
    exact ih _ tail hds (by omega) hmax ht

theorem fgetc_code_ne_EOF (ch : Char) : (ch.toNat : Int) ≠ EOF := by
  unfold EOF; omega

/-- The iteration of the loader loop that reads a numeral. -/
theorem loadIter_numeral {σ : Type} (O : Ipasir σ) (st : LoadState σ) (ds tail : List Char)
    (hf : st.f = ds ++ tail) (hwf : wfNumeral ds = true)
    (hmax : decimalValue 0 ds ≤ 2147483647) (ht : isdigit (fgetc tail).1 = false)
    (hnc1 : -2147483648 ≤ st.numClauses)
    (hnc2 : st.numClauses + (if numeralValue st.neg ds = 0 then 1 else 0) ≤ 2147483647) :
    ∃ st1, loadIter O st = some st1 ∧ st1.env = ipasir_add O st.env (numeralValue st.neg ds) ∧
      st1.f = (fgetc tail).2 ∧ st1.c = (fgetc tail).1 ∧ st1.neg = false ∧
      st1.maxVar = max st.maxVar ((numeralValue st.neg ds).natAbs : Int) ∧
      st1.numClauses = st.numClauses + (if numeralValue st.neg ds = 0 then 1 else 0) := by
  cases ds with
  | nil => simp [wfNumeral] at hwf
  | cons d ds =>
    simp only [wfNumeral, List.isEmpty_cons, Bool.not_false, Bool.true_and, List.all_eq_true]
      at hwf
    have hdd := (isdigit_iff _).1 (hwf d (List.mem_cons_self _ _))
    have hds : ∀ ch ∈ ds, isdigit (ch.toNat : Int) = true :=
      fun ch hch => hwf ch (List.mem_cons_of_mem _ hch)
    rw [decimalValue_cons] at hmax
    have hge := decimalValue_ge ds (0 * 10 + ((d.toNat : Int) - 48)) (by omega) hds
    have hrd := readDigits_numeral ds ((d.toNat : Int) - 48) tail hds (by omega)
      (by simpa using hmax) ht
    have hval : decimalValue 0 (d :: ds) = decimalValue ((d.toNat : Int) - 48) ds := by
      rw [decimalValue_cons]; simp
    have hv0 : 0 ≤ decimalValue 0 (d :: ds) := by rw [decimalValue_cons]; omega
    have hv1 : decimalValue 0 (d :: ds) ≤ 2147483647 := by rw [decimalValue_cons]; exact hmax
    have hnum : (if st.neg then wrap32 (decimalValue ((d.toNat : Int) - 48) ds * (-1))
        else decimalValue ((d.toNat : Int) - 48) ds) = numeralValue st.neg (d :: ds) := by
      unfold numeralValue
      rw [← hval]
      split_ifs
      · rw [wrap32_id _ (by omega) (by omega)]; ring
      · rfl
    have habs : c_abs (numeralValue st.neg (d :: ds)) =
        ((numeralValue st.neg (d :: ds)).natAbs : Int) := by
      unfold c_abs
      apply wrap32_id
      · omega
      · unfold numeralValue
        split_ifs <;> omega
    unfold loadIter
    simp only [hf, List.cons_append, fgetc]
    rw [if_neg (by omega), if_neg (by rw [Bool.not_eq_true, ← Bool.not_eq_true, isspace_iff]; omega),
      if_neg (by omega), if_pos ((isdigit_iff _).2 hdd)]
    have hrd2 : readDigits ((d.toNat : Int) - 48) (fgetc (ds ++ tail)).1 (fgetc (ds ++ tail)).2 =
        (decimalValue ((d.toNat : Int) - 48) ds, (fgetc tail).1, (fgetc tail).2) := hrd
    simp only [fgetc] at hrd2 ⊢
    rw [hrd2]
    simp only []
    rw [hnum, habs]
    refine ⟨_, rfl, rfl, rfl, rfl, rfl, ?_, ?_⟩
    · simp only []
      rcases le_or_lt st.maxVar ((numeralValue st.neg (d :: ds)).natAbs : Int) with h | h
      · rw [max_eq_right h]
        split_ifs with h2
        · rfl
        · omega
      · rw [max_eq_left (le_of_lt h)]
        split_ifs with h2
        · omega
        · rfl
    · simp only []
      split_ifs with h2
      · rw [if_pos h2] at hnc2
        exact wrap32_id _ (by omega) (by omega)
      · simp

theorem loadLoop_step {σ : Type} (O : Ipasir σ) (k : Nat) (st st1 : LoadState σ)
    (hc : st.c ≠ EOF) (h : loadIter O st = some st1) :
    loadLoop O (k + 1) st = loadLoop O k st1 := by
  simp only [loadLoop, if_neg hc, h]

theorem loadIter_space {σ : Type} (O : Ipasir σ) (st : LoadState σ) (ch : Char)
    (rest : List Char) (hf : st.f = ch :: rest) (hsp : isspace (ch.toNat : Int) = true) :
    loadIter O st = some { st with c := (ch.toNat : Int), f := rest } := by
  have h := (isspace_iff _).1 hsp
  unfold loadIter
  simp only [hf, fgetc]
  rw [if_neg (by omega), if_pos hsp]

theorem loadIter_minus {σ : Type} (O : Ipasir σ) (st : LoadState σ)
    (rest : List Char) (hf : st.f = '-' :: rest) :
    loadIter O st = some { st with c := 45, f := rest, neg := true } := by
  unfold loadIter
  simp only [hf, fgetc]
  have h45 : (('-' : Char).toNat : Int) = 45 := by decide
  rw [h45]
  rw [if_neg (by omega), if_neg (by decide), if_pos rfl]

theorem skipLine_body : ∀ (body rest : List Char),
    (∀ ch ∈ body, (ch.toNat : Int) ≠ 10) → skipLine (body ++ '\n' :: rest) = some rest := by
  intro body
  induction body with
  | nil =>
    intro rest _
    have h10 : (('\n' : Char).toNat : Int) = 10 := by decide
    simp [skipLine, h10]
  | cons b body ih =>
    intro rest h
    simp only [List.cons_append, skipLine]
    rw [if_neg (h b (List.mem_cons_self _ _))]
    exact ih rest (fun ch hch => h ch (List.mem_cons_of_mem _ hch))

theorem loadIter_skipped {σ : Type} (O : Ipasir σ) (st : LoadState σ) (first : Char)
    (body rest : List Char) (hf : st.f = first :: (body ++ '\n' :: rest))
    (h1 : (first.toNat : Int) = 99 ∨ (first.toNat : Int) = 112)
    (h2 : ∀ ch ∈ body, (ch.toNat : Int) ≠ 10) :
    loadIter O st = some { st with c := 10, f := rest } := by
  unfold loadIter
  simp only [hf, fgetc]
  rw [if_pos h1, skipLine_body body rest h2]

theorem loadIter_EOF {σ : Type} (O : Ipasir σ) (st : LoadState σ) (hf : st.f = []) :
    loadIter O st = some { st with c := EOF, f := [] } := by
  unfold loadIter
  simp only [hf, fgetc]
  rw [if_neg (by decide), if_neg (by decide), if_neg (by decide), if_neg (by decide)]

theorem decimalValue_le_of_range (neg : Bool) (ds : List Char) (hwf : wfNumeral ds = true)
    (h : (numeralValue neg ds).natAbs ≤ 2147483647) :
    0 ≤ decimalValue 0 ds ∧ decimalValue 0 ds ≤ 2147483647 := by
  simp only [wfNumeral, Bool.and_eq_true, List.all_eq_true] at hwf
  have h0 := decimalValue_ge ds 0 (le_refl _) hwf.2
  refine ⟨h0, ?_⟩
  unfold numeralValue at h
  split_ifs at h <;> omega

theorem count_zero_cons (v : Int) (vals : List Int) :
    (((v :: vals).count 0 : Nat) : Int) = (if v = 0 then 1 else 0) + ((vals.count 0 : Nat) : Int) := by
  rw [List.count_cons]
  by_cases h : v = 0
  · simp [h]; ring
  · simp [h]

/-- The loader loop works through well-formed pieces one by one. -/
theorem loadLoop_items {σ : Type} (O : Ipasir σ) : ∀ (items : List Item) (st : LoadState σ)
    (rest : List Char),
    st.c ≠ EOF → st.neg = false → st.f = (items.map Item.render).flatten ++ rest →
    (∀ it ∈ items, it.wf = true) →
    (∀ v ∈ items.filterMap Item.value, v.natAbs ≤ 2147483647) →
    -2147483648 ≤ st.numClauses →
    st.numClauses + (((items.filterMap Item.value).count 0 : Nat) : Int) ≤ 2147483647 →
    ∃ st1 : LoadState σ, st1.c ≠ EOF ∧ st1.neg = false ∧ st1.f = rest ∧
      st1.env = (items.filterMap Item.value).foldl (ipasir_add O) st.env ∧
      st1.maxVar = maxAbs st.maxVar (items.filterMap Item.value) ∧
      st1.numClauses = st.numClauses + (((items.filterMap Item.value).count 0 : Nat) : Int) ∧
      ∀ k : Nat, loadLoop O ((items.map Item.cost).sum + k) st = loadLoop O k st1 := by
  intro items
  induction items with
  | nil =>
    intro st rest hc hneg hf _ _ _ _
    exact ⟨st, hc, hneg, by simpa using hf, rfl, rfl, by simp, fun k => by simp⟩
  | cons it items ih =>
    intro st rest hc hneg hf hwf hrange hnc1 hnc2
    have hwf2 : ∀ it2 ∈ items, it2.wf = true := fun x hx => hwf x (List.mem_cons_of_mem _ hx)
    have hit := hwf it (List.mem_cons_self _ _)
    cases it with
    | space ch =>
      have hfm : (Item.space ch :: items).filterMap Item.value = items.filterMap Item.value := rfl
      rw [hfm] at hrange hnc2 ⊢
      have hstep := loadIter_space O st ch ((items.map Item.render).flatten ++ rest)
        (by rw [hf]; simp [Item.render]) hit
      obtain ⟨st1, a1, a2, a3, a4, a5, a6, a7⟩ := ih
        { st with c := (ch.toNat : Int), f := (items.map Item.render).flatten ++ rest } rest
        (fgetc_code_ne_EOF ch) hneg rfl hwf2 hrange hnc1 hnc2
      refine ⟨st1, a1, a2, a3, a4, a5, a6, fun k => ?_⟩
      rw [← a7 k]
      have : ((Item.space ch :: items).map Item.cost).sum + k
          = ((items.map Item.cost).sum + k) + 1 := by
        simp [Item.cost]; omega
      rw [this]
      exact loadLoop_step O _ st _ hc hstep
    | skipped first body =>
      have hfm : (Item.skipped first body :: items).filterMap Item.value
          = items.filterMap Item.value := rfl
      rw [hfm] at hrange hnc2 ⊢
      simp only [Item.wf, Bool.and_eq_true, Bool.or_eq_true, decide_eq_true_eq,
        List.all_eq_true] at hit
      have hstep := loadIter_skipped O st first body ((items.map Item.render).flatten ++ rest)
        (by rw [hf]; simp [Item.render]) hit.1 hit.2
      obtain ⟨st1, a1, a2, a3, a4, a5, a6, a7⟩ := ih
        { st with c := 10, f := (items.map Item.render).flatten ++ rest } rest
        (show (10 : Int) ≠ EOF by decide) hneg rfl hwf2 hrange hnc1 hnc2
      refine ⟨st1, a1, a2, a3, a4, a5, a6, fun k => ?_⟩
      rw [← a7 k]
      have : ((Item.skipped first body :: items).map Item.cost).sum + k
          = ((items.map Item.cost).sum + k) + 1 := by
        simp [Item.cost]; omega
      rw [this]
      exact loadLoop_step O _ st _ hc hstep
    | number neg ds sep =>
      have hfm : (Item.number neg ds sep :: items).filterMap Item.value
          = numeralValue neg ds :: items.filterMap Item.value := rfl
      rw [hfm] at hrange hnc2 ⊢
      simp only [Item.wf, Bool.and_eq_true] at hit
      obtain ⟨hwfn, hsep⟩ := hit
      have hsep2 := (isspace_iff _).1 hsep
      have hv := hrange _ (List.mem_cons_self _ _)
      have hdv := decimalValue_le_of_range neg ds hwfn hv
      have hrange2 : ∀ v ∈ items.filterMap Item.value, v.natAbs ≤ 2147483647 :=
        fun v hv => hrange v (List.mem_cons_of_mem _ hv)
      rw [count_zero_cons] at hnc2 ⊢
      have hcnt : (0 : Int) ≤ (((items.filterMap Item.value).count 0 : Nat) : Int) :=
        Int.ofNat_nonneg _
      have htail : isdigit (fgetc (sep :: ((items.map Item.render).flatten ++ rest))).1
          = false := by
        rw [← Bool.not_eq_true, isdigit_iff]
        simp only [fgetc]
        omega
      -- the state in front of the digits
      have hpre : ∃ st0 : LoadState σ, st0.c ≠ EOF ∧ st0.neg = neg ∧
          st0.f = ds ++ sep :: ((items.map Item.render).flatten ++ rest) ∧
          st0.env = st.env ∧ st0.maxVar = st.maxVar ∧ st0.numClauses = st.numClauses ∧
          ∀ k : Nat, loadLoop O ((Item.number neg ds sep).cost + k) st
            = loadLoop O (1 + k) st0 := by
        cases neg with
        | false =>
          refine ⟨st, hc, hneg, ?_, rfl, rfl, rfl, fun k => rfl⟩
          rw [hf]; simp [Item.render, renderNumeral]
        | true =>
          refine ⟨{ st with
                    c := 45, neg := true,
                    f := ds ++ sep :: ((items.map Item.render).flatten ++ rest) },
            (show (45 : Int) ≠ EOF by decide), rfl, rfl, rfl, rfl, rfl, fun k => ?_⟩
          have hstep := loadIter_minus O st (ds ++ sep :: ((items.map Item.render).flatten ++ rest))
            (by rw [hf]; simp [Item.render, renderNumeral])
          have : (Item.number true ds sep).cost + k = (1 + k) + 1 := by
            simp [Item.cost]; omega
          rw [this]
          exact loadLoop_step O _ st _ hc hstep
      obtain ⟨st0, p1, p2, p3, p4, p5, p6, p7⟩ := hpre
      obtain ⟨st2, q1, q2, q3, q4, q5, q6, q7⟩ := loadIter_numeral O st0 ds
        (sep :: ((items.map Item.render).flatten ++ rest)) p3 hwfn hdv.2 htail
        (by rw [p6]; exact hnc1) (by rw [p6, p2]; split_ifs at hnc2 ⊢ <;> omega)
      rw [p2] at q2 q6 q7
      rw [p4] at q2
      rw [p5] at q6
      rw [p6] at q7
      obtain ⟨st1, a1, a2, a3, a4, a5, a6, a7⟩ := ih st2 rest
        (by rw [q4]; exact fgetc_code_ne_EOF sep) q5 (by rw [q3]; rfl) hwf2 hrange2
        (by rw [q7]; split_ifs <;> omega) (by rw [q7]; split_ifs at hnc2 ⊢ <;> omega)
      refine ⟨st1, a1, a2, a3, ?_, ?_, ?_, fun k => ?_⟩
      · rw [a4, q2]; rfl
      · rw [a5, q6]; rfl
      · rw [a6, q7]; ring
      · rw [← a7 k]
        have : ((Item.number neg ds sep :: items).map Item.cost).sum + k
            = (Item.number neg ds sep).cost + ((items.map Item.cost).sum + k) := by
          simp; omega
        rw [this, p7, Nat.add_comm 1]
        exact loadLoop_step O _ st0 _ p1 q1

theorem cost_le_length : ∀ items : List Item,
    (items.map Item.cost).sum ≤ ((items.map Item.render).flatten).length := by
  intro items
  induction items with
  | nil => simp
  | cons it items ih =>
    simp only [List.map_cons, List.sum_cons, List.flatten_cons, List.length_append]
    have : it.cost ≤ it.render.length := by
      cases it with
      | space ch => simp [Item.cost, Item.render]
      | skipped first body => simp [Item.cost, Item.render]
      | number neg ds sep =>
        cases neg <;> simp [Item.cost, Item.render, renderNumeral]
    omega

theorem foldl_add_log {σ : Type} (O : Ipasir σ) : ∀ (vals : List Int) (e : Env σ),
    (vals.foldl (ipasir_add O) e).log = e.log ++ vals.map Event.add := by
  intro vals
  induction vals with
  | nil => intro e; simp
  | cons v vals ih =>
    intro e
    simp only [List.foldl_cons, List.map_cons]
    rw [ih]
    simp [ipasir_add, record]

theorem loadLoop_done {σ : Type} (O : Ipasir σ) (k : Nat) (st : LoadState σ) (hc : st.c = EOF) :
    loadLoop O (k + 1) st = some st := by
  simp only [loadLoop, if_pos hc]

/-- The loader loop on a well-formed text with integers in range: enough fuel gives the
final state. -/
theorem loadLoop_text {σ : Type} (O : Ipasir σ) (e : Env σ) (items : List Item)
    (last : Option (Bool × List Char)) (nc : Int)
    (hwf : ∀ it ∈ items, it.wf = true)
    (hlast : ∀ t : Bool × List Char, last = some t → wfNumeral t.2 = true)
    (hrange : ∀ v ∈ integersOf items last, v.natAbs ≤ 2147483647)
    (hnc1 : -2147483648 ≤ nc)
    (hnc2 : nc + (((integersOf items last).count 0 : Nat) : Int) ≤ 2147483647) :
    ∃ st2 : LoadState σ,
      st2.env = (integersOf items last).foldl (ipasir_add O) e ∧
      st2.maxVar = maxAbs 0 (integersOf items last) ∧
      st2.numClauses = nc + (((integersOf items last).count 0 : Nat) : Int) ∧
      ∀ fuel : Nat, (renderText items last).length + 2 ≤ fuel →
        loadLoop O fuel
          { env := e, f := renderText items last, c := 0, neg := false, maxVar := 0,
            numClauses := nc } = some st2 := by
  have hcost := cost_le_length items
  cases last with
  | none =>
    have hint : integersOf items none = items.filterMap Item.value := by simp [integersOf]
    have htext : renderText items none = (items.map Item.render).flatten ++ [] := by
      simp [renderText]
    rw [hint] at hrange hnc2 ⊢
    obtain ⟨st1, a1, a2, a3, a4, a5, a6, a7⟩ := loadLoop_items O items
      { env := e, f := renderText items none, c := 0, neg := false, maxVar := 0,
        numClauses := nc }
      [] (show (0 : Int) ≠ EOF by decide) rfl htext hwf hrange hnc1 hnc2
    refine ⟨{ st1 with c := EOF, f := [] }, a4, a5, a6, fun fuel hfuel => ?_⟩
    have hlen : (renderText items none).length = ((items.map Item.render).flatten).length := by
      rw [htext]; simp
    obtain ⟨k, rfl⟩ : ∃ k, fuel = (items.map Item.cost).sum + (k + 1 + 1) :=
      ⟨fuel - (items.map Item.cost).sum - 2, by omega⟩
    rw [a7, loadLoop_step O _ st1 _ a1 (loadIter_EOF O st1 a3)]
    exact loadLoop_done O k _ rfl
  | some t =>
    obtain ⟨neg, ds⟩ := t
    have hwfn : wfNumeral ds = true := hlast (neg, ds) rfl
    have hint : integersOf items (some (neg, ds))
        = items.filterMap Item.value ++ [numeralValue neg ds] := by simp [integersOf]
    have htext : renderText items (some (neg, ds))
        = (items.map Item.render).flatten ++ renderNumeral neg ds := by simp [renderText]
    rw [hint] at hrange hnc2 ⊢
    have hv := hrange (numeralValue neg ds) (by simp)
    have hdv := decimalValue_le_of_range neg ds hwfn hv
    have hcount : (((items.filterMap Item.value ++ [numeralValue neg ds]).count 0 : Nat) : Int)
        = (((items.filterMap Item.value).count 0 : Nat) : Int)
          + (if numeralValue neg ds = 0 then 1 else 0) := by
      rw [List.count_append, Nat.cast_add, count_zero_cons]
      simp
    rw [hcount] at hnc2 ⊢
    have hcnt : (0 : Int) ≤ (((items.filterMap Item.value).count 0 : Nat) : Int) :=
      Int.ofNat_nonneg _
    obtain ⟨st1, a1, a2, a3, a4, a5, a6, a7⟩ := loadLoop_items O items
      { env := e, f := renderText items (some (neg, ds)), c := 0, neg := false,
        maxVar := 0, numClauses := nc }
      (renderNumeral neg ds) (show (0 : Int) ≠ EOF by decide) rfl htext hwf
        (fun v hv => hrange v (List.mem_append_left _ hv)) hnc1
        (show nc + _ ≤ (2147483647 : Int) by split_ifs at hnc2 <;> omega)
    simp only [] at a4 a5 a6
    have hE : isdigit (fgetc ([] : List Char)).1 = false := by decide
    have hpre : ∃ st0 : LoadState σ, st0.c ≠ EOF ∧ st0.neg = neg ∧ st0.f = ds ++ [] ∧
        st0.env = st1.env ∧ st0.maxVar = st1.maxVar ∧ st0.numClauses = st1.numClauses ∧
        ∀ k : Nat, loadLoop O ((renderNumeral neg ds).length + 1 + k) st1
          = loadLoop O (ds.length + 1 + k) st0 := by
      cases neg with
      | false =>
        refine ⟨st1, a1, a2, ?_, rfl, rfl, rfl, fun k => ?_⟩
        · rw [a3]; simp [renderNumeral]
        · simp [renderNumeral]
      | true =>
        refine ⟨{ st1 with c := 45, neg := true, f := ds ++ [] },
          (show (45 : Int) ≠ EOF by decide), rfl, rfl, rfl, rfl, rfl, fun k => ?_⟩
        have hstep := loadIter_minus O st1 ds (by rw [a3]; simp [renderNumeral])
        have : (renderNumeral true ds).length + 1 + k = (ds.length + 1 + k) + 1 := by
          simp [renderNumeral]; omega
        rw [this, loadLoop_step O _ st1 _ a1 hstep]
        simp
    obtain ⟨st0, p1, p2, p3, p4, p5, p6, p7⟩ := hpre
    obtain ⟨st2, q1, q2, q3, q4, q5, q6, q7⟩ := loadIter_numeral O st0 ds [] p3 hwfn hdv.2 hE
      (by rw [p6, a6]; omega) (by rw [p6, p2, a6]; split_ifs at hnc2 ⊢ <;> omega)
    rw [p2] at q2 q6 q7
    refine ⟨st2, ?_, ?_, ?_, fun fuel hfuel => ?_⟩
    · rw [q2, p4, a4, List.foldl_append]; rfl
    · rw [q6, p5, a5]; simp [maxAbs, List.foldl_append]
    · rw [q7, p6, a6]; ring
    · have hlen : (renderText items (some (neg, ds))).length
          = ((items.map Item.render).flatten).length + (renderNumeral neg ds).length := by
        rw [htext]; simp
      have hds : 1 ≤ ds.length := by
        cases ds with
        | nil => simp [wfNumeral] at hwfn
        | cons d ds => simp
      have hrl : ds.length ≤ (renderNumeral neg ds).length := by
        simp [renderNumeral]
      obtain ⟨k, rfl⟩ : ∃ k, fuel = (items.map Item.cost).sum
          + ((renderNumeral neg ds).length + 1 + k) :=
        ⟨fuel - (items.map Item.cost).sum - (renderNumeral neg ds).length - 1, by omega⟩
      rw [a7, p7]
      have : ds.length + 1 + k = (ds.length - 1 + k + 1) + 1 := by omega
      rw [this, loadLoop_step O _ st0 _ p1 q1]
      exact loadLoop_done O _ _ q4

/-- C12 (as amended): on every text made of whitespace, newline-terminated lines starting
with `c` or `p`, and whitespace-separated decimal integers with an optional leading `-`
whose absolute values are at most 2147483647 (the last one possibly ended by the end of
the file), with `numClauses` staying in the range of `int`, `loadFormula` with enough
fuel returns true; the values passed to `add` are exactly the integers of the text in file
order; `maxVar` is their largest absolute value (0 if there are none); `numClauses` has
grown by the number of zeros among them. -/
theorem loader_streams_integers {σ : Type} (O : Ipasir σ) (e : Env σ) (items : List Item)
    (last : Option (Bool × List Char)) (maxVar numClauses : Int) (fuel : Nat)
    (hwf : ∀ it ∈ items, it.wf = true)
    (hlast : ∀ t : Bool × List Char, last = some t → wfNumeral t.2 = true)
    (hrange : ∀ v ∈ integersOf items last, v.natAbs ≤ 2147483647)
    (hnc1 : -2147483648 ≤ numClauses)
    (hnc2 : numClauses + (((integersOf items last).count 0 : Nat) : Int) ≤ 2147483647)
    (hfuel : (renderText items last).length + 2 ≤ fuel) :
    ∃ r : LoadResult σ,
      loadFormula O e (some (renderText items last)) maxVar numClauses fuel = some r ∧
      r.loaded = true ∧
      r.env.log = e.log ++ (integersOf items last).map Event.add ∧
      r.env.solver = (integersOf items last).foldl O.add e.solver ∧
      r.maxVar = maxAbs 0 (integersOf items last) ∧
      r.numClauses = numClauses + (((integersOf items last).count 0 : Nat) : Int) := by
  obtain ⟨st2, h1, h2, h3, h4⟩ := loadLoop_text O e items last numClauses hwf hlast hrange
    hnc1 hnc2
  refine ⟨{ loaded := true, env := st2.env, maxVar := st2.maxVar,
            numClauses := st2.numClauses }, ?_, rfl, ?_, ?_, h2, h3⟩
  · unfold loadFormula
    simp only [h4 fuel hfuel]
  · show st2.env.log = _
    rw [h1, foldl_add_log]
  · show st2.env.solver = _
    rw [h1]
    generalize integersOf items last = vals
    clear h1 h2 h3 h4 hrange hnc2
    induction vals generalizing e with
    | nil => rfl
    | cons v vals ih => exact ih (ipasir_add O e v)

theorem loader_streams_integers_witness :
    ∃ r : LoadResult BruteState,
      loadFormula (bruteOracle []) ⟨(bruteOracle []).init, [], []⟩
        (some (renderText [Item.skipped 'p' [' ', 'c', 'n', 'f', ' ', '9', ' ', '9'],
          Item.number false ['1'] ' ', Item.number true ['2', '0'] ' ',
          Item.number false ['0'] '\n'] (some (true, ['3'])))) 7 0 40 = some r ∧
      r.loaded = true ∧
      r.env.log = [] ++ [Event.add 1, Event.add (-20), Event.add 0, Event.add (-3)] ∧
      r.env.solver = [1, -20, 0, -3].foldl (bruteOracle []).add (bruteOracle []).init ∧
      r.maxVar = 20 ∧
      r.numClauses = 0 + 1 :=
  loader_streams_integers (bruteOracle []) ⟨(bruteOracle []).init, [], []⟩
    [Item.skipped 'p' [' ', 'c', 'n', 'f', ' ', '9', ' ', '9'],
      Item.number false ['1'] ' ', Item.number true ['2', '0'] ' ',
      Item.number false ['0'] '\n'] (some (true, ['3'])) 7 0 40
    (by decide) (by decide) (by decide) (by decide) (by decide) (by decide)

/-- C12 (counterexample): on the text `2147483648 0` followed by a newline, whose first
integer does not fit the 32-bit `int` of the program, `loadFormula` returns true but
`add` receives `-2147483648`, not `2147483648`, and `maxVar` ends at `0`. -/
theorem loader_wraps_large_integer :
    renderText [Item.number false ['2', '1', '4', '7', '4', '8', '3', '6', '4', '8'] ' ',
        Item.number false ['0'] '\n'] none
      = ['2', '1', '4', '7', '4', '8', '3', '6', '4', '8', ' ', '0', '\n'] ∧
    integersOf [Item.number false ['2', '1', '4', '7', '4', '8', '3', '6', '4', '8'] ' ',
        Item.number false ['0'] '\n'] none = [2147483648, 0] ∧
    (loadFormula (bruteOracle []) ⟨(bruteOracle []).init, [], []⟩
        (some ['2', '1', '4', '7', '4', '8', '3', '6', '4', '8', ' ', '0', '\n']) 0 0 15).map
      (fun r => (r.loaded, r.env.log, r.maxVar, r.numClauses))
      = some (true, [Event.add (-2147483648), Event.add 0], 0, 1) := by
  refine ⟨by decide, by decide, by decide⟩

theorem backbone_vector_invariant_witness :
    ValInRange (bruteOracle []) ∧
    VecInv 2
      (solve_advanced (bruteOracle [])
        ⟨(ipasir_solve (bruteOracle []) ⟨bruteWith [[1, 2], [-1, 2]], [], []⟩).2.solver, [], []⟩
        (List.replicate (2 + 1) 0) 2 0).env.log
      (solve_advanced (bruteOracle [])
        ⟨(ipasir_solve (bruteOracle []) ⟨bruteWith [[1, 2], [-1, 2]], [], []⟩).2.solver, [], []⟩
        (List.replicate (2 + 1) 0) 2 0).backbone :=
  ⟨brute_valInRange [],
    ((backbone_vector_invariant (bruteOracle [])
      (ipasir_solve (bruteOracle []) ⟨bruteWith [[1, 2], [-1, 2]], [], []⟩).2.solver 2 0).2
      (brute_valInRange [])).1⟩

/-! ## Runs of `main` -/

@[simp] theorem ipasir_init_log {σ : Type} (O : Ipasir σ) (e : Env σ) :
    (ipasir_init O e).log = e.log ++ [Event.init] := rfl

@[simp] theorem ipasir_init_solver {σ : Type} (O : Ipasir σ) (e : Env σ) :
    (ipasir_init O e).solver = O.init := rfl

@[simp] theorem ipasir_init_out {σ : Type} (O : Ipasir σ) (e : Env σ) :
    (ipasir_init O e).out = e.out := rfl

theorem wrap32_range (x : Int) : -2147483648 ≤ wrap32 x ∧ wrap32 x ≤ 2147483647 := by
  unfold wrap32; omega

theorem c_abs_range (x : Int) : -2147483648 ≤ c_abs x ∧ c_abs x ≤ 2147483647 :=
  wrap32_range _

theorem loadIter_maxVar {σ : Type} (O : Ipasir σ) (st st1 : LoadState σ)
    (h : loadIter O st = some st1) (hp : 0 ≤ st.maxVar ∧ st.maxVar ≤ 2147483647) :
    0 ≤ st1.maxVar ∧ st1.maxVar ≤ 2147483647 := by
  have key : st1.maxVar = st.maxVar ∨ (st.maxVar < st1.maxVar ∧ ∃ x, st1.maxVar = c_abs x) := by
    unfold loadIter at h
    simp only [] at h
    split_ifs at h
    · split at h
      · exact Option.noConfusion h
      · rw [Option.some.injEq] at h; rw [← h]; exact Or.inl rfl
    all_goals (rw [Option.some.injEq] at h; rw [← h])
    all_goals
      first
      | exact Or.inl (by with_reducible rfl)
      | exact Or.inr ⟨by assumption, _, by with_reducible rfl⟩
  rcases key with h1 | ⟨h1, x, h2⟩
  · rw [h1]; exact hp
  · have := c_abs_range x
    rw [h2] at h1 ⊢
    constructor <;> omega

/-- The loader leaves `maxVar` within `0..2147483647`. -/
theorem loadFormula_maxVar {σ : Type} (O : Ipasir σ) (e : Env σ) (content : List Char)
    (mv nc : Int) (fuel : Nat) (ld : LoadResult σ)
    (h : loadFormula O e (some content) mv nc fuel = some ld) :
    0 ≤ ld.maxVar ∧ ld.maxVar ≤ 2147483647 := by
  unfold loadFormula at h
  simp only at h
  split at h
  · simp at h
  · rename_i st hst
    simp at h
    rw [← h]
    exact loadLoop_inv O (fun x => 0 ≤ x.maxVar ∧ x.maxVar ≤ 2147483647)
      (fun a b hab ha => loadIter_maxVar O a b hab ha) fuel _ st hst
      (show (0 : Int) ≤ 0 ∧ (0 : Int) ≤ 2147483647 from ⟨le_refl _, by omega⟩)

theorem size_of_maxVar (mv : Int) (h0 : 0 ≤ mv) (h1 : mv ≤ 2147483647) :
    (wrap32 (mv + 1) < 0 ↔ mv = 2147483647) ∧
    (¬ wrap32 (mv + 1) < 0 → (wrap32 (mv + 1)).toNat = mv.toNat + 1) := by
  unfold wrap32
  constructor
  · omega
  · intro h
    omega

/-- What `main` does once usage check, options and loading have succeeded. -/
theorem main_run {σ : Type} (O : Ipasir σ) (argc : Int) (opts : List Char)
    (file : Option (List Char)) (fuel : Nat) (ld : LoadResult σ) (hargc : 2 ≤ argc)
    (hopt : (get_options (printf (printf (Env.mk O.init [] []) Out.banner) Out.solverLine)
      opts 0 0 0).ok = true)
    (hcap : (get_options (printf (printf (Env.mk O.init [] []) Out.banner) Out.solverLine)
      opts 0 0 0).opt_i ≠ 0 → strstr O.signature "minisat".toList = true)
    (hload : loadFormula O
      (ipasir_init O (printf (printf (Env.mk O.init [] []) Out.banner) Out.solverLine))
      file 0 0 fuel = some ld)
    (hloaded : ld.loaded = true) :
    main O argc opts file fuel =
      if (O.solve ld.env.solver).1 = UNSAT then
        some { status := some UNSAT, env := printf (ipasir_solve O ld.env).2 Out.unsatisfiable,
               backbone := none }
      else if wrap32 (ld.maxVar + 1) < 0 then
        some { status := none, env := (ipasir_solve O ld.env).2, backbone := none }
      else if (get_options (printf (printf (Env.mk O.init [] []) Out.banner) Out.solverLine)
          opts 0 0 0).opt_s ≠ 0 then
        some { status := some SAT,
               env := print_backbone
                 (solve_naive O (ipasir_solve O ld.env).2
                   (List.replicate (wrap32 (ld.maxVar + 1)).toNat 0) ld.maxVar.toNat
                   (get_options (printf (printf (Env.mk O.init [] []) Out.banner)
                     Out.solverLine) opts 0 0 0).opt_i).1
                 (solve_naive O (ipasir_solve O ld.env).2
                   (List.replicate (wrap32 (ld.maxVar + 1)).toNat 0) ld.maxVar.toNat
                   (get_options (printf (printf (Env.mk O.init [] []) Out.banner)
                     Out.solverLine) opts 0 0 0).opt_i).2,
               backbone := some (solve_naive O (ipasir_solve O ld.env).2
                   (List.replicate (wrap32 (ld.maxVar + 1)).toNat 0) ld.maxVar.toNat
                   (get_options (printf (printf (Env.mk O.init [] []) Out.banner)
                     Out.solverLine) opts 0 0 0).opt_i).2 }
      else if (get_options (printf (printf (Env.mk O.init [] []) Out.banner) Out.solverLine)
          opts 0 0 0).opt_t ≠ 0 then
        some { status := some SAT,
               env := print_backbone
                 (solve_advanced O (ipasir_solve O ld.env).2
                   (List.replicate (wrap32 (ld.maxVar + 1)).toNat 0) ld.maxVar.toNat
                   (get_options (printf (printf (Env.mk O.init [] []) Out.banner)
                     Out.solverLine) opts 0 0 0).opt_i).env
                 (solve_advanced O (ipasir_solve O ld.env).2
                   (List.replicate (wrap32 (ld.maxVar + 1)).toNat 0) ld.maxVar.toNat
                   (get_options (printf (printf (Env.mk O.init [] []) Out.banner)
                     Out.solverLine) opts 0 0 0).opt_i).backbone,
               backbone := some (solve_advanced O (ipasir_solve O ld.env).2
                   (List.replicate (wrap32 (ld.maxVar + 1)).toNat 0) ld.maxVar.toNat
                   (get_options (printf (printf (Env.mk O.init [] []) Out.banner)
                     Out.solverLine) opts 0 0 0).opt_i).backbone }
      else
        some { status := some SAT,
               env := print_backbone (ipasir_solve O ld.env).2
                 (List.replicate (wrap32 (ld.maxVar + 1)).toNat 0),
               backbone := some (List.replicate (wrap32 (ld.maxVar + 1)).toNat 0) } := by
  unfold main
  simp only []
  rw [if_neg (by omega), if_neg (by simp [hopt]), if_neg (by
    intro hc; exact hc.2 (hcap hc.1)), get_options_env _ _ _ _ _ hopt, hload]
  simp only []
  rw [if_neg (by simp [hloaded])]
  simp only [ipasir_solve_res]
  split_ifs <;> rfl

/-- A run of `main` that gets past the usage and option checks never returns when the
loader does not. -/
theorem main_none_of_load_none {σ : Type} (O : Ipasir σ) (argc : Int) (opts : List Char)
    (file : Option (List Char)) (fuel : Nat) (hargc : 2 ≤ argc)
    (hopt : (get_options (printf (printf (Env.mk O.init [] []) Out.banner) Out.solverLine)
      opts 0 0 0).ok = true)
    (hcap : (get_options (printf (printf (Env.mk O.init [] []) Out.banner) Out.solverLine)
      opts 0 0 0).opt_i ≠ 0 → strstr O.signature "minisat".toList = true)
    (hload : loadFormula O
      (ipasir_init O (printf (printf (Env.mk O.init [] []) Out.banner) Out.solverLine))
      file 0 0 fuel = none) :
    main O argc opts file fuel = none := by
  unfold main
  simp only []
  rw [if_neg (by omega), if_neg (by simp [hopt]), if_neg (by
    intro hc; exact hc.2 (hcap hc.1)), get_options_env _ _ _ _ _ hopt, hload]

/-- A run of `main` that ends does so by returning one of the statuses 1, 2, 20, 10, which
are pairwise distinct, or in `abort`; only status 10 comes with a backbone vector. -/
theorem main_status_cases {σ : Type} (O : Ipasir σ) (argc : Int) (opts : List Char)
    (file : Option (List Char)) (fuel : Nat) (r : MainResult σ)
    (h : main O argc opts file fuel = some r) :
    (r.status = some 1 ∧ r.backbone = none) ∨ (r.status = some 2 ∧ r.backbone = none) ∨
    (r.status = some 20 ∧ r.backbone = none) ∨
    (r.status = some 10 ∧ r.backbone.isSome = true) ∨
    (r.status = none ∧ r.backbone = none) := by
  unfold main at h
  simp only [] at h
  have close : ∀ x : MainResult σ, some x = some r →
      ((x.status = some 1 ∧ x.backbone = none) ∨ (x.status = some 2 ∧ x.backbone = none) ∨
       (x.status = some 20 ∧ x.backbone = none) ∨
       (x.status = some 10 ∧ x.backbone.isSome = true) ∨
       (x.status = none ∧ x.backbone = none)) →
      ((r.status = some 1 ∧ r.backbone = none) ∨ (r.status = some 2 ∧ r.backbone = none) ∨
       (r.status = some 20 ∧ r.backbone = none) ∨
       (r.status = some 10 ∧ r.backbone.isSome = true) ∨
       (r.status = none ∧ r.backbone = none)) := by
    intro x hx hgoal
    rw [Option.some.injEq] at hx
    rw [← hx]; exact hgoal
  split_ifs at h
  all_goals try split at h
  all_goals try split_ifs at h
  all_goals
    first
    | exact Option.noConfusion h
    | exact close _ h (Or.inl ⟨rfl, rfl⟩)
    | exact close _ h (Or.inr (Or.inl ⟨rfl, rfl⟩))
    | exact close _ h (Or.inr (Or.inr (Or.inl ⟨rfl, rfl⟩)))
    | exact close _ h (Or.inr (Or.inr (Or.inr (Or.inl ⟨rfl, rfl⟩))))
    | exact close _ h (Or.inr (Or.inr (Or.inr (Or.inr ⟨rfl, rfl⟩))))

/-- When the input file cannot be opened, or all its comment and problem lines are closed
by a newline and the fuel covers its length, the run of `main` ends: it returns one of the
statuses 1, 2, 20, 10, or it ends in `abort`. -/
theorem main_returns_of_closed {σ : Type} (O : Ipasir σ) (argc : Int) (opts : List Char)
    (file : Option (List Char)) (fuel : Nat)
    (hfile : ∀ content, file = some content →
      commentsClosed content = true ∧ content.length + 2 ≤ fuel) :
    ∃ r : MainResult σ, main O argc opts file fuel = some r ∧
      ((r.status = some 1 ∧ r.backbone = none) ∨ (r.status = some 2 ∧ r.backbone = none) ∨
       (r.status = some 20 ∧ r.backbone = none) ∨
       (r.status = some 10 ∧ r.backbone.isSome = true) ∨
       (r.status = none ∧ r.backbone = none)) := by
  have hret : ∃ r : MainResult σ, main O argc opts file fuel = some r := by
    have hld : ∃ ld, loadFormula O
        (ipasir_init O (get_options (printf (printf (Env.mk O.init [] []) Out.banner)
          Out.solverLine) opts 0 0 0).env) file 0 0 fuel = some ld := by
      cases file with
      | none => exact ⟨_, rfl⟩
      | some content =>
        obtain ⟨hcl, hfuel⟩ := hfile content rfl
        obtain ⟨ld, h, _⟩ := loadFormula_of_closed O
          (ipasir_init O (get_options (printf (printf (Env.mk O.init [] []) Out.banner)
            Out.solverLine) opts 0 0 0).env) content 0 0 fuel hcl hfuel
        exact ⟨ld, h⟩
    obtain ⟨ld, hld⟩ := hld
    unfold main
    simp only []
    rw [hld]
    simp only []
    split_ifs <;> exact ⟨_, rfl⟩
  obtain ⟨r, hr⟩ := hret
  exact ⟨r, hr, main_status_cases O argc opts file fuel r hr⟩

/-- C7: when the run reaches the first `solve()` (usage check, options, `ipasir_init()` and
loading passed) and that call answers UNSAT, `main` returns status 20 (not 10) with no
backbone vector: after loading, the log holds that single `solve` and nothing else (no
assume, solve or val call follows), and the whole output is the banner, the solver line
and the unsatisfiable message (no algorithm header, no backbone line). -/
theorem unsat_short_circuit {σ : Type} (O : Ipasir σ) (argc : Int) (opts : List Char)
    (file : Option (List Char)) (fuel : Nat) (ld : LoadResult σ)
    (hargc : 2 ≤ argc)
    (hopt : (get_options (printf (printf (Env.mk O.init [] []) Out.banner) Out.solverLine)
      opts 0 0 0).ok = true)
    (hcap : (get_options (printf (printf (Env.mk O.init [] []) Out.banner) Out.solverLine)
      opts 0 0 0).opt_i ≠ 0 → strstr O.signature "minisat".toList = true)
    (hload : loadFormula O
      (ipasir_init O (get_options (printf (printf (Env.mk O.init [] []) Out.banner)
        Out.solverLine) opts 0 0 0).env) file 0 0 fuel = some ld)
    (hloaded : ld.loaded = true)
    (hunsat : (O.solve ld.env.solver).1 = UNSAT) :
    ∃ r : MainResult σ, main O argc opts file fuel = some r ∧
      r.status = some 20 ∧ r.status ≠ some SAT ∧ r.backbone = none ∧
      r.env.log = ld.env.log ++ [Event.solve UNSAT] ∧
      r.env.out = [Out.banner, Out.solverLine, Out.unsatisfiable] := by
  have hout := loadFormula_out O _ file 0 0 fuel ld hload
  rw [get_options_env _ _ _ _ _ hopt] at hout
  refine ⟨{ status := some UNSAT, env := printf (ipasir_solve O ld.env).2 Out.unsatisfiable,
            backbone := none }, ?hm, rfl, ?hne, rfl, ?hlog, ?hout⟩
  case hm =>
    unfold main
    simp only []
    rw [if_neg (by omega), if_neg (by simp [hopt]), if_neg (by
      intro hc; exact hc.2 (hcap hc.1)), hload]
    simp only []
    rw [if_neg (by simp [hloaded]), if_pos (by simpa using hunsat)]
  case hne =>
    show some UNSAT ≠ some SAT
    decide
  case hlog => simp [hunsat]
  case hout =>
    show ld.env.out ++ [Out.unsatisfiable] = _
    rw [hout]; rfl

theorem unsat_short_circuit_witness :
    ∃ r : MainResult BruteState,
      main (bruteOracle []) 2 [] (some ['1', ' ', '0', '\n', '-', '1', ' ', '0', '\n']) 20
        = some r ∧
      r.status = some 20 ∧ r.status ≠ some SAT ∧ r.backbone = none ∧
      r.env.log = [Event.init, Event.add 1, Event.add 0, Event.add (-1), Event.add 0]
        ++ [Event.solve UNSAT] ∧
      r.env.out = [Out.banner, Out.solverLine, Out.unsatisfiable] :=
  unsat_short_circuit (bruteOracle []) 2 []
    (some ['1', ' ', '0', '\n', '-', '1', ' ', '0', '\n']) 20 _
    (by decide) rfl (by decide) rfl rfl rfl

/-- C8 (counterexample): on the empty file `loadFormula` returns true
and `main`, having called `ipasir_init`, goes on to call `solve` and ends with status 10,
not 2. -/
theorem empty_file_is_loaded :
    (loadFormula (bruteOracle []) (Env.mk (bruteOracle []).init [] []) (some []) 0 0 2).map
        (fun ld => ld.loaded) = some true ∧
    (main (bruteOracle []) 2 [] (some []) 2).map (fun r => r.status) = some (some 10) ∧
    (main (bruteOracle []) 2 [] (some []) 2).map (fun r => r.env.log)
      = some [Event.init, Event.solve 10] := by
  refine ⟨rfl, rfl, rfl⟩

/-- C8 (amended): a file that cannot be opened makes `loadFormula` return false without
touching the solver, and `main`, once past the usage and option checks, then ends with
status 2 with no add, assume, solve or val call issued (its only call is `ipasir_init`);
an existing empty file is not an error: `loadFormula` returns true on it with `maxVar = 0`
and no call on the solver, and `main` goes on to the first `solve` and ends with status 10
or 20. -/
theorem load_error_iff_unopenable {σ : Type} (O : Ipasir σ) (argc : Int) (opts : List Char)
    (fuel : Nat) (hargc : 2 ≤ argc)
    (hopt : (get_options (printf (printf (Env.mk O.init [] []) Out.banner) Out.solverLine)
      opts 0 0 0).ok = true)
    (hcap : (get_options (printf (printf (Env.mk O.init [] []) Out.banner) Out.solverLine)
      opts 0 0 0).opt_i ≠ 0 → strstr O.signature "minisat".toList = true) :
    (∀ (e : Env σ) (mv nc : Int),
      loadFormula O e none mv nc fuel
        = some { loaded := false, env := e, maxVar := mv, numClauses := nc }) ∧
    (∃ r : MainResult σ, main O argc opts none fuel = some r ∧ r.status = some 2 ∧
      r.env.log = [Event.init] ∧ r.backbone = none ∧
      r.env.out = [Out.banner, Out.solverLine, Out.notLoaded]) ∧
    (∀ (e : Env σ) (mv nc : Int),
      loadFormula O e (some []) mv nc (fuel + 2)
        = some { loaded := true, env := e, maxVar := 0, numClauses := nc }) ∧
    (∃ r : MainResult σ, main O argc opts (some []) (fuel + 2) = some r ∧
      (r.status = some 10 ∨ r.status = some 20) ∧
      r.env.log = [Event.init, Event.solve (O.solve O.init).1]) := by
  refine ⟨fun e mv nc => rfl, ?_, fun e mv nc => rfl, ?_⟩
  · refine ⟨{ status := some 2,
              env := printf (ipasir_init O (get_options (printf (printf
                (Env.mk O.init [] []) Out.banner) Out.solverLine) opts 0 0 0).env)
                Out.notLoaded,
              backbone := none },
      ?hm, rfl, ?hlog, rfl, ?hout⟩
    case hm =>
      unfold main
      simp only []
      rw [if_neg (by omega), if_neg (by simp [hopt]), if_neg (by
        intro hc; exact hc.2 (hcap hc.1))]
      rfl
    case hlog =>
      rw [get_options_env _ _ _ _ _ hopt]; rfl
    case hout =>
      rw [get_options_env _ _ _ _ _ hopt]; rfl
  · rw [main_run O argc opts (some []) (fuel + 2)
      { loaded := true,
        env := ipasir_init O (printf (printf (Env.mk O.init [] []) Out.banner)
          Out.solverLine),
        maxVar := 0, numClauses := 0 } hargc hopt hcap rfl rfl]
    have hsize : ¬ wrap32 ((0 : Int) + 1) < 0 := by decide
    have hw1 : wrap32 1 = 1 := by decide
    rw [if_neg hsize]
    split_ifs with h1 h2 h3
    · exact ⟨_, rfl, Or.inr rfl, by simp⟩
    · exact ⟨_, rfl, Or.inl rfl, by simp [solve_naive, print_backbone, hw1]⟩
    · exact ⟨_, rfl, Or.inl rfl, by simp [solve_advanced, print_backbone, hw1]⟩
    · exact ⟨_, rfl, Or.inl rfl, by simp [print_backbone, hw1]⟩

theorem load_error_iff_unopenable_witness :
    (∀ (e : Env BruteState) (mv nc : Int),
      loadFormula (bruteOracle []) e none mv nc 5
        = some { loaded := false, env := e, maxVar := mv, numClauses := nc }) ∧
    (∃ r : MainResult BruteState, main (bruteOracle []) 2 ['s'] none 5 = some r ∧
      r.status = some 2 ∧ r.env.log = [Event.init] ∧ r.backbone = none ∧
      r.env.out = [Out.banner, Out.solverLine, Out.notLoaded]) ∧
    (∀ (e : Env BruteState) (mv nc : Int),
      loadFormula (bruteOracle []) e (some []) mv nc (5 + 2)
        = some { loaded := true, env := e, maxVar := 0, numClauses := nc }) ∧
    (∃ r : MainResult BruteState, main (bruteOracle []) 2 ['s'] (some []) (5 + 2) = some r ∧
      (r.status = some 10 ∨ r.status = some 20) ∧
      r.env.log = [Event.init, Event.solve ((bruteOracle []).solve (bruteOracle []).init).1]) :=
  load_error_iff_unopenable (bruteOracle []) 2 ['s'] 5 (by decide) rfl (by decide)

/-! ## The two algorithms agree on every file -/

theorem view_add_replay {σ : Type} {O : Ipasir σ} {view : σ → View} (hO : AddCorrect O view)
    (s : σ) (x : Int) : view (O.add s x) = replayEvent (view s) (Event.add x) := by
  by_cases hx : x = 0
  · subst hx
    rw [hO.add_zero]; rfl
  · rw [hO.add_lit s x hx]
    simp [replayEvent, hx]

theorem loadIter_replay {σ : Type} {O : Ipasir σ} {view : σ → View} (hO : AddCorrect O view)
    (v0 : View) (st st1 : LoadState σ) (h : loadIter O st = some st1)
    (hp : view st.env.solver = replayView st.env.log v0) :
    view st1.env.solver = replayView st1.env.log v0 := by
  unfold loadIter at h
  simp only [] at h
  split_ifs at h
  · split at h
    · exact Option.noConfusion h
    · rw [Option.some.injEq] at h; rw [← h]; exact hp
  all_goals (rw [Option.some.injEq] at h; rw [← h])
  all_goals
    first
    | exact hp
    | (simp only [ipasir_add_solver, ipasir_add_log]
       rw [view_add_replay hO, hp, replayView_append]
       rfl)

/-- What loading leaves in an oracle that honours `add` is the replay of the `add` calls
the loader issued. -/
theorem loadFormula_replay {σ : Type} {O : Ipasir σ} {view : σ → View} (hO : AddCorrect O view)
    (e : Env σ) (v0 : View) (he : view e.solver = replayView e.log v0) (content : List Char)
    (mv nc : Int) (fuel : Nat) (ld : LoadResult σ)
    (h : loadFormula O e (some content) mv nc fuel = some ld) :
    view ld.env.solver = replayView ld.env.log v0 := by
  unfold loadFormula at h
  simp only at h
  split at h
  · exact Option.noConfusion h
  · rename_i st hst
    rw [Option.some.injEq] at h
    rw [← h]
    exact loadLoop_inv O (fun x => view x.env.solver = replayView x.env.log v0)
      (fun a b hab ha => loadIter_replay hO v0 a b hab ha) fuel _ st hst he

/-- C3: take a file and let `F` be the clause database, and `N` the `maxVar`, that loading
it leaves in a fresh correct oracle. A run of the program that selects the naive algorithm
and a run that selects the advanced one, each against its own correct oracle, end alike.
If loading never finishes, neither run returns. Otherwise both runs end, and: if `F` is
unsatisfiable, both return status 20 and produce no backbone; if `F` is satisfiable and
`N + 1` fits `int`, both return status 10 with the same vector, which is the backbone of
`F` on `1..N`; if `F` is satisfiable and `N = 2147483647`, both end in `abort` at the
declaration of `Backbone`, with no vector. On a file whose comment lines are all closed by
a newline, `length + 2` fuel suffices for loading to finish. The content loading leaves in
the oracle is the replay of the `add` calls the loader issued, so `F` is the formula the
file streams. -/
theorem naive_advanced_agree {σ1 σ2 : Type} (O1 : Ipasir σ1) (O2 : Ipasir σ2)
    (view1 : σ1 → View) (view2 : σ2 → View) (h1 : Correct O1 view1) (h2 : Correct O2 view2)
    (argc : Int) (hargc : 2 ≤ argc) (optsN optsA : List Char)
    (hN1 : 's' ∈ optsN) (hN2 : ∀ c ∈ optsN, c = 's' ∨ c = 'i')
    (hA : ∀ c ∈ optsA, c = 't' ∨ c = 'i')
    (hcapN : 'i' ∈ optsN → strstr O1.signature "minisat".toList = true)
    (hcapA : 'i' ∈ optsA → strstr O2.signature "minisat".toList = true)
    (content : List Char) (fuel : Nat) :
    (loadFormula O1 (Env.mk O1.init [] []) (some content) 0 0 fuel = none →
      main O1 argc optsN (some content) fuel = none ∧
      main O2 argc optsA (some content) fuel = none) ∧
    (∀ (ld : LoadResult σ1) (F : List (List Int)) (N : Int),
      loadFormula O1 (Env.mk O1.init [] []) (some content) 0 0 fuel = some ld →
      (view1 ld.env.solver).db = F → ld.maxVar = N →
      ∃ (rN : MainResult σ1) (rA : MainResult σ2),
        main O1 argc optsN (some content) fuel = some rN ∧
        main O2 argc optsA (some content) fuel = some rA ∧
        ((¬ Satisfiable F ∧ rN.status = some UNSAT ∧ rA.status = some UNSAT ∧
            rN.backbone = none ∧ rA.backbone = none) ∨
         (Satisfiable F ∧ N < 2147483647 ∧ rN.status = some SAT ∧ rA.status = some SAT ∧
            ∃ bb : List Int, rN.backbone = some bb ∧ rA.backbone = some bb ∧
              IsBackbone F N.toNat bb) ∨
         (Satisfiable F ∧ N = 2147483647 ∧ rN.status = none ∧ rA.status = none ∧
            rN.backbone = none ∧ rA.backbone = none))) ∧
    (commentsClosed content = true → content.length + 2 ≤ fuel →
      ∃ ld : LoadResult σ1,
        loadFormula O1 (Env.mk O1.init [] []) (some content) 0 0 fuel = some ld) ∧
    (∀ ld : LoadResult σ1,
      loadFormula O1 (Env.mk O1.init [] []) (some content) 0 0 fuel = some ld →
      view1 ld.env.solver = replayView ld.env.log { db := [], cur := [], assumps := [] }) := by
  obtain ⟨gN1, gN2, gN3⟩ := get_options_naive
    (printf (printf (Env.mk O1.init [] []) Out.banner) Out.solverLine) optsN hN1 hN2
  obtain ⟨gA1, gA2, gA3, gA4⟩ := get_options_advanced
    (printf (printf (Env.mk O2.init [] []) Out.banner) Out.solverLine) optsA hA
  have hinit1 : (view1 O1.init).assumps = [] := by rw [h1.init_view]
  refine ⟨fun hl => ⟨?_, ?_⟩, ?_, ?_, fun ld hld =>
    loadFormula_replay h1.toAddCorrect (Env.mk O1.init [] []) _
      (by show view1 O1.init = _; rw [h1.init_view]; rfl) content 0 0 fuel ld hld⟩
  · exact main_none_of_load_none O1 argc optsN (some content) fuel hargc gN1
      (fun h => hcapN (gN3 h))
      (loadFormula_none_agree h1.toAddCorrect h1.toAddCorrect (Env.mk O1.init [] [])
        (ipasir_init O1 (printf (printf (Env.mk O1.init [] []) Out.banner) Out.solverLine))
        rfl content fuel hl)
  · exact main_none_of_load_none O2 argc optsA (some content) fuel hargc gA1
      (fun h => hcapA (gA4 h))
      (loadFormula_none_agree h1.toAddCorrect h2.toAddCorrect (Env.mk O1.init [] [])
        (ipasir_init O2 (printf (printf (Env.mk O2.init [] []) Out.banner) Out.solverLine))
        (by show view1 O1.init = view2 O2.init; rw [h1.init_view, h2.init_view])
        content fuel hl)
  · intro ld0 F N hld0 hF hN
    obtain ⟨hmv0, hmv1⟩ := loadFormula_maxVar O1 _ content 0 0 fuel ld0 hld0
    obtain ⟨ldN, hldN, _, hNl, hmvN, hviewN, hass0⟩ := loadFormula_agree h1.toAddCorrect
      h1.toAddCorrect (Env.mk O1.init [] [])
      (ipasir_init O1 (printf (printf (Env.mk O1.init [] []) Out.banner) Out.solverLine))
      rfl hinit1 content fuel ld0 hld0
    obtain ⟨ldA, hldA, _, hAl, hmvA, hviewA, _⟩ := loadFormula_agree h1.toAddCorrect
      h2.toAddCorrect (Env.mk O1.init [] [])
      (ipasir_init O2 (printf (printf (Env.mk O2.init [] []) Out.banner) Out.solverLine))
      (by show view1 O1.init = view2 O2.init; rw [h1.init_view, h2.init_view])
      hinit1 content fuel ld0 hld0
    rw [main_run O1 argc optsN (some content) fuel ldN hargc gN1 (fun h => hcapN (gN3 h))
          hldN hNl,
        main_run O2 argc optsA (some content) fuel ldA hargc gA1 (fun h => hcapA (gA4 h))
          hldA hAl]
    have hassN : (view1 ldN.env.solver).assumps = [] := by rw [← hviewN]; exact hass0
    have hassA : (view2 ldA.env.solver).assumps = [] := by rw [← hviewA]; exact hass0
    have hdbN : ∀ m : Assignment, formulaSat m (view1 ldN.env.solver).db = formulaSat m F :=
      fun m => by rw [← hviewN, hF]
    have hdbA : ∀ m : Assignment, formulaSat m (view2 ldA.env.solver).db = formulaSat m F :=
      fun m => by rw [← hviewA, hF]
    rw [← hmvN, ← hmvA, hN]
    rw [hN] at hmv0 hmv1
    obtain ⟨hsz1, hsz2⟩ := size_of_maxVar N hmv0 hmv1
    by_cases hSat : Satisfiable F
    · obtain ⟨m, hm⟩ := hSat
      have hsat1 : (O1.solve ldN.env.solver).1 = SAT :=
        h1.solve_sat _ ⟨m, by rw [hdbN]; exact hm, by rw [hassN]; rfl⟩
      have hsat2 : (O2.solve ldA.env.solver).1 = SAT :=
        h2.solve_sat _ ⟨m, by rw [hdbA]; exact hm, by rw [hassA]; rfl⟩
      have hc1 : ¬ (O1.solve ldN.env.solver).1 = UNSAT := by rw [hsat1]; exact sat_ne_unsat
      have hc2 : ¬ (O2.solve ldA.env.solver).1 = UNSAT := by rw [hsat2]; exact sat_ne_unsat
      have ho1 : (get_options (printf (printf (Env.mk O1.init [] []) Out.banner)
          Out.solverLine) optsN 0 0 0).opt_s ≠ 0 := by rw [gN2]; decide
      have ho2 : ¬ (get_options (printf (printf (Env.mk O2.init [] []) Out.banner)
          Out.solverLine) optsA 0 0 0).opt_s ≠ 0 := by rw [gA2]; decide
      have ho3 : (get_options (printf (printf (Env.mk O2.init [] []) Out.banner)
          Out.solverLine) optsA 0 0 0).opt_t ≠ 0 := by rw [gA3]; decide
      rw [if_neg hc1, if_neg hc2]
      by_cases hov : wrap32 (N + 1) < 0
      · rw [if_pos hov, if_pos hov]
        exact ⟨_, _, rfl, rfl, Or.inr (Or.inr ⟨⟨m, hm⟩, hsz1.1 hov, rfl, rfl, rfl, rfl⟩)⟩
      · rw [if_neg hov, if_pos ho1, if_neg hov, if_neg ho2, if_pos ho3]
        have hlt : N < 2147483647 := by
          rcases lt_or_eq_of_le hmv1 with h | h
          · exact h
          · exact absurd (hsz1.2 h) hov
        have hs1 : Holds view1 F (O1.solve ldN.env.solver).2 :=
          ⟨fun m => by rw [h1.solve_view]; exact hdbN m, by rw [h1.solve_view]⟩
        have specN := (solve_naive_spec h1.toSolveCorrect ⟨m, hm⟩
          (get_options (printf (printf (Env.mk O1.init [] []) Out.banner) Out.solverLine)
            optsN 0 0 0).opt_i
          (fun _ => h1.toAddCorrect)
          (ipasir_solve O1 ldN.env).2 (List.replicate (wrap32 (N + 1)).toNat 0)
          N.toNat hs1 (getD_replicate_zero _)).2
        have specA := (solve_advanced_spec h2.toSolveCorrect h2.toValCorrect ldA.env.solver
          hdbA hsat2
          (get_options (printf (printf (Env.mk O2.init [] []) Out.banner) Out.solverLine)
            optsA 0 0 0).opt_i
          (fun _ => h2.toAddCorrect)
          (ipasir_solve O2 ldA.env).2 rfl (List.replicate (wrap32 (N + 1)).toNat 0)
          N.toNat (getD_replicate_zero _)).2
        rw [List.length_replicate, hsz2 hov] at specN specA
        rw [hsz2 hov]
        refine ⟨_, _, rfl, rfl, Or.inr (Or.inl ⟨⟨m, hm⟩, hlt, rfl, rfl, _, rfl, ?_,
          backboneVec_isBackbone specN⟩)⟩
        exact congrArg some (backboneVec_unique specA specN)
    · have hun1 : (O1.solve ldN.env.solver).1 = UNSAT :=
        h1.solve_unsat _ (fun ⟨m, hm, _⟩ => hSat ⟨m, by rw [← hdbN]; exact hm⟩)
      have hun2 : (O2.solve ldA.env.solver).1 = UNSAT :=
        h2.solve_unsat _ (fun ⟨m, hm, _⟩ => hSat ⟨m, by rw [← hdbA]; exact hm⟩)
      rw [if_pos hun1, if_pos hun2]
      exact ⟨_, _, rfl, rfl, Or.inl ⟨hSat, rfl, rfl, rfl, rfl⟩⟩
  · intro hcl hfuel
    obtain ⟨ld, hld, _⟩ := loadFormula_of_closed O1 (Env.mk O1.init [] []) content 0 0 fuel
      hcl hfuel
    exact ⟨ld, hld⟩

theorem naive_advanced_agree_witness :
    Satisfiable [[1, 2], [-1, 2]] ∧
    ∃ (rN : MainResult BruteState) (rA : MainResult BruteState),
      main (bruteOracle []) 2 ['s']
        (some ['1', ' ', '2', ' ', '0', '\n', '-', '1', ' ', '2', ' ', '0', '\n']) 20 = some rN ∧
      main (bruteOracle []) 2 ['t']
        (some ['1', ' ', '2', ' ', '0', '\n', '-', '1', ' ', '2', ' ', '0', '\n']) 20 = some rA ∧
      ((¬ Satisfiable [[1, 2], [-1, 2]] ∧ rN.status = some UNSAT ∧ rA.status = some UNSAT ∧
          rN.backbone = none ∧ rA.backbone = none) ∨
       (Satisfiable [[1, 2], [-1, 2]] ∧ (2 : Int) < 2147483647 ∧ rN.status = some SAT ∧
          rA.status = some SAT ∧
          ∃ bb : List Int, rN.backbone = some bb ∧ rA.backbone = some bb ∧
            IsBackbone [[1, 2], [-1, 2]] (2 : Int).toNat bb) ∨
       (Satisfiable [[1, 2], [-1, 2]] ∧ (2 : Int) = 2147483647 ∧ rN.status = none ∧
          rA.status = none ∧ rN.backbone = none ∧ rA.backbone = none)) :=
  ⟨⟨fun _ => true, by decide⟩,
    (naive_advanced_agree (bruteOracle []) (bruteOracle []) (fun s => s.view) (fun s => s.view)
      (brute_correct []) (brute_correct []) 2 (by decide) ['s'] ['t'] (by decide) (by decide)
      (by decide) (by decide) (by decide)
      ['1', ' ', '2', ' ', '0', '\n', '-', '1', ' ', '2', ' ', '0', '\n'] 20).2.1
      _ [[1, 2], [-1, 2]] 2 rfl rfl rfl⟩

/-- On the file `2147483647 0`, once the first `solve` has answered SAT, `main` ends in
`abort`: the size `numVar + 1` of `Backbone` does not fit `int`. No status is returned and
no backbone is produced. -/
theorem main_aborts_on_largest_variable :
    (main scriptedOracle 2 []
        (some ['2', '1', '4', '7', '4', '8', '3', '6', '4', '7', ' ', '0', '\n']) 15).map
      (fun r => (r.status, r.backbone, r.env.log))
      = some (none, none, [Event.init, Event.add 2147483647, Event.add 0, Event.solve SAT]) := by
  decide

/-! ## The capability check of `-i` -/

/-- C11: a run of `main` in which `getopt` delivers `-i` while the solver signature does not
contain "minisat" ends with status 1 and no backbone before any call of the IPASIR
interface: its record is empty, so neither `ipasir_init` (recorded as `Event.init`) nor
any add, assume, solve or val call was made. And on
such a solver no run ever prints an algorithm header announcing injection, that is,
`solve_naive` and `solve_advanced` are only ever entered with `inject = 0`. -/
theorem injection_gated {σ : Type} (O : Ipasir σ) (argc : Int) (opts : List Char)
    (file : Option (List Char)) (fuel : Nat) :
    (('i' ∈ opts ∧ strstr O.signature "minisat".toList = false) →
      ∃ r : MainResult σ, main O argc opts file fuel = some r ∧ r.status = some 1 ∧
        r.env.log = [] ∧ Event.init ∉ r.env.log ∧ r.backbone = none) ∧
    (strstr O.signature "minisat".toList = false →
      ∀ r : MainResult σ, main O argc opts file fuel = some r →
        Out.algo1 true ∉ r.env.out ∧ Out.algo23 true ∉ r.env.out) := by
  obtain ⟨flog, fsolver, fout⟩ := get_options_frame
    (printf (printf (Env.mk O.init [] []) Out.banner) Out.solverLine) opts 0 0 0
  have hbase : Out.algo1 true ∉ (get_options (printf (printf (Env.mk O.init [] [])
      Out.banner) Out.solverLine) opts 0 0 0).env.out ∧
      Out.algo23 true ∉ (get_options (printf (printf (Env.mk O.init [] [])
      Out.banner) Out.solverLine) opts 0 0 0).env.out := by
    rcases fout with h | h <;> rw [h] <;> simp
  constructor
  · rintro ⟨hi, hns⟩
    unfold main
    simp only []
    by_cases h1 : argc < 2
    · rw [if_pos h1]; exact ⟨_, rfl, rfl, rfl, by simp, rfl⟩
    · rw [if_neg h1]
      by_cases h2 : ¬ (get_options (printf (printf (Env.mk O.init [] []) Out.banner)
          Out.solverLine) opts 0 0 0).ok = true
      · rw [if_pos h2]; exact ⟨_, rfl, rfl, flog, by rw [flog]; simp, rfl⟩
      · rw [if_neg h2]
        have hok : (get_options (printf (printf (Env.mk O.init [] []) Out.banner)
            Out.solverLine) opts 0 0 0).ok = true := by simpa using h2
        obtain ⟨_, htrue⟩ := get_options_spec
          (printf (printf (Env.mk O.init [] []) Out.banner) Out.solverLine) opts 0 0 0
          (Or.inl rfl) (Or.inl rfl) (Or.inl rfl) (by simp)
        obtain ⟨_, _, hopti⟩ := htrue hok
        rw [if_pos (Or.inr hi)] at hopti
        rw [if_pos ⟨by rw [hopti]; decide, by rw [hns]; simp⟩]
        exact ⟨_, rfl, rfl, flog, by show Event.init ∉ (get_options _ _ _ _ _).env.log
                                     rw [flog]; simp, rfl⟩
  · intro hns r hr
    have close : ∀ x : MainResult σ, some x = some r →
        (Out.algo1 true ∉ x.env.out ∧ Out.algo23 true ∉ x.env.out) →
        (Out.algo1 true ∉ r.env.out ∧ Out.algo23 true ∉ r.env.out) := by
      intro x hx hgoal
      rw [Option.some.injEq] at hx
      rw [← hx]; exact hgoal
    unfold main at hr
    simp only [] at hr
    by_cases h1 : argc < 2
    · rw [if_pos h1] at hr; exact close _ hr (by simp)
    · rw [if_neg h1] at hr
      by_cases h2 : ¬ (get_options (printf (printf (Env.mk O.init [] []) Out.banner)
          Out.solverLine) opts 0 0 0).ok = true
      · rw [if_pos h2] at hr; exact close _ hr hbase
      · rw [if_neg h2] at hr
        by_cases h3 : (get_options (printf (printf (Env.mk O.init [] []) Out.banner)
            Out.solverLine) opts 0 0 0).opt_i ≠ 0 ∧
            ¬ strstr O.signature "minisat".toList = true
        · rw [if_pos h3] at hr; exact close _ hr (by simpa using hbase)
        · rw [if_neg h3] at hr
          have hopti : (get_options (printf (printf (Env.mk O.init [] []) Out.banner)
              Out.solverLine) opts 0 0 0).opt_i = 0 := by
            by_contra hne
            exact h3 ⟨hne, by rw [hns]; simp⟩
          split at hr
          · exact Option.noConfusion hr
          · rename_i ld hld
            have hldout := loadFormula_out O _ file 0 0 fuel ld hld
            have hbase2 : Out.algo1 true ∉ ld.env.out ∧ Out.algo23 true ∉ ld.env.out := by
              rw [hldout, ipasir_init_out]; exact hbase
            by_cases h4 : ¬ ld.loaded = true
            · rw [if_pos h4] at hr; exact close _ hr (by simpa using hbase2)
            · rw [if_neg h4] at hr
              by_cases h5 : (ipasir_solve O ld.env).1 = UNSAT
              · rw [if_pos h5] at hr; exact close _ hr (by simpa using hbase2)
              · rw [if_neg h5] at hr
                by_cases h6 : wrap32 (ld.maxVar + 1) < 0
                · rw [if_pos h6] at hr; exact close _ hr (by simpa using hbase2)
                rw [if_neg h6] at hr
                refine close _ hr (print_backbone_no_header _ _ ?_)
                split_ifs
                · rw [solve_naive_out, hopti]
                  simpa using hbase2
                · rw [solve_advanced_out, hopti]
                  simpa using hbase2
                · simpa using hbase2

end IPASIRBones
